import Mathlib

/-
Verification of the hash-table engine of `ltable.c` (chained scatter table
with Brent's variation).  The table operations `luaH_mainposition`,
`luaH_get`, `luaH_set`, `rehash`, `newsize` and `luaH_new` are embedded
as executable Lean functions over a list-based slot array; intrusive
`next` pointers become indices into the array, and `lua_error` becomes an
`Except` error value.  Collaborators that are not part of the sources
(the tagged value model of `lobject.h`, `luaO_equalObj`, and
`luaO_redimension`) are modelled from the spec and marked as such.
-/

set_option linter.unusedVariables false

namespace Lunatik

/-- Modelled from the spec: the tagged value model of the host runtime
(`lobject.h` is not among the sources).  The variants follow the switch in
`luaH_mainposition`: Nil, Number (value-compared), Text and Userdata
(interned, carrying a precomputed hash and an identity), and
identity-keyed references (array, proto, cproto, closure) hashed by a
stable numeric identity. -/
inductive TObject where
  | nil
  | number (n : Int)
  | text (h : Nat) (id : Nat)
  | userdata (h : Nat) (id : Nat)
  | array (a : Nat)
  | proto (a : Nat)
  | cproto (a : Nat)
  | closure (a : Nat)
deriving DecidableEq

/-- Modelled from the spec: the error condition `InvalidKeyError`, raised
by the `lua_error("unexpected type to index table")` default branch of
`luaH_mainposition` (ltable.c line 63). -/
inductive LuaError where
  | invalidKey
deriving DecidableEq

/-- Hash of a key, following the switch of `luaH_mainposition`
(ltable.c lines 43-65): a number uses the `(unsigned long)(long)`
truncation of its value (modelled as the value modulo 2^64), text and
userdata use their precomputed hash field, the reference variants use
their numeric identity.  `none` corresponds to the `lua_error` default
branch (a key with no defined hash). -/
def hashOf : TObject → Option Nat
  | .nil => none
  | .number n => some (n.emod (2 ^ 64)).toNat
  | .text h _ => some h
  | .userdata h _ => some h
  | .array a => some a
  | .proto a => some a
  | .cproto a => some a
  | .closure a => some a

/-- Modelled from the spec: `luaO_equalObj` (lobject.c is not among the
sources) -- keys of different variants are unequal, numbers compare by
value, interned text/userdata and the reference variants compare by
identity.  On this model that coincides with structural equality. -/
def luaO_equalObj (a b : TObject) : Bool := decide (a = b)

instance : DecidableEq (Except LuaError TObject) := fun x y =>
  match x, y with
  | .ok a, .ok b =>
    if h : a = b then .isTrue (by rw [h]) else
      .isFalse (by intro hc; injection hc; contradiction)
  | .error a, .error b =>
    if h : a = b then .isTrue (by rw [h]) else
      .isFalse (by intro hc; injection hc; contradiction)
  | .ok _, .error _ => .isFalse (by intro hc; cases hc)
  | .error _, .ok _ => .isFalse (by intro hc; cases hc)

/-- A slot of the table: `Node` of ltable.c.  The intrusive `next`
pointer is modelled as an optional index into the slot array. -/
structure Node where
  key : TObject
  val : TObject
  next : Option Nat
deriving DecidableEq

/-- A freshly initialised slot (`hashnodecreate`, ltable.c lines 92-95):
nil key, nil value, null next pointer. -/
def dummyNode : Node := ⟨.nil, .nil, none⟩

/-- The `Hash` structure of lua: a slot array plus the `firstfree`
cursor (modelled as an index instead of a pointer). -/
structure Hash where
  node : List Node
  firstfree : Nat
deriving DecidableEq

/-- Read slot `i` (out-of-range reads yield the all-nil dummy slot; they
do not occur for well-formed tables). -/
def getNode (t : Hash) (i : Nat) : Node := t.node.getD i dummyNode

/-- Update slot `i` of a slot array in place. -/
def updNode (ns : List Node) (i : Nat) (f : Node → Node) : List Node :=
  ns.set i (f (ns.getD i dummyNode))

/-- The index form of the main position: `hash(key) mod size`
(ltable.c line 66).  Total; the `none` hash case (never reached for the
non-nil keys stored in tables) defaults to hash 0. -/
def mainposIdx (sz : Nat) (k : TObject) : Nat := (hashOf k).getD 0 % sz

/-- ltable.c lines 41-67: `luaH_mainposition`, returning the slot index
of the key's hash value, or the `InvalidKeyError` of the default branch. -/
def luaH_mainposition (t : Hash) (k : TObject) : Except LuaError Nat :=
  match hashOf k with
  | none => .error .invalidKey
  | some h => .ok (h % t.node.length)

/-- The chain walk shared by `luaH_get` (lines 72-76) and the search loop
of `luaH_set` (lines 240-246): starting at a slot, follow `next` until
`luaO_equalObj` matches the key or the chain ends; returns the index of
the matching slot.  The fuel bounds the walk; for well-formed tables the
chain is shorter than the fuel `t.node.length` used at call sites. -/
def chainFind (t : Hash) (k : TObject) : Nat → Nat → Option Nat
  | 0, _ => none
  | fuel + 1, i =>
    if luaO_equalObj k (getNode t i).key then some i
    else
      match (getNode t i).next with
      | none => none
      | some j => chainFind t k fuel j

/-- ltable.c lines 70-78: `luaH_get`.  Walk the chain rooted at the main
position; return the matching slot's value, or nil when the chain is
exhausted. -/
def luaH_get (t : Hash) (k : TObject) : Except LuaError TObject :=
  match luaH_mainposition t k with
  | .error e => .error e
  | .ok mp =>
    match chainFind t k t.node.length mp with
    | some i => .ok (getNode t i).val
    | none => .ok .nil

/-- ltable.c line 255: `while (othern->next != mp) othern = othern->next;`
-- find the chain predecessor of slot `mp`, starting from `i`.  Returns
`none` on a chain that ends before reaching `mp` (for well-formed tables
this does not happen; the C loop would dereference a null pointer). -/
def findPrev (t : Hash) (mp : Nat) : Nat → Nat → Option Nat
  | 0, _ => none
  | fuel + 1, i =>
    if (getNode t i).next = some mp then some i
    else
      match (getNode t i).next with
      | none => none
      | some j => findPrev t mp fuel j

/-- ltable.c lines 247-268: insert a key that is not in the table, with
main position `mp`.  If `mp` is occupied by a colliding node that is out
of its own main position, relocate that node to the free position and put
the new pair at `mp` (Brent's variation); if the colliding node is in its
own main position, chain the new pair into a free position; if `mp` is
free, the pair goes there directly.  The `firstfree` cursor itself is not
changed here (the cursor update is the loop at lines 269-274). -/
def insertNew (t : Hash) (mp : Nat) (k v : TObject) : Hash :=
  if (getNode t mp).key ≠ TObject.nil then
    let n := t.firstfree
    let othern := mainposIdx t.node.length (getNode t mp).key
    if mp > n ∧ othern ≠ mp then
      match findPrev t mp t.node.length othern with
      | some prev =>
          let ns1 := updNode t.node prev (fun nd => { nd with next := some n })
          let ns2 := ns1.set n (ns1.getD mp dummyNode)
          let ns3 := updNode ns2 mp (fun nd => { nd with next := none })
          let ns4 := ns3.set mp { key := k, val := v, next := (ns3.getD mp dummyNode).next }
          { t with node := ns4 }
      | none => t
    else
      let ns1 := updNode t.node n (fun nd => { nd with next := (t.node.getD mp dummyNode).next })
      let ns2 := updNode ns1 mp (fun nd => { nd with next := some n })
      let ns3 := ns2.set n { key := k, val := v, next := (ns2.getD n dummyNode).next }
      { t with node := ns3 }
  else
    { t with node := t.node.set mp { key := k, val := v, next := (t.node.getD mp dummyNode).next } }

/-- ltable.c lines 269-274: the free-place check at the end of `luaH_set`.
Starting at the cursor, scan downward: `some i` is the first slot with a
nil key (the new cursor value); `none` means slot 0 was reached with no
free place, so a rehash is required. -/
def findFreeDown (ns : List Node) : Nat → Option Nat
  | 0 => if (ns.getD 0 dummyNode).key = TObject.nil then some 0 else none
  | i + 1 =>
    if (ns.getD (i + 1) dummyNode).key = TObject.nil then some (i + 1)
    else findFreeDown ns i

/-- Modelled from the spec: `luaO_redimension` (lobject.c is not among
the sources) -- the deterministic sizing function, "a power of two or
similar regular sequence", rounding its argument up; here the least power
of two that is at least `max n 1`, computed by doubling from 1. -/
def pow2geAux (n : Nat) : Nat → Nat → Nat
  | 0, acc => acc
  | fuel + 1, acc => if n ≤ acc then acc else pow2geAux n fuel (2 * acc)

def luaO_redimension (n : Nat) : Nat := pow2geAux n n 1

/-- ltable.c lines 126-136: `newsize` -- the sizing function applied to
twice the number of slots holding a non-nil value. -/
def newsize (t : Hash) : Nat :=
  luaO_redimension (2 * (t.node.filter (fun nd => nd.val ≠ TObject.nil)).length)

/-- The cursor scans of rehash (ltable.c lines 203 and 214-216):
`while (ttype(&t->firstfree->key) != LUA_T_NIL) t->firstfree--;`.
Scanning below slot 0 cannot happen when a free slot exists (guaranteed
by the sizing function); the model returns 0 in that unreachable case. -/
def scanFree (ns : List Node) : Nat → Nat
  | 0 => 0
  | i + 1 =>
    if (ns.getD (i + 1) dummyNode).key = TObject.nil then i + 1
    else scanFree ns i

/-- Phase 1 of rehash (ltable.c lines 187-201): place an old entry at its
new main position if that slot is still empty, otherwise record it (with
its main position) for phase 2.  Entries with nil value are dropped. -/
def rehashPlace (sz : Nat) (acc : List Node × List (Node × Nat)) (old : Node) :
    List Node × List (Node × Nat) :=
  if old.val = TObject.nil then acc
  else
    let mp := mainposIdx sz old.key
    if (acc.1.getD mp dummyNode).key = TObject.nil then
      (updNode acc.1 mp (fun nd => { nd with key := old.key, val := old.val }), acc.2)
    else
      (acc.1, acc.2 ++ [(old, mp)])

/-- Phase 2 of rehash (ltable.c lines 205-218): put a colliding entry in
the free position, chain it right after its main position's root, and
move the cursor below the used slot. -/
def rehashChain (st : List Node × Nat) (p : Node × Nat) : List Node × Nat :=
  let e := st.2
  let ns1 := updNode st.1 e (fun nd => { nd with key := p.1.key, val := p.1.val })
  let ns2 := updNode ns1 e (fun nd => { nd with next := (ns1.getD p.2 dummyNode).next })
  let ns3 := updNode ns2 p.2 (fun nd => { nd with next := some e })
  (ns3, scanFree ns3 (e - 1))

/-- ltable.c lines 179-221: `rehash`.  A fresh all-empty array of
`newsize` slots is filled in two phases from the old array: phase 1
places every live entry whose new main position is still empty; phase 2
chains the remaining entries into free slots. -/
def rehash (t : Hash) : Hash :=
  let sz := newsize t
  let start : List Node × List (Node × Nat) := (List.replicate sz dummyNode, [])
  let p1 := t.node.foldl (rehashPlace sz) start
  let ff0 := scanFree p1.1 (sz - 1)
  let p2 := p1.2.foldl rehashChain (p1.1, ff0)
  { node := p2.1, firstfree := p2.2 }

/-- ltable.c lines 237-276: `luaH_set`.  Resolve the main position (which
raises `InvalidKeyError` for an unhashable key, before any mutation);
walk the chain and overwrite in place when the key is present; otherwise
insert the new pair and run the free-place check, rehashing when no free
place remains. -/
def luaH_set (t : Hash) (k v : TObject) : Except LuaError Hash :=
  match luaH_mainposition t k with
  | .error e => .error e
  | .ok mp =>
    match chainFind t k t.node.length mp with
    | some i => .ok { t with node := updNode t.node i (fun nd => { nd with val := v }) }
    | none =>
      let t1 := insertNew t mp k v
      match findFreeDown t1.node t1.firstfree with
      | some ff => .ok { t1 with firstfree := ff }
      | none => .ok (rehash t1)

/-- ltable.c lines 100-116: `luaH_new` / `setnodevector` -- a fresh table
of `luaO_redimension (size + 1)` all-nil slots, `firstfree` at the last
slot. -/
def luaH_new (size : Nat) : Hash :=
  let s := luaO_redimension (size + 1)
  { node := List.replicate s dummyNode, firstfree := s - 1 }

/-- Apply one `set` call; a call that errors leaves the table unchanged
(the C `lua_error` fires before any mutation). -/
def setOr (t : Hash) (kv : TObject × TObject) : Hash :=
  match luaH_set t kv.1 kv.2 with
  | .ok t2 => t2
  | .error _ => t

/-- Apply a finite sequence of `set` calls. -/
def applySets (t : Hash) (ops : List (TObject × TObject)) : Hash :=
  ops.foldl setOr t

/-- Number of slots whose key is non-nil (the occupied slots in the sense
of the invariants; a slot with a key but nil value is a reusable
tombstone-free deletion). -/
def keyCount (t : Hash) : Nat :=
  (t.node.filter (fun nd => nd.key ≠ TObject.nil)).length

/-- The abstract lookup: the value stored at the first slot whose key is
`k`, nil when no slot holds `k`.  For well-formed tables (whose keys are
pairwise distinct) this is the mapping the table represents. -/
def absGet (t : Hash) (k : TObject) : TObject :=
  match t.node.find? (fun nd => nd.key = k) with
  | some nd => nd.val
  | none => .nil

/-- The value a history of `set` calls associates to key `k`: the value
of the last write to `k`, nil if `k` was never written. -/
def histVal (ps : List (TObject × TObject)) (k : TObject) : TObject :=
  ps.foldl (fun acc p => if p.1 = k then p.2 else acc) TObject.nil

/-- Invariant A of the spec (the comment of ltable.c lines 11-17): every
occupied slot whose key's main position is a different slot has that main
position occupied by a key whose own main position is that same slot. -/
def invariantA (t : Hash) : Prop :=
  ∀ i, i < t.node.length → (getNode t i).key ≠ TObject.nil →
    mainposIdx t.node.length (getNode t i).key ≠ i →
      (getNode t (mainposIdx t.node.length (getNode t i).key)).key ≠ TObject.nil ∧
      mainposIdx t.node.length
          (getNode t (mainposIdx t.node.length (getNode t i).key)).key =
        mainposIdx t.node.length (getNode t i).key

/-- The collision chain starting at slot `i`: `ChainTo t i l` holds when
following `next` from `i` visits exactly the slots `l` (starting with
`i`) and ends at a slot with a null `next`. -/
inductive ChainTo (t : Hash) : Nat → List Nat → Prop where
  | last (i : Nat) : (getNode t i).next = none → ChainTo t i [i]
  | step (i j : Nat) (l : List Nat) :
      (getNode t i).next = some j → ChainTo t j l → ChainTo t i (i :: l)

/-- Well-formedness of a table: the representation invariant maintained
by `luaH_new`, `luaH_set` and `rehash`.  It packages the spec's
Invariants A-C together with the facts checked by `check_invariant`
(ltable.c lines 149-170): the cursor points at a free slot, slots after
the cursor are occupied, slots before it are empty or in their main
position, chain pointers only target occupied slots after the cursor and
stay within one main position, every occupied slot is on the chain of its
key's main position, chains are finite and repetition-free, and keys are
pairwise distinct. -/
structure WF (t : Hash) : Prop where
  sizePos : 0 < t.node.length
  ffLt : t.firstfree < t.node.length
  ffNil : (getNode t t.firstfree).key = TObject.nil
  highOcc : ∀ i, t.firstfree < i → i < t.node.length → (getNode t i).key ≠ TObject.nil
  lowMain : ∀ i, i < t.firstfree → (getNode t i).key ≠ TObject.nil →
    mainposIdx t.node.length (getNode t i).key = i
  nextLt : ∀ i j, (getNode t i).next = some j → j < t.node.length
  nextGtFF : ∀ i j, (getNode t i).next = some j → t.firstfree < j
  nextKeySrc : ∀ i j, (getNode t i).next = some j → (getNode t i).key ≠ TObject.nil
  nextKeyTgt : ∀ i j, (getNode t i).next = some j → (getNode t j).key ≠ TObject.nil
  nextMain : ∀ i j, (getNode t i).next = some j →
    mainposIdx t.node.length (getNode t j).key = mainposIdx t.node.length (getNode t i).key
  chains : ∀ i, i < t.node.length → ∃ l, ChainTo t i l ∧ l.Nodup
  chainAll : ∀ i, i < t.node.length → (getNode t i).key ≠ TObject.nil →
    ∀ l, ChainTo t (mainposIdx t.node.length (getNode t i).key) l → i ∈ l
  distinct : ∀ i j, i < t.node.length → j < t.node.length →
    (getNode t i).key ≠ TObject.nil → (getNode t i).key = (getNode t j).key → i = j

/-- Insert `b` right after every occurrence of `a` (used with lists that
contain `a` at most once). -/
def linkAfter (a b : Nat) : List Nat → List Nat
  | [] => []
  | x :: xs => if x = a then a :: b :: linkAfter a b xs else x :: linkAfter a b xs
structure InsOK (t t1 : Hash) (k v : TObject) : Prop where
  hlen : t1.node.length = t.node.length
  hffEq : t1.firstfree = t.firstfree
  hpos : ∃ pos, pos < t.node.length ∧ (getNode t1 pos).key = k ∧ (getNode t1 pos).val = v
  hcount : keyCount t1 = keyCount t + 1
  hfwd : ∀ j, j < t.node.length → (getNode t j).key ≠ TObject.nil →
    ∃ j2, j2 < t.node.length ∧ (getNode t1 j2).key = (getNode t j).key ∧
      (getNode t1 j2).val = (getNode t j).val
  hbwd : ∀ j2, j2 < t.node.length → (getNode t1 j2).key ≠ TObject.nil →
    (getNode t1 j2).key ≠ k →
    ∃ j, j < t.node.length ∧ (getNode t j).key = (getNode t1 j2).key ∧
      (getNode t j).val = (getNode t1 j2).val
  hnextLt : ∀ i j, (getNode t1 i).next = some j → j < t.node.length
  hnextGE : ∀ i j, (getNode t1 i).next = some j → t.firstfree ≤ j
  hnextStrict : (getNode t1 t.firstfree).key = TObject.nil →
    ∀ i j, (getNode t1 i).next = some j → t.firstfree < j
  hnextKeySrc : ∀ i j, (getNode t1 i).next = some j → (getNode t1 i).key ≠ TObject.nil
  hnextKeyTgt : ∀ i j, (getNode t1 i).next = some j → (getNode t1 j).key ≠ TObject.nil
  hnextMain : ∀ i j, (getNode t1 i).next = some j →
    mainposIdx t.node.length (getNode t1 j).key = mainposIdx t.node.length (getNode t1 i).key
  hchains : ∀ i, i < t.node.length → ∃ l, ChainTo t1 i l ∧ l.Nodup
  hchainAll : ∀ i, i < t.node.length → (getNode t1 i).key ≠ TObject.nil →
    ∀ l, ChainTo t1 (mainposIdx t.node.length (getNode t1 i).key) l → i ∈ l
  hdistinct : ∀ i j, i < t.node.length → j < t.node.length →
    (getNode t1 i).key ≠ TObject.nil → (getNode t1 i).key = (getNode t1 j).key → i = j
  hhighOcc : ∀ i, t.firstfree < i → i < t.node.length → (getNode t1 i).key ≠ TObject.nil
  hlowMain : ∀ i, i < t.firstfree → (getNode t1 i).key ≠ TObject.nil →
    mainposIdx t.node.length (getNode t1 i).key = i
/-- The invariant of the first rehash loop (ltable.c lines 187-201), after a
prefix `pre` of the old slot array has been processed. -/
structure P1Inv (sz : Nat) (pre : List Node) (st : List Node × List (Node × Nat)) : Prop where
  hlen : st.1.length = sz
  hnextall : ∀ m, (st.1.getD m dummyNode).next = none
  hnil : ∀ m, (st.1.getD m dummyNode).key = TObject.nil → st.1.getD m dummyNode = dummyNode
  hocc : ∀ m, m < sz → (st.1.getD m dummyNode).key ≠ TObject.nil →
    mainposIdx sz (st.1.getD m dummyNode).key = m ∧
    (st.1.getD m dummyNode).val ≠ TObject.nil ∧
    ∃ nd, nd ∈ pre ∧ nd.key = (st.1.getD m dummyNode).key ∧
      nd.val = (st.1.getD m dummyNode).val
  hpend : ∀ q ∈ st.2, q.1 ∈ pre ∧ q.1.val ≠ TObject.nil ∧ q.1.key ≠ TObject.nil ∧
    q.2 = mainposIdx sz q.1.key ∧ q.2 < sz ∧
    (st.1.getD q.2 dummyNode).key ≠ TObject.nil
  hcover : ∀ nd, nd ∈ pre → nd.val ≠ TObject.nil →
    (∃ m, m < sz ∧ (st.1.getD m dummyNode).key = nd.key ∧
      (st.1.getD m dummyNode).val = nd.val)
    ∨ (nd, mainposIdx sz nd.key) ∈ st.2
  hcount : (st.1.filter (fun nd => nd.key ≠ TObject.nil)).length + st.2.length
    ≤ (pre.filter (fun nd => nd.val ≠ TObject.nil)).length
  hpendFresh : ∀ q ∈ st.2, ∀ m, m < sz → (st.1.getD m dummyNode).key ≠ q.1.key
  hpendND : (st.2.map (fun q => q.1.key)).Nodup
/-- The invariant of the second rehash loop (ltable.c lines 205-218), with
`rest` the colliding entries still to be chained into the table `tb`. -/
structure P2Inv (sz : Nat) (u : Hash) (rest : List (Node × Nat)) (tb : Hash) : Prop where
  hlen : tb.node.length = sz
  hffLt : tb.firstfree < sz
  hffNil : (getNode tb tb.firstfree).key = TObject.nil
  hhigh : ∀ i, tb.firstfree < i → i < sz → (getNode tb i).key ≠ TObject.nil
  hlow : ∀ i, i < tb.firstfree → (getNode tb i).key ≠ TObject.nil →
    mainposIdx sz (getNode tb i).key = i
  hnil : ∀ m, (getNode tb m).key = TObject.nil → getNode tb m = dummyNode
  hnextLt : ∀ i j, (getNode tb i).next = some j → j < sz
  hnextGT : ∀ i j, (getNode tb i).next = some j → tb.firstfree < j
  hnextKeySrc : ∀ i j, (getNode tb i).next = some j → (getNode tb i).key ≠ TObject.nil
  hnextKeyTgt : ∀ i j, (getNode tb i).next = some j → (getNode tb j).key ≠ TObject.nil
  hnextMain : ∀ i j, (getNode tb i).next = some j →
    mainposIdx sz (getNode tb j).key = mainposIdx sz (getNode tb i).key
  hchains : ∀ i, i < sz → ∃ l, ChainTo tb i l ∧ l.Nodup
  hchainAll : ∀ i, i < sz → (getNode tb i).key ≠ TObject.nil →
    ∀ l, ChainTo tb (mainposIdx sz (getNode tb i).key) l → i ∈ l
  hdistinct : ∀ i j, i < sz → j < sz → (getNode tb i).key ≠ TObject.nil →
    (getNode tb i).key = (getNode tb j).key → i = j
  horigin : ∀ m, m < sz → (getNode tb m).key ≠ TObject.nil →
    (getNode tb m).val ≠ TObject.nil ∧
    ∃ nd, nd ∈ u.node ∧ nd.key = (getNode tb m).key ∧ nd.val = (getNode tb m).val
  hcover : ∀ nd, nd ∈ u.node → nd.val ≠ TObject.nil →
    (∃ m, m < sz ∧ (getNode tb m).key = nd.key ∧ (getNode tb m).val = nd.val)
    ∨ (nd, mainposIdx sz nd.key) ∈ rest
  hcount : keyCount tb + rest.length
    ≤ (u.node.filter (fun nd => nd.val ≠ TObject.nil)).length
  hrestOK : ∀ q ∈ rest, q.1 ∈ u.node ∧ q.1.val ≠ TObject.nil ∧ q.1.key ≠ TObject.nil ∧
    q.2 = mainposIdx sz q.1.key ∧ q.2 < sz ∧
    (getNode tb q.2).key ≠ TObject.nil ∧
    mainposIdx sz (getNode tb q.2).key = q.2
  hrestFresh : ∀ q ∈ rest, ∀ m, m < sz → (getNode tb m).key ≠ q.1.key
  hrestND : (rest.map (fun q => q.1.key)).Nodup

/-! Basic facts about slot access and updates. -/

theorem getD_set_self (ns : List Node) (i : Nat) (x : Node) (h : i < ns.length) :
    (ns.set i x).getD i dummyNode = x := by
  simp [List.getD_eq_getElem?_getD, List.getElem?_set_self h]

theorem getD_set_ne (ns : List Node) (i j : Nat) (x : Node) (h : i ≠ j) :
    (ns.set i x).getD j dummyNode = ns.getD j dummyNode := by
  simp [List.getD_eq_getElem?_getD, List.getElem?_set_ne h]

theorem getD_updNode_self (ns : List Node) (i : Nat) (f : Node → Node) (h : i < ns.length) :
    (updNode ns i f).getD i dummyNode = f (ns.getD i dummyNode) :=
  getD_set_self ns i _ h

theorem getD_updNode_ne (ns : List Node) (i j : Nat) (f : Node → Node) (h : i ≠ j) :
    (updNode ns i f).getD j dummyNode = ns.getD j dummyNode :=
  getD_set_ne ns i j _ h

theorem length_updNode (ns : List Node) (i : Nat) (f : Node → Node) :
    (updNode ns i f).length = ns.length := by
  simp [updNode]

theorem getD_oob (ns : List Node) (i : Nat) (h : ns.length ≤ i) :
    ns.getD i dummyNode = dummyNode :=
  List.getD_eq_default ns dummyNode h

theorem getD_mem (ns : List Node) (i : Nat) (h : i < ns.length) :
    ns.getD i dummyNode ∈ ns := by
  rw [List.getD_eq_getElem ns dummyNode h]
  exact List.getElem_mem h

theorem mem_getD (ns : List Node) (nd : Node) (h : nd ∈ ns) :
    ∃ i, i < ns.length ∧ ns.getD i dummyNode = nd := by
  obtain ⟨i, hi, he⟩ := List.mem_iff_getElem.mp h
  exact ⟨i, hi, by rw [List.getD_eq_getElem ns dummyNode hi]; exact he⟩

/-! Facts about the sizing function. -/

theorem pow2geAux_ge_acc (n : Nat) : ∀ fuel acc, acc ≤ pow2geAux n fuel acc := by
  intro fuel
  induction fuel with
  | zero => intro acc; exact le_refl _
  | succ f ih =>
    intro acc
    rw [pow2geAux]
    by_cases h : n ≤ acc
    · rw [if_pos h]
    · rw [if_neg h]
      calc acc ≤ 2 * acc := by omega
        _ ≤ _ := ih (2 * acc)

theorem pow2geAux_le (n : Nat) : ∀ fuel acc, n ≤ acc * 2 ^ fuel →
    n ≤ pow2geAux n fuel acc := by
  intro fuel
  induction fuel with
  | zero =>
    intro acc h
    simpa using h
  | succ f ih =>
    intro acc h
    rw [pow2geAux]
    by_cases hle : n ≤ acc
    · rw [if_pos hle]
      exact hle
    · rw [if_neg hle]
      refine ih (2 * acc) ?_
      calc n ≤ acc * 2 ^ (f + 1) := h
        _ = 2 * acc * 2 ^ f := by ring

theorem one_le_redimension (n : Nat) : 1 ≤ luaO_redimension n :=
  pow2geAux_ge_acc n n 1

theorem le_redimension (n : Nat) : n ≤ luaO_redimension n := by
  refine pow2geAux_le n n 1 ?_
  simpa using Nat.le_of_lt (Nat.lt_two_pow n)

theorem lt_redimension_double (n : Nat) : n < luaO_redimension (2 * n) := by
  rcases Nat.eq_zero_or_pos n with rfl | hp
  · simpa using one_le_redimension 0
  · have h2 : 2 * n ≤ luaO_redimension (2 * n) := le_redimension (2 * n)
    omega

theorem mainposIdx_lt (sz : Nat) (k : TObject) (h : 0 < sz) : mainposIdx sz k < sz :=
  Nat.mod_lt _ h

theorem hashOf_isSome {k : TObject} (h : k ≠ TObject.nil) : (hashOf k).isSome := by
  cases k <;> simp [hashOf] at h ⊢

theorem hashOf_eq_none {k : TObject} (h : hashOf k = none) : k = TObject.nil := by
  cases k <;> simp [hashOf] at h ⊢

theorem luaH_mainposition_eq {t : Hash} {k : TObject} (h : k ≠ TObject.nil) :
    luaH_mainposition t k = .ok (mainposIdx t.node.length k) := by
  obtain ⟨hsh, he⟩ := Option.isSome_iff_exists.mp (hashOf_isSome h)
  simp [luaH_mainposition, he, mainposIdx]

theorem luaO_equalObj_iff (a b : TObject) : luaO_equalObj a b = true ↔ a = b := by
  simp [luaO_equalObj]

/-! The theory of collision chains. -/

theorem chainTo_head {t : Hash} {i : Nat} {l : List Nat} (h : ChainTo t i l) :
    ∃ l2, l = i :: l2 := by
  cases h with
  | last _ _ => exact ⟨[], rfl⟩
  | step _ j l2 _ _ => exact ⟨l2, rfl⟩

theorem chainTo_ne_nil {t : Hash} {i : Nat} {l : List Nat} (h : ChainTo t i l) : l ≠ [] := by
  obtain ⟨l2, rfl⟩ := chainTo_head h
  simp

theorem chainTo_unique {t : Hash} {i : Nat} {l1 l2 : List Nat}
    (h1 : ChainTo t i l1) (h2 : ChainTo t i l2) : l1 = l2 := by
  induction h1 generalizing l2 with
  | last i hn =>
    cases h2 with
    | last _ _ => rfl
    | step _ j _ hj _ => rw [hn] at hj; cases hj
  | step i j l hj hc ih =>
    cases h2 with
    | last _ hn => rw [hn] at hj; cases hj
    | step _ j2 l4 hj2 hc2 =>
      rw [hj] at hj2
      injection hj2 with e
      subst e
      rw [ih hc2]

theorem chainTo_congr {t t2 : Hash} {i : Nat} {l : List Nat} (h : ChainTo t i l)
    (he : ∀ a, a ∈ l → (getNode t2 a).next = (getNode t a).next) : ChainTo t2 i l := by
  induction h with
  | last i hn => exact .last i ((he i (by simp)).trans hn)
  | step i j l hj hc ih =>
    exact .step i j l ((he i (by simp)).trans hj) (ih (fun a ha => he a (by simp [ha])))

theorem chainTo_mem_cases {t : Hash} {s : Nat} {l : List Nat} (h : ChainTo t s l) :
    ∀ a ∈ l, a = s ∨ ∃ b ∈ l, (getNode t b).next = some a := by
  induction h with
  | last i hn => intro a ha; simp at ha; exact Or.inl ha
  | step i j l hj hc ih =>
    intro a ha
    rcases List.mem_cons.mp ha with rfl | ha2
    · exact Or.inl rfl
    · rcases ih a ha2 with rfl | ⟨b, hb, hbn⟩
      · exact Or.inr ⟨i, by simp, hj⟩
      · exact Or.inr ⟨b, by simp [hb], hbn⟩

theorem chainTo_next_mem {t : Hash} {s : Nat} {l : List Nat} (h : ChainTo t s l) :
    ∀ a ∈ l, ∀ c, (getNode t a).next = some c → c ∈ l := by
  induction h with
  | last i hn =>
    intro a ha c hc; simp at ha; subst ha; rw [hn] at hc; cases hc
  | step i j l hj hc ih =>
    intro a ha c hcn
    rcases List.mem_cons.mp ha with rfl | ha2
    · rw [hj] at hcn; injection hcn with e; subst e
      obtain ⟨l2, rfl⟩ := chainTo_head hc
      simp
    · exact List.mem_cons_of_mem _ (ih a ha2 c hcn)

theorem chainTo_adj {t : Hash} {s : Nat} {l : List Nat} (h : ChainTo t s l) :
    ∀ a c, a ∈ l → (getNode t a).next = some c → ∃ xs ys, l = xs ++ a :: c :: ys := by
  induction h with
  | last i hn =>
    intro a c ha hc; simp at ha; subst ha; rw [hn] at hc; cases hc
  | step i j l hj hc ih =>
    intro a c ha hac
    rcases List.mem_cons.mp ha with rfl | ha2
    · rw [hj] at hac; injection hac with e; subst e
      obtain ⟨l2, rfl⟩ := chainTo_head hc
      exact ⟨[], l2, rfl⟩
    · obtain ⟨xs, ys, he⟩ := ih a c ha2 hac
      exact ⟨i :: xs, ys, by simp [he]⟩

theorem chainTo_no_pred_head {t : Hash} {s : Nat} {l : List Nat} (h : ChainTo t s l)
    (hnd : l.Nodup) : ∀ b ∈ l, (getNode t b).next ≠ some s := by
  intro b hb hbn
  obtain ⟨xs, ys, he⟩ := chainTo_adj h b s hb hbn
  obtain ⟨l2, hl2⟩ := chainTo_head h
  cases xs with
  | nil =>
    simp only [List.nil_append] at he
    rw [he] at hl2
    have hbs : b = s := by
      have := hl2
      injection this
    subst hbs
    rw [he] at hnd
    simp at hnd
  | cons x xs2 =>
    rw [he] at hl2
    have hx : x = s := by injection hl2
    rw [he] at hnd
    rw [List.nodup_append] at hnd
    exact hnd.2.2 (show s ∈ x :: xs2 by rw [hx]; exact List.mem_cons_self s xs2)
      (show s ∈ b :: s :: ys by simp)

theorem chainTo_pred_unique {t : Hash} {s : Nat} {l : List Nat} (h : ChainTo t s l)
    (hnd : l.Nodup) : ∀ a b c, a ∈ l → b ∈ l →
      (getNode t a).next = some c → (getNode t b).next = some c → a = b := by
  induction h with
  | last i hn =>
    intro a b c ha hb hac hbc
    simp at ha hb
    rw [ha, hb]
  | step i j l hj hc ih =>
    intro a b c ha hb hac hbc
    simp only [List.nodup_cons] at hnd
    rcases List.mem_cons.mp ha with rfl | ha2
    · rcases List.mem_cons.mp hb with rfl | hb2
      · rfl
      · rw [hj] at hac
        injection hac with e
        subst e
        exact absurd hbc (chainTo_no_pred_head hc hnd.2 b hb2)
    · rcases List.mem_cons.mp hb with rfl | hb2
      · rw [hj] at hbc
        injection hbc with e
        subst e
        exact absurd hac (chainTo_no_pred_head hc hnd.2 a ha2)
      · exact ih hnd.2 a b c ha2 hb2 hac hbc

theorem chainTo_suffix {t : Hash} {s : Nat} {l : List Nat} (h : ChainTo t s l) :
    ∀ a ∈ l, ∃ xs l2, l = xs ++ l2 ∧ ChainTo t a l2 := by
  induction h with
  | last i hn =>
    intro a ha
    simp only [List.mem_singleton] at ha
    refine ⟨[], [i], rfl, ?_⟩
    rw [ha]
    exact .last i hn
  | step i j l hj hc ih =>
    intro a ha
    rcases List.mem_cons.mp ha with he | ha2
    · refine ⟨[], i :: l, rfl, ?_⟩
      rw [he]
      exact .step i j l hj hc
    · obtain ⟨xs, l2, he, h2⟩ := ih a ha2
      exact ⟨i :: xs, l2, by simp [he], h2⟩

theorem chainTo_const {α : Type} {t : Hash} {s : Nat} {l : List Nat} (P : Nat → α)
    (h : ChainTo t s l)
    (hm : ∀ i j, (getNode t i).next = some j → i ∈ l → P j = P i) :
    ∀ a ∈ l, P a = P s := by
  induction h with
  | last i hn => intro a ha; simp at ha; subst ha; rfl
  | step i j l hj hc ih =>
    intro a ha
    rcases List.mem_cons.mp ha with rfl | ha2
    · rfl
    · have hj2 : P j = P i := hm i j hj (by simp)
      have := ih (fun x y hxy hx => hm x y hxy (by simp [hx])) a ha2
      rw [this, hj2]

theorem chainTo_elem_lt {t : Hash} {s : Nat} {l : List Nat} (h : ChainTo t s l)
    (hlt : ∀ i j, (getNode t i).next = some j → j < t.node.length)
    (hs : s < t.node.length) : ∀ a ∈ l, a < t.node.length := by
  induction h with
  | last i hn => intro a ha; simp at ha; subst ha; exact hs
  | step i j l hj hc ih =>
    intro a ha
    rcases List.mem_cons.mp ha with rfl | ha2
    · exact hs
    · exact ih (hlt i j hj) a ha2

theorem nodup_bounded_length {l : List Nat} {n : Nat} (hnd : l.Nodup)
    (hb : ∀ a ∈ l, a < n) : l.length ≤ n := by
  have h1 : l.toFinset.card = l.length := List.toFinset_card_of_nodup hnd
  have h2 : l.toFinset ⊆ Finset.range n := by
    intro a ha
    simp only [List.mem_toFinset] at ha
    simpa using hb a ha
  have := Finset.card_le_card h2
  simpa [h1] using this

theorem chainFind_eq {t : Hash} {k : TObject} {s : Nat} {l : List Nat}
    (h : ChainTo t s l) : ∀ fuel, l.length ≤ fuel →
    chainFind t k fuel s = l.find? (fun a => luaO_equalObj k (getNode t a).key) := by
  induction h with
  | last i hn =>
    intro fuel hf
    match fuel, hf with
    | f + 1, _ =>
      simp only [chainFind, List.find?]
      by_cases hm : luaO_equalObj k (getNode t i).key
      · simp [hm]
      · simp only [Bool.not_eq_true] at hm
        simp [hm, hn]
  | step i j l hj hc ih =>
    intro fuel hf
    match fuel, hf with
    | f + 1, hf =>
      simp only [chainFind, List.find?]
      by_cases hm : luaO_equalObj k (getNode t i).key
      · simp [hm]
      · simp only [Bool.not_eq_true] at hm
        simp only [hm, hj]
        simpa using ih f (by simpa using hf)

theorem findPrev_eq {t : Hash} {mp : Nat} {s : Nat} {l : List Nat}
    (h : ChainTo t s l) : ∀ fuel, l.length ≤ fuel →
    findPrev t mp fuel s = l.find? (fun a => decide ((getNode t a).next = some mp)) := by
  induction h with
  | last i hn =>
    intro fuel hf
    match fuel, hf with
    | f + 1, _ =>
      simp only [findPrev, List.find?]
      by_cases hm : (getNode t i).next = some mp
      · simp [hm]
      · simp [hm, hn]
  | step i j l hj hc ih =>
    intro fuel hf
    match fuel, hf with
    | f + 1, hf =>
      simp only [findPrev, List.find?]
      by_cases hm : (getNode t i).next = some mp
      · simp [hm]
      · have hjmp : ¬ j = mp := fun e => hm (by rw [hj, e])
        rw [if_neg hm, hj]
        simpa [hm, hjmp] using ih f (by simpa using hf)

/-! Consequences of well-formedness: lookup correctness. -/

theorem wf_chain_bound {t : Hash} (w : WF t) {s : Nat} {l : List Nat}
    (h : ChainTo t s l) (hnd : l.Nodup) (hs : s < t.node.length) :
    l.length ≤ t.node.length :=
  nodup_bounded_length hnd (chainTo_elem_lt h w.nextLt hs)

theorem wf_chainFind_present {t : Hash} (w : WF t) {k : TObject} {i : Nat}
    (hi : i < t.node.length) (hkey : (getNode t i).key = k) (hk : k ≠ TObject.nil) :
    chainFind t k t.node.length (mainposIdx t.node.length k) = some i := by
  have hmp : mainposIdx t.node.length k < t.node.length := mainposIdx_lt _ _ w.sizePos
  obtain ⟨l, hl, hnd⟩ := w.chains _ hmp
  have hfind := chainFind_eq (k := k) hl t.node.length (wf_chain_bound w hl hnd hmp)
  have hmem : i ∈ l := by
    have := w.chainAll i hi (by rw [hkey]; exact hk)
    rw [hkey] at this
    exact this l hl
  have hsome : (l.find? (fun a => luaO_equalObj k (getNode t a).key)).isSome := by
    rw [List.find?_isSome]
    exact ⟨i, hmem, by simp [luaO_equalObj, hkey]⟩
  obtain ⟨a, ha⟩ := Option.isSome_iff_exists.mp hsome
  have hpa := List.find?_some ha
  simp only at hpa
  have hamem : a ∈ l := List.mem_of_find?_eq_some ha
  have halt : a < t.node.length := chainTo_elem_lt hl w.nextLt hmp a hamem
  have hak : (getNode t a).key = k := ((luaO_equalObj_iff _ _).mp hpa).symm
  have : i = a := w.distinct i a hi halt (by rw [hkey]; exact hk) (by rw [hkey, hak])
  rw [hfind, ha, this]

theorem wf_chainFind_absent {t : Hash} (w : WF t) {k : TObject}
    (habs : ∀ i, i < t.node.length → (getNode t i).key ≠ k) :
    chainFind t k t.node.length (mainposIdx t.node.length k) = none := by
  have hmp : mainposIdx t.node.length k < t.node.length := mainposIdx_lt _ _ w.sizePos
  obtain ⟨l, hl, hnd⟩ := w.chains _ hmp
  have hfind := chainFind_eq (k := k) hl t.node.length (wf_chain_bound w hl hnd hmp)
  rw [hfind, List.find?_eq_none]
  intro a ha
  have halt : a < t.node.length := chainTo_elem_lt hl w.nextLt hmp a ha
  simp [luaO_equalObj]
  exact fun e => habs a halt e.symm

theorem wf_luaH_get_found {t : Hash} (w : WF t) {k : TObject} {i : Nat}
    (hi : i < t.node.length) (hkey : (getNode t i).key = k) (hk : k ≠ TObject.nil) :
    luaH_get t k = .ok (getNode t i).val := by
  simp only [luaH_get, luaH_mainposition_eq hk, wf_chainFind_present w hi hkey hk]

theorem wf_luaH_get_absent {t : Hash} (w : WF t) {k : TObject} (hk : k ≠ TObject.nil)
    (habs : ∀ i, i < t.node.length → (getNode t i).key ≠ k) :
    luaH_get t k = .ok .nil := by
  simp only [luaH_get, luaH_mainposition_eq hk, wf_chainFind_absent w habs]

theorem absGet_found {t : Hash} (w : WF t) {k : TObject} {i : Nat}
    (hi : i < t.node.length) (hkey : (getNode t i).key = k) (hk : k ≠ TObject.nil) :
    absGet t k = (getNode t i).val := by
  have hsome : (t.node.find? (fun nd => nd.key = k)).isSome := by
    rw [List.find?_isSome]
    exact ⟨getNode t i, getD_mem t.node i hi, by simp [hkey]⟩
  obtain ⟨nd, hnd⟩ := Option.isSome_iff_exists.mp hsome
  have hpk : nd.key = k := by simpa using List.find?_some hnd
  obtain ⟨a, halt, hget⟩ := mem_getD t.node nd (List.mem_of_find?_eq_some hnd)
  have : i = a := by
    refine w.distinct i a hi halt (by rw [hkey]; exact hk) ?_
    rw [hkey]
    show k = (getNode t a).key
    rw [show getNode t a = nd from hget, hpk]
  rw [absGet, hnd, ← hget, ← this]
  rfl

theorem absGet_absent {t : Hash} {k : TObject}
    (habs : ∀ i, i < t.node.length → (getNode t i).key ≠ k) :
    absGet t k = .nil := by
  rw [absGet, List.find?_eq_none.mpr]
  intro nd hnd
  obtain ⟨a, halt, hget⟩ := mem_getD t.node nd hnd
  have := habs a halt
  rw [show getNode t a = nd from hget] at this
  simpa using this

theorem wf_luaH_get_eq_absGet {t : Hash} (w : WF t) {k : TObject} (hk : k ≠ TObject.nil) :
    luaH_get t k = .ok (absGet t k) := by
  by_cases hp : ∃ i, i < t.node.length ∧ (getNode t i).key = k
  · obtain ⟨i, hi, hkey⟩ := hp
    rw [wf_luaH_get_found w hi hkey hk, absGet_found w hi hkey hk]
  · push_neg at hp
    rw [wf_luaH_get_absent w hk hp, absGet_absent hp]

/-! Well-formedness of a fresh table. -/

theorem getD_replicate_dummy (s i : Nat) :
    (List.replicate s dummyNode).getD i dummyNode = dummyNode := by
  rcases Nat.lt_or_ge i s with h | h
  · rw [List.getD_eq_getElem _ _ (by simpa using h)]
    simp
  · exact getD_oob _ _ (by simpa using h)

theorem getNode_luaH_new (n i : Nat) : getNode (luaH_new n) i = dummyNode := by
  show (luaH_new n).node.getD i dummyNode = dummyNode
  simp only [luaH_new]
  exact getD_replicate_dummy _ _

theorem luaH_new_length (n : Nat) : (luaH_new n).node.length = luaO_redimension (n + 1) := by
  simp [luaH_new]

theorem luaH_new_firstfree (n : Nat) : (luaH_new n).firstfree = luaO_redimension (n + 1) - 1 :=
  rfl

theorem wf_luaH_new (n : Nat) : WF (luaH_new n) := by
  have hs1 : 1 ≤ luaO_redimension (n + 1) := one_le_redimension _
  refine ⟨?_, ?_, ?_, ?_, ?_, ?_, ?_, ?_, ?_, ?_, ?_, ?_, ?_⟩
  · rw [luaH_new_length]
    omega
  · rw [luaH_new_length, luaH_new_firstfree]
    omega
  · rw [getNode_luaH_new]
    rfl
  · intro i h1 h2
    rw [luaH_new_firstfree] at h1
    rw [luaH_new_length] at h2
    omega
  · intro i h1 h2
    rw [getNode_luaH_new] at h2
    exact absurd rfl h2
  · intro i j h
    rw [getNode_luaH_new] at h
    cases h
  · intro i j h
    rw [getNode_luaH_new] at h
    cases h
  · intro i j h
    rw [getNode_luaH_new] at h
    cases h
  · intro i j h
    rw [getNode_luaH_new] at h
    cases h
  · intro i j h
    rw [getNode_luaH_new] at h
    cases h
  · intro i hi
    refine ⟨[i], .last i ?_, by simp⟩
    rw [getNode_luaH_new]
    rfl
  · intro i hi h
    rw [getNode_luaH_new] at h
    exact absurd rfl h
  · intro i j hi hj h
    rw [getNode_luaH_new] at h
    exact absurd rfl h

/-! Structural description of the three insertion cases of `luaH_set`. -/

theorem getNode_mk (ns : List Node) (ff i : Nat) :
    getNode { node := ns, firstfree := ff } i = ns.getD i dummyNode := rfl

theorem wf_no_self_loop {t : Hash} (w : WF t) (x : Nat) : (getNode t x).next ≠ some x := by
  intro hx
  have hxlt : x < t.node.length := w.nextLt x x hx
  obtain ⟨l, hl, hnd⟩ := w.chains x hxlt
  obtain ⟨l2, rfl⟩ := chainTo_head hl
  cases hl with
  | last _ hn => rw [hn] at hx; cases hx
  | step _ j l3 hj hc =>
    rw [hx] at hj
    injection hj with e
    obtain ⟨l4, rfl⟩ := chainTo_head hc
    rw [← e] at hnd
    simp at hnd

theorem wf_pred_unique {t : Hash} (w : WF t) {x y c : Nat}
    (hx : (getNode t x).next = some c) (hy : (getNode t y).next = some c) : x = y := by
  have hxk : (getNode t x).key ≠ TObject.nil := w.nextKeySrc x c hx
  have hyk : (getNode t y).key ≠ TObject.nil := w.nextKeySrc y c hy
  have hxlt : x < t.node.length := by
    by_contra hge
    rw [show getNode t x = dummyNode from getD_oob _ _ (by omega)] at hxk
    exact hxk rfl
  have hylt : y < t.node.length := by
    by_contra hge
    rw [show getNode t y = dummyNode from getD_oob _ _ (by omega)] at hyk
    exact hyk rfl
  have hmXY : mainposIdx t.node.length (getNode t y).key
      = mainposIdx t.node.length (getNode t x).key := by
    rw [← w.nextMain y c hy, w.nextMain x c hx]
  have hmp : mainposIdx t.node.length (getNode t x).key < t.node.length :=
    mainposIdx_lt _ _ w.sizePos
  obtain ⟨l, hl, hnd⟩ := w.chains _ hmp
  have hxl : x ∈ l := w.chainAll x hxlt hxk l hl
  have hyl : y ∈ l := by
    refine w.chainAll y hylt hyk l ?_
    rw [hmXY]
    exact hl
  exact chainTo_pred_unique hl hnd x y c hxl hyl hx hy

theorem insertNew_free_spec {t : Hash} {k v : TObject} {mp : Nat}
    (hfree : (getNode t mp).key = TObject.nil) (hmp : mp < t.node.length) :
    (insertNew t mp k v).node.length = t.node.length ∧
    (insertNew t mp k v).firstfree = t.firstfree ∧
    getNode (insertNew t mp k v) mp = ⟨k, v, (getNode t mp).next⟩ ∧
    (∀ j, j ≠ mp → getNode (insertNew t mp k v) j = getNode t j) := by
  have hne : ¬((getNode t mp).key ≠ TObject.nil) := by simpa using hfree
  rw [insertNew, if_neg hne]
  refine ⟨by simp, rfl, ?_, ?_⟩
  · show (t.node.set mp _).getD mp dummyNode = _
    rw [getD_set_self _ _ _ hmp]
    rfl
  · intro j hj
    show (t.node.set mp _).getD j dummyNode = _
    rw [getD_set_ne _ _ _ _ (fun e => hj e.symm)]
    rfl

theorem upd2_length (t : Hash) (mp : Nat)
    (f g : Node → Node) (i1 i2 : Nat) :
    (updNode (updNode t.node i1 f) i2 g).length = t.node.length := by
  rw [length_updNode, length_updNode]

theorem insertNew_caseB_spec {t : Hash} {k v : TObject} {mp : Nat}
    (hocc : (getNode t mp).key ≠ TObject.nil)
    (hcond : ¬(mp > t.firstfree ∧ mainposIdx t.node.length (getNode t mp).key ≠ mp))
    (hmp : mp < t.node.length) (hffLt : t.firstfree < t.node.length)
    (hne : mp ≠ t.firstfree) :
    (insertNew t mp k v).node.length = t.node.length ∧
    (insertNew t mp k v).firstfree = t.firstfree ∧
    getNode (insertNew t mp k v) t.firstfree = ⟨k, v, (getNode t mp).next⟩ ∧
    getNode (insertNew t mp k v) mp = { getNode t mp with next := some t.firstfree } ∧
    (∀ j, j ≠ mp → j ≠ t.firstfree → getNode (insertNew t mp k v) j = getNode t j) := by
  rw [insertNew, if_pos hocc, if_neg hcond]
  simp only []
  refine ⟨by simp [updNode], by trivial, ?_, ?_, ?_⟩
  · show ((updNode (updNode t.node t.firstfree _) mp _).set t.firstfree _).getD
        t.firstfree dummyNode = _
    rw [getD_set_self _ _ _ (by simpa [updNode] using hffLt)]
    rw [getD_updNode_ne _ _ _ _ hne, getD_updNode_self _ _ _ hffLt]
    rfl
  · show ((updNode (updNode t.node t.firstfree _) mp _).set t.firstfree _).getD
        mp dummyNode = _
    rw [getD_set_ne _ _ _ _ (fun e => hne e.symm)]
    rw [getD_updNode_self _ _ _ (by simpa [updNode] using hmp)]
    rw [getD_updNode_ne _ _ _ _ (fun e => hne e.symm)]
    rfl
  · intro j hj1 hj2
    show ((updNode (updNode t.node t.firstfree _) mp _).set t.firstfree _).getD
        j dummyNode = _
    rw [getD_set_ne _ _ _ _ (fun e => hj2 e.symm)]
    rw [getD_updNode_ne _ _ _ _ (fun e => hj1 e.symm)]
    rw [getD_updNode_ne _ _ _ _ (fun e => hj2 e.symm)]
    rfl

theorem insertNew_caseA_spec {t : Hash} {k v : TObject} {mp prev : Nat}
    (hocc : (getNode t mp).key ≠ TObject.nil)
    (hcond : mp > t.firstfree ∧ mainposIdx t.node.length (getNode t mp).key ≠ mp)
    (hprev : findPrev t mp t.node.length
      (mainposIdx t.node.length (getNode t mp).key) = some prev)
    (hmp : mp < t.node.length) (hffLt : t.firstfree < t.node.length)
    (hpmp : prev ≠ mp) (hpff : prev ≠ t.firstfree) (hplt : prev < t.node.length) :
    (insertNew t mp k v).node.length = t.node.length ∧
    (insertNew t mp k v).firstfree = t.firstfree ∧
    getNode (insertNew t mp k v) t.firstfree = getNode t mp ∧
    getNode (insertNew t mp k v) mp = ⟨k, v, none⟩ ∧
    getNode (insertNew t mp k v) prev = { getNode t prev with next := some t.firstfree } ∧
    (∀ j, j ≠ mp → j ≠ t.firstfree → j ≠ prev → getNode (insertNew t mp k v) j = getNode t j) := by
  have hmpff : mp ≠ t.firstfree := by omega
  rw [insertNew, if_pos hocc, if_pos hcond, hprev]
  simp only []
  have hgmp : (updNode t.node prev
      (fun nd => { nd with next := some t.firstfree })).getD mp dummyNode
      = getNode t mp := getD_updNode_ne _ _ _ _ hpmp
  refine ⟨by simp [updNode], by trivial, ?_, ?_, ?_, ?_⟩
  · show ((updNode ((updNode t.node prev _).set t.firstfree _) mp _).set mp _).getD
        t.firstfree dummyNode = _
    rw [getD_set_ne _ _ _ _ hmpff]
    rw [getD_updNode_ne _ _ _ _ hmpff]
    rw [getD_set_self _ _ _ (by simpa [updNode] using hffLt)]
    exact hgmp
  · show ((updNode ((updNode t.node prev _).set t.firstfree _) mp _).set mp _).getD
        mp dummyNode = _
    rw [getD_set_self _ _ _ (by simpa [updNode] using hmp)]
    rw [getD_updNode_self _ _ _ (by simpa [updNode] using hmp)]
  · show ((updNode ((updNode t.node prev _).set t.firstfree _) mp _).set mp _).getD
        prev dummyNode = _
    rw [getD_set_ne _ _ _ _ (fun e => hpmp e.symm)]
    rw [getD_updNode_ne _ _ _ _ (fun e => hpmp e.symm)]
    rw [getD_set_ne _ _ _ _ (fun e => hpff e.symm)]
    rw [getD_updNode_self _ _ _ hplt]
    rfl
  · intro j hj1 hj2 hj3
    show ((updNode ((updNode t.node prev _).set t.firstfree _) mp _).set mp _).getD
        j dummyNode = _
    rw [getD_set_ne _ _ _ _ (fun e => hj1 e.symm)]
    rw [getD_updNode_ne _ _ _ _ (fun e => hj1 e.symm)]
    rw [getD_set_ne _ _ _ _ (fun e => hj2 e.symm)]
    rw [getD_updNode_ne _ _ _ _ (fun e => hj3 e.symm)]
    rfl

/-! Chain surgery: linking a fresh node after a given node, and replacing a
relocated node by its new position. -/

theorem mem_linkAfter {a b x : Nat} : ∀ {l : List Nat},
    x ∈ linkAfter a b l ↔ x ∈ l ∨ (x = b ∧ a ∈ l) := by
  intro l
  induction l with
  | nil => simp [linkAfter]
  | cons y ys ih =>
    by_cases hy : y = a
    · rw [linkAfter, if_pos hy]
      simp only [List.mem_cons, ih, hy]
      tauto
    · rw [linkAfter, if_neg hy]
      simp only [List.mem_cons, ih]
      have : ¬(y = a) := hy
      tauto

theorem linkAfter_nodup {a b : Nat} (hab : a ≠ b) : ∀ {l : List Nat},
    l.Nodup → b ∉ l → (linkAfter a b l).Nodup := by
  intro l
  induction l with
  | nil => intro _ _; simp [linkAfter]
  | cons y ys ih =>
    intro hnd hb
    simp only [List.nodup_cons] at hnd
    simp only [List.mem_cons] at hb
    push_neg at hb
    by_cases hy : y = a
    · rw [linkAfter, if_pos hy]
      have hays : a ∉ ys := fun h => hnd.1 (by rw [hy]; exact h)
      refine List.nodup_cons.mpr ⟨?_, List.nodup_cons.mpr ⟨?_, ih hnd.2 hb.2⟩⟩
      · intro hmem
        rcases List.mem_cons.mp hmem with he | hmem2
        · exact hab he
        · rcases mem_linkAfter.mp hmem2 with h1 | ⟨h1, _⟩
          · exact hays h1
          · exact hab h1
      · intro hmem
        rcases mem_linkAfter.mp hmem with h1 | ⟨_, h2⟩
        · exact hb.2 h1
        · exact hays h2
    · rw [linkAfter, if_neg hy]
      refine List.nodup_cons.mpr ⟨?_, ih hnd.2 hb.2⟩
      intro hmem
      rcases mem_linkAfter.mp hmem with h1 | ⟨h1, _⟩
      · exact hnd.1 h1
      · exact hb.1 h1.symm

theorem chainTo_linkAfter {t t2 : Hash} {a b : Nat}
    (h1 : (getNode t2 a).next = some b)
    (h2 : (getNode t2 b).next = (getNode t a).next)
    (h3 : ∀ x, x ≠ a → x ≠ b → (getNode t2 x).next = (getNode t x).next) :
    ∀ {s : Nat} {l : List Nat}, ChainTo t s l → (∀ x ∈ l, x ≠ b) →
      ChainTo t2 s (linkAfter a b l) := by
  intro s l h
  induction h with
  | last i hn =>
    intro hb
    by_cases hi : i = a
    · rw [linkAfter, if_pos hi, linkAfter]
      rw [hi]
      exact .step a b [b] h1 (.last b (h2.trans (hi ▸ hn)))
    · rw [linkAfter, if_neg hi, linkAfter]
      exact .last i ((h3 i hi (hb i (List.mem_singleton_self i))).trans hn)
  | step i j l hj hc ih =>
    intro hb
    have hbl : ∀ x ∈ l, x ≠ b := fun x hx => hb x (List.mem_cons_of_mem _ hx)
    have htail : ChainTo t2 j (linkAfter a b l) := by
      have := ih hbl
      obtain ⟨l2, hl2⟩ := chainTo_head hc
      exact this
    have hheadEq : ∀ l3, ChainTo t2 j l3 → l3 = linkAfter a b l → True := fun _ _ _ => trivial
    have hlink : ∃ l4, linkAfter a b l = j :: l4 := by
      obtain ⟨l2, hl2⟩ := chainTo_head htail
      exact ⟨l2, hl2⟩
    by_cases hi : i = a
    · rw [linkAfter, if_pos hi]
      rw [hi]
      refine .step a b _ h1 ?_
      refine .step b j _ (h2.trans (hi ▸ hj)) htail
    · rw [linkAfter, if_neg hi]
      exact .step i j _ ((h3 i hi (hb i (List.mem_cons_self i _))).trans hj) htail

theorem mem_map_replace {a b x : Nat} {l : List Nat} :
    x ∈ l.map (fun y => if y = a then b else y) ↔
      (x ∈ l ∧ x ≠ a) ∨ (x = b ∧ a ∈ l) := by
  induction l with
  | nil => simp
  | cons y ys ih =>
    by_cases hy : y = a
    · simp only [List.map_cons, if_pos hy, List.mem_cons, ih, hy]
      by_cases hx : x = a <;> by_cases hxb : x = b <;> simp [hx, hxb] <;> tauto
    · simp only [List.map_cons, if_neg hy, List.mem_cons, ih]
      have h1 : ¬(y = a) := hy
      by_cases hx : x = y <;> simp [hx] <;> tauto

theorem map_replace_nodup {a b : Nat} {l : List Nat} (hnd : l.Nodup) (hb : b ∉ l) :
    (l.map (fun y => if y = a then b else y)).Nodup := by
  refine List.Nodup.map_on ?_ hnd
  intro x hx y hy hxy
  by_cases hxa : x = a
  · by_cases hya : y = a
    · rw [hxa, hya]
    · rw [if_pos hxa, if_neg hya] at hxy
      exact absurd (hxy ▸ hy) hb
  · by_cases hya : y = a
    · rw [if_neg hxa, if_pos hya] at hxy
      exact absurd (hxy ▸ hx) hb
    · rw [if_neg hxa, if_neg hya] at hxy
      exact hxy

theorem chainTo_replace {t t2 : Hash} {a b : Nat}
    (h2 : (getNode t2 b).next = (getNode t a).next)
    (h3 : ∀ x, x ≠ a → x ≠ b → (getNode t2 x).next =
      (if (getNode t x).next = some a then some b else (getNode t x).next)) :
    ∀ {s : Nat} {l : List Nat}, ChainTo t s l → l.Nodup → (∀ x ∈ l, x ≠ b) →
      ChainTo t2 (if s = a then b else s) (l.map (fun y => if y = a then b else y)) := by
  intro s l h
  induction h with
  | last i hn =>
    intro hnd hb
    simp only [List.map_cons, List.map_nil]
    by_cases hi : i = a
    · rw [if_pos hi]
      exact .last b (h2.trans (hi ▸ hn))
    · rw [if_neg hi]
      refine .last i ?_
      rw [h3 i hi (hb i (List.mem_singleton_self i)), hn]
      simp
  | step i j l hj hc ih =>
    intro hnd hb
    simp only [List.nodup_cons] at hnd
    have hbl : ∀ x ∈ l, x ≠ b := fun x hx => hb x (List.mem_cons_of_mem _ hx)
    have hjl : j ∈ l := by
      obtain ⟨l2, hl2⟩ := chainTo_head hc
      rw [hl2]
      exact List.mem_cons_self j l2
    have htail := ih hnd.2 hbl
    simp only [List.map_cons]
    by_cases hi : i = a
    · have hjne : j ≠ a := fun e => hnd.1 (by rw [← hi] at e; rw [← e]; exact hjl)
      rw [if_pos hi]
      refine .step b _ _ ?_ htail
      rw [h2, show (getNode t a).next = some j from hi ▸ hj, if_neg hjne]
    · rw [if_neg hi]
      refine .step i _ _ ?_ htail
      rw [h3 i hi (hb i (List.mem_cons_self i _)), hj]
      by_cases hja : j = a
      · rw [if_pos (by rw [hja]), if_pos hja]
      · rw [if_neg (by simpa using hja), if_neg hja]

/-! Specifications of the cursor scans. -/

theorem findFreeDown_some {ns : List Node} : ∀ {s r : Nat}, findFreeDown ns s = some r →
    r ≤ s ∧ (ns.getD r dummyNode).key = TObject.nil ∧
      ∀ i, r < i → i ≤ s → (ns.getD i dummyNode).key ≠ TObject.nil := by
  intro s
  induction s with
  | zero =>
    intro r h
    rw [findFreeDown] at h
    by_cases h0 : (ns.getD 0 dummyNode).key = TObject.nil
    · rw [if_pos h0] at h
      injection h with e
      subst e
      exact ⟨le_refl 0, h0, fun i h1 h2 => absurd (Nat.lt_of_lt_of_le h1 h2) (lt_irrefl 0)⟩
    · rw [if_neg h0] at h
      cases h
  | succ n ih =>
    intro r h
    rw [findFreeDown] at h
    by_cases h0 : (ns.getD (n + 1) dummyNode).key = TObject.nil
    · rw [if_pos h0] at h
      injection h with e
      subst e
      exact ⟨le_refl _, h0, fun i h1 h2 => absurd (Nat.lt_of_lt_of_le h1 h2) (lt_irrefl _)⟩
    · rw [if_neg h0] at h
      obtain ⟨e1, e2, e3⟩ := ih h
      refine ⟨by omega, e2, ?_⟩
      intro i h1 h2
      rcases Nat.lt_or_ge i (n + 1) with hlt | hge
      · exact e3 i h1 (by omega)
      · have : i = n + 1 := by omega
        rw [this]
        exact h0

theorem findFreeDown_none {ns : List Node} : ∀ {s : Nat}, findFreeDown ns s = none →
    ∀ i, i ≤ s → (ns.getD i dummyNode).key ≠ TObject.nil := by
  intro s
  induction s with
  | zero =>
    intro h i hi
    rw [findFreeDown] at h
    by_cases h0 : (ns.getD 0 dummyNode).key = TObject.nil
    · rw [if_pos h0] at h; cases h
    · have : i = 0 := by omega
      rw [this]
      exact h0
  | succ n ih =>
    intro h i hi
    rw [findFreeDown] at h
    by_cases h0 : (ns.getD (n + 1) dummyNode).key = TObject.nil
    · rw [if_pos h0] at h; cases h
    · rw [if_neg h0] at h
      rcases Nat.lt_or_ge i (n + 1) with hlt | hge
      · exact ih h i (by omega)
      · have : i = n + 1 := by omega
        rw [this]
        exact h0

theorem scanFree_spec {ns : List Node} : ∀ {s : Nat},
    (∃ i, i ≤ s ∧ (ns.getD i dummyNode).key = TObject.nil) →
    scanFree ns s ≤ s ∧ (ns.getD (scanFree ns s) dummyNode).key = TObject.nil ∧
      ∀ i, scanFree ns s < i → i ≤ s → (ns.getD i dummyNode).key ≠ TObject.nil := by
  intro s
  induction s with
  | zero =>
    intro hex
    obtain ⟨i, hi, hk⟩ := hex
    have : i = 0 := by omega
    subst this
    rw [scanFree]
    exact ⟨le_refl 0, hk, fun i h1 h2 => absurd (Nat.lt_of_lt_of_le h1 h2) (lt_irrefl 0)⟩
  | succ n ih =>
    intro hex
    rw [scanFree]
    by_cases h0 : (ns.getD (n + 1) dummyNode).key = TObject.nil
    · rw [if_pos h0]
      exact ⟨le_refl _, h0, fun i h1 h2 => absurd (Nat.lt_of_lt_of_le h1 h2) (lt_irrefl _)⟩
    · rw [if_neg h0]
      have hex2 : ∃ i, i ≤ n ∧ (ns.getD i dummyNode).key = TObject.nil := by
        obtain ⟨i, hi, hk⟩ := hex
        refine ⟨i, ?_, hk⟩
        rcases Nat.lt_or_ge i (n + 1) with hlt | hge
        · omega
        · exact absurd (show i = n + 1 by omega ▸ hk) (by
            intro hh
            exact h0 (by rw [show i = n + 1 by omega] at hk; exact hk))
      obtain ⟨e1, e2, e3⟩ := ih hex2
      refine ⟨by omega, e2, ?_⟩
      intro i h1 h2
      rcases Nat.lt_or_ge i (n + 1) with hlt | hge
      · exact e3 i h1 (by omega)
      · have : i = n + 1 := by omega
        rw [this]
        exact h0

/-! Counting occupied slots across single-slot updates. -/

set_option linter.unreachableTactic false in
set_option linter.unusedTactic false in
theorem length_filter_set (p : Node → Bool) : ∀ (ns : List Node) (i : Nat) (x : Node),
    i < ns.length →
    ((ns.set i x).filter p).length + (if p (ns.getD i dummyNode) then 1 else 0)
      = (ns.filter p).length + (if p x then 1 else 0) := by
  intro ns
  induction ns with
  | nil => intro i x h; simp at h
  | cons y ys ih =>
    intro i x h
    cases i with
    | zero =>
      simp only [List.set_cons_zero, List.filter_cons, List.getD_cons_zero]
      by_cases hx : p x <;> by_cases hy : p y <;> simp [hx, hy] <;> omega
    | succ n =>
      simp only [List.set_cons_succ, List.filter_cons, List.getD_cons_succ]
      have := ih n x (by simpa using Nat.lt_of_succ_lt_succ h)
      simp only [List.getD_eq_getElem?_getD] at this ⊢
      by_cases hy : p y <;> simp [hy] <;> omega

theorem filter_length_set_keep (p : Node → Bool) (ns : List Node) (i : Nat) (x : Node)
    (hp : p x = p (ns.getD i dummyNode)) :
    ((ns.set i x).filter p).length = (ns.filter p).length := by
  rcases Nat.lt_or_ge i ns.length with hlt | hge
  · have := length_filter_set p ns i x hlt
    rw [hp] at this
    omega
  · rw [List.set_eq_of_length_le (by omega)]

theorem filter_length_set_flip (p : Node → Bool) (ns : List Node) (i : Nat) (x : Node)
    (hi : i < ns.length) (hold : p (ns.getD i dummyNode) = false) (hnew : p x = true) :
    ((ns.set i x).filter p).length = (ns.filter p).length + 1 := by
  have := length_filter_set p ns i x hi
  rw [hold, hnew] at this
  simp at this
  omega

theorem filter_length_updNode_keep (p : Node → Bool) (ns : List Node) (i : Nat)
    (f : Node → Node) (hp : ∀ nd, p (f nd) = p nd) :
    ((updNode ns i f).filter p).length = (ns.filter p).length :=
  filter_length_set_keep p ns i _ (hp _)

/-! The common postcondition of a successful insertion (before the cursor
check at the end of `luaH_set`). -/

/-! Insertion case 1: the main position is free (ltable.c line 267 with the
line 248 test false); the new pair goes directly to its main position. -/

theorem insOK_free {t : Hash} (w : WF t) {k v : TObject} (hk : k ≠ TObject.nil)
    (habs : ∀ i, i < t.node.length → (getNode t i).key ≠ k)
    (hfree : (getNode t (mainposIdx t.node.length k)).key = TObject.nil) :
    InsOK t (insertNew t (mainposIdx t.node.length k) k v) k v := by
  have hmlt : mainposIdx t.node.length k < t.node.length := mainposIdx_lt _ _ w.sizePos
  obtain ⟨hlen, hff, hmpnode, hframe⟩ := insertNew_free_spec (v := v) hfree hmlt
  set mp := mainposIdx t.node.length k with hmpdef
  set t1 := insertNew t mp k v with ht1def
  have hnextmp : (getNode t mp).next = none := by
    rcases hh : (getNode t mp).next with _ | j
    · rfl
    · exact absurd hfree (w.nextKeySrc mp j hh)
  have ht1mp : getNode t1 mp = ⟨k, v, none⟩ := by rw [hmpnode, hnextmp]
  have hnextEq : ∀ x, (getNode t1 x).next = (getNode t x).next := by
    intro x
    by_cases hx : x = mp
    · rw [hx, ht1mp, hnextmp]
    · rw [hframe x hx]
  have hkeyEq : ∀ x, x ≠ mp → (getNode t1 x).key = (getNode t x).key := by
    intro x hx
    rw [hframe x hx]
  have hmpLe : mp ≤ t.firstfree := by
    by_contra hgt
    exact w.highOcc mp (by omega) hmlt hfree
  have hNoPred : ∀ i, (getNode t i).next ≠ some mp := by
    intro i hh
    exact w.nextKeyTgt i mp hh hfree
  have hnode : t1.node = t.node.set mp ⟨k, v, (getNode t mp).next⟩ := by
    rw [ht1def, insertNew, if_neg (by simpa using hfree)]
    rfl
  refine ⟨hlen, hff, ?_, ?_, ?_, ?_, ?_, ?_, ?_, ?_, ?_, ?_, ?_, ?_, ?_, ?_, ?_⟩
  · exact ⟨mp, hmlt, by rw [ht1mp], by rw [ht1mp]⟩
  · rw [keyCount, keyCount, hnode]
    refine filter_length_set_flip _ _ _ _ hmlt ?_ ?_
    · simp only [decide_eq_false_iff_not, Decidable.not_not]
      exact hfree
    · simp only [decide_eq_true_eq]
      exact hk
  · intro j hj hocc
    have hjne : j ≠ mp := fun e => hocc (by rw [e]; exact hfree)
    exact ⟨j, hj, by rw [hframe j hjne], by rw [hframe j hjne]⟩
  · intro j2 hj2 hocc hne
    have hjne : j2 ≠ mp := fun e => hne (by rw [e, ht1mp])
    exact ⟨j2, hj2, by rw [hframe j2 hjne], by rw [hframe j2 hjne]⟩
  · intro i j hh
    rw [hnextEq i] at hh
    exact w.nextLt i j hh
  · intro i j hh
    rw [hnextEq i] at hh
    exact Nat.le_of_lt (w.nextGtFF i j hh)
  · intro _ i j hh
    rw [hnextEq i] at hh
    exact w.nextGtFF i j hh
  · intro i j hh
    rw [hnextEq i] at hh
    have hine : i ≠ mp := fun e => by rw [e, hnextmp] at hh; cases hh
    rw [hkeyEq i hine]
    exact w.nextKeySrc i j hh
  · intro i j hh
    rw [hnextEq i] at hh
    have hjne : j ≠ mp := fun e => hNoPred i (e ▸ hh)
    rw [hkeyEq j hjne]
    exact w.nextKeyTgt i j hh
  · intro i j hh
    rw [hnextEq i] at hh
    have hine : i ≠ mp := fun e => by rw [e, hnextmp] at hh; cases hh
    have hjne : j ≠ mp := fun e => hNoPred i (e ▸ hh)
    rw [hkeyEq i hine, hkeyEq j hjne]
    exact w.nextMain i j hh
  · intro i hi
    obtain ⟨l, hl, hnd⟩ := w.chains i hi
    exact ⟨l, chainTo_congr hl (fun a _ => hnextEq a), hnd⟩
  · intro i hi hocc l hl
    by_cases hie : i = mp
    · have hm : mainposIdx t.node.length (getNode t1 i).key = i := by
        rw [hie, ht1mp, ← hmpdef]
      rw [hm] at hl
      obtain ⟨l2, rfl⟩ := chainTo_head hl
      simp
    · rw [hkeyEq i hie] at hl
      have hl3 : ChainTo t (mainposIdx t.node.length (getNode t i).key) l :=
        chainTo_congr hl (fun a _ => (hnextEq a).symm)
      exact w.chainAll i hi (by rw [← hkeyEq i hie]; exact hocc) l hl3
  · intro i j hi hj hocc he
    by_cases hie : i = mp
    · by_cases hje : j = mp
      · rw [hie, hje]
      · rw [hie, ht1mp] at he
        rw [hkeyEq j hje] at he
        exact absurd he.symm (habs j hj)
    · by_cases hje : j = mp
      · rw [hje, ht1mp] at he
        rw [hkeyEq i hie] at he
        exact absurd he (habs i hi)
      · rw [hkeyEq i hie] at hocc he
        rw [hkeyEq j hje] at he
        exact w.distinct i j hi hj hocc he
  · intro i h1 h2
    have hie : i ≠ mp := by omega
    rw [hkeyEq i hie]
    exact w.highOcc i h1 h2
  · intro i h1 hocc
    by_cases hie : i = mp
    · rw [hie, ht1mp]
    · rw [hkeyEq i hie] at hocc ⊢
      exact w.lowMain i h1 hocc

/-! Insertion case 2 (ltable.c lines 260-265): the colliding node is in its
own main position, so the new pair goes to the free position and is chained
right after the root. -/

theorem wf_chain_elem_ne_ff {t : Hash} (w : WF t) {s : Nat} {l : List Nat}
    (hl : ChainTo t s l) (hs : s ≠ t.firstfree) : ∀ x ∈ l, x ≠ t.firstfree := by
  intro x hx
  rcases chainTo_mem_cases hl x hx with he | ⟨b, _, hb⟩
  · rw [he]; exact hs
  · have := w.nextGtFF b x hb
    omega

theorem wf_tail_chain {t : Hash} (w : WF t) {mp j : Nat} (hmlt : mp < t.node.length)
    (hj : (getNode t mp).next = some j) :
    ∃ lj, ChainTo t j lj ∧ lj.Nodup ∧ mp ∉ lj ∧ (∀ x ∈ lj, t.firstfree < x) := by
  have hjlt := w.nextLt mp j hj
  obtain ⟨lj, hlj, hndj⟩ := w.chains j hjlt
  have hchain : ChainTo t mp (mp :: lj) := .step mp j lj hj hlj
  obtain ⟨l0, hl0, hnd0⟩ := w.chains mp hmlt
  have he : l0 = mp :: lj := chainTo_unique hl0 hchain
  rw [he] at hnd0
  simp only [List.nodup_cons] at hnd0
  refine ⟨lj, hlj, hnd0.2, hnd0.1, ?_⟩
  intro x hx
  rcases chainTo_mem_cases hlj x hx with he2 | ⟨b, _, hb⟩
  · rw [he2]; exact w.nextGtFF mp j hj
  · exact w.nextGtFF b x hb

theorem insOK_caseB {t : Hash} (w : WF t) {k v : TObject} (hk : k ≠ TObject.nil)
    (habs : ∀ i, i < t.node.length → (getNode t i).key ≠ k)
    (hocc : (getNode t (mainposIdx t.node.length k)).key ≠ TObject.nil)
    (hcond : ¬(mainposIdx t.node.length k > t.firstfree ∧
      mainposIdx t.node.length
        (getNode t (mainposIdx t.node.length k)).key ≠ mainposIdx t.node.length k)) :
    InsOK t (insertNew t (mainposIdx t.node.length k) k v) k v := by
  have hmlt : mainposIdx t.node.length k < t.node.length := mainposIdx_lt _ _ w.sizePos
  have hffLt : t.firstfree < t.node.length := w.ffLt
  have hne : mainposIdx t.node.length k ≠ t.firstfree := by
    intro e
    exact hocc (by rw [e]; exact w.ffNil)
  obtain ⟨hlen, hff, ht1n, ht1mp, hframe⟩ :=
    insertNew_caseB_spec (v := v) hocc hcond hmlt hffLt hne
  set len := t.node.length with hlendef
  set mp := mainposIdx len k with hmpdef
  set n := t.firstfree with hndef
  set t1 := insertNew t mp k v with ht1def
  have hothern : mainposIdx len (getNode t mp).key = mp := by
    push_neg at hcond
    rcases Nat.lt_or_ge n mp with hgt | hle
    · exact hcond hgt
    · have hlt : mp < n := by omega
      exact w.lowMain mp hlt hocc
  have hkeyn : (getNode t n).key = TObject.nil := w.ffNil
  have hnextn : (getNode t n).next = none := by
    rcases hh : (getNode t n).next with _ | j
    · rfl
    · exact absurd hkeyn (by simpa using w.nextKeySrc n j hh)
  have hNoPredN : ∀ i, (getNode t i).next ≠ some n := by
    intro i hh
    have := w.nextGtFF i n hh
    omega
  have hn1 : (getNode t1 mp).next = some n := by rw [ht1mp]
  have hn2 : (getNode t1 n).next = (getNode t mp).next := by rw [ht1n]
  have hn3 : ∀ x, x ≠ mp → x ≠ n → (getNode t1 x).next = (getNode t x).next := by
    intro x h1 h2
    rw [hframe x h1 h2]
  have hkeyEq : ∀ x, x ≠ n → (getNode t1 x).key = (getNode t x).key := by
    intro x hx
    by_cases hxm : x = mp
    · rw [hxm, ht1mp]
    · rw [hframe x hxm hx]
  have hvalEq : ∀ x, x ≠ n → (getNode t1 x).val = (getNode t x).val := by
    intro x hx
    by_cases hxm : x = mp
    · rw [hxm, ht1mp]
    · rw [hframe x hxm hx]
  have hkeyT1n : (getNode t1 n).key = k := by rw [ht1n]
  -- the rebuilt chain from a start other than the free position
  have hlink : ∀ s l, ChainTo t s l → s ≠ n →
      ChainTo t1 s (linkAfter mp n l) ∧ (∀ x ∈ l, x ≠ n) := by
    intro s l hl hs
    have helem : ∀ x ∈ l, x ≠ n := wf_chain_elem_ne_ff w hl hs
    exact ⟨chainTo_linkAfter hn1 hn2 hn3 hl helem, helem⟩
  -- the rebuilt chain from the free position
  have hchainN : ∃ ln, ChainTo t1 n ln ∧ ln.Nodup := by
    rcases hh : (getNode t mp).next with _ | j
    · refine ⟨[n], .last n ?_, by simp⟩
      rw [hn2, hh]
    · obtain ⟨lj, hlj, hndj, hmpnot, hgtff⟩ := wf_tail_chain w hmlt hh
      have hljt1 : ChainTo t1 j lj := by
        refine chainTo_congr hlj ?_
        intro a ha
        refine hn3 a (fun e => hmpnot (e ▸ ha)) (fun e => ?_)
        have := hgtff a ha
        omega
      refine ⟨n :: lj, .step n j lj (by rw [hn2, hh]) hljt1, ?_⟩
      simp only [List.nodup_cons]
      exact ⟨fun hmem => absurd (hgtff n hmem) (lt_irrefl n), hndj⟩
  have hnode : t1.node =
      ((updNode (updNode t.node n
          (fun nd => { nd with next := (getNode t mp).next })) mp
          (fun nd => { nd with next := some n })).set n
        ⟨k, v, ((updNode (updNode t.node n
          (fun nd => { nd with next := (getNode t mp).next })) mp
          (fun nd => { nd with next := some n })).getD n dummyNode).next⟩) := by
    rw [ht1def, insertNew, if_pos hocc, if_neg hcond]
    rfl
  refine ⟨hlen, hff, ?_, ?_, ?_, ?_, ?_, ?_, ?_, ?_, ?_, ?_, ?_, ?_, ?_, ?_, ?_⟩
  · exact ⟨n, hffLt, by rw [ht1n], by rw [ht1n]⟩
  · rw [keyCount, keyCount, hnode]
    have hb2 : n < (updNode (updNode t.node n
        (fun nd => { nd with next := (getNode t mp).next })) mp
        (fun nd => { nd with next := some n })).length := by
      simpa [updNode] using hffLt
    have hgd : ((updNode (updNode t.node n
        (fun nd => { nd with next := (getNode t mp).next })) mp
        (fun nd => { nd with next := some n })).getD n dummyNode).key
        = TObject.nil := by
      rw [getD_updNode_ne _ _ _ _ hne]
      rw [getD_updNode_self _ _ _ hffLt]
      exact hkeyn
    have e1 : ((updNode t.node n
        (fun nd => { nd with next := (getNode t mp).next })).filter
          (fun nd => nd.key ≠ TObject.nil)).length
        = (t.node.filter (fun nd => nd.key ≠ TObject.nil)).length :=
      filter_length_updNode_keep _ _ _ _ (fun nd => rfl)
    have e2 : ((updNode (updNode t.node n
        (fun nd => { nd with next := (getNode t mp).next })) mp
        (fun nd => { nd with next := some n })).filter
          (fun nd => nd.key ≠ TObject.nil)).length
        = ((updNode t.node n
            (fun nd => { nd with next := (getNode t mp).next })).filter
          (fun nd => nd.key ≠ TObject.nil)).length :=
      filter_length_updNode_keep _ _ _ _ (fun nd => rfl)
    rw [filter_length_set_flip _ _ _ _ hb2 (by simpa using hgd) (by simpa using hk)]
    rw [e2, e1]
  · intro j hj hjocc
    have hjn : j ≠ n := fun e => hjocc (by rw [e]; exact hkeyn)
    exact ⟨j, hj, hkeyEq j hjn, hvalEq j hjn⟩
  · intro j2 hj2 hjocc hjk
    have hjn : j2 ≠ n := fun e => hjk (by rw [e]; exact hkeyT1n)
    exact ⟨j2, hj2, (hkeyEq j2 hjn).symm, (hvalEq j2 hjn).symm⟩
  · intro i j hh
    by_cases him : i = mp
    · rw [him, hn1] at hh
      injection hh with e
      rw [← e]
      exact hffLt
    · by_cases hin : i = n
      · rw [hin, hn2] at hh
        exact w.nextLt mp j hh
      · rw [hn3 i him hin] at hh
        exact w.nextLt i j hh
  · intro i j hh
    by_cases him : i = mp
    · rw [him, hn1] at hh
      injection hh with e
      omega
    · by_cases hin : i = n
      · rw [hin, hn2] at hh
        exact Nat.le_of_lt (w.nextGtFF mp j hh)
      · rw [hn3 i him hin] at hh
        exact Nat.le_of_lt (w.nextGtFF i j hh)
  · intro hnil
    rw [hkeyT1n] at hnil
    exact absurd hnil hk
  · intro i j hh
    by_cases him : i = mp
    · rw [him]
      rw [hkeyEq mp hne]
      exact hocc
    · by_cases hin : i = n
      · rw [hin, hkeyT1n]
        exact hk
      · rw [hn3 i him hin] at hh
        rw [hkeyEq i hin]
        exact w.nextKeySrc i j hh
  · intro i j hh
    by_cases him : i = mp
    · rw [him, hn1] at hh
      injection hh with e
      rw [← e, hkeyT1n]
      exact hk
    · by_cases hin : i = n
      · rw [hin, hn2] at hh
        have hjn : j ≠ n := fun e => hNoPredN mp (e ▸ hh)
        rw [hkeyEq j hjn]
        exact w.nextKeyTgt mp j hh
      · rw [hn3 i him hin] at hh
        have hjn : j ≠ n := fun e => hNoPredN i (e ▸ hh)
        rw [hkeyEq j hjn]
        exact w.nextKeyTgt i j hh
  · intro i j hh
    by_cases him : i = mp
    · rw [him, hn1] at hh
      injection hh with e
      rw [him, ← e, hkeyT1n, hkeyEq mp hne, hothern, ← hmpdef]
    · by_cases hin : i = n
      · rw [hin, hn2] at hh
        have hjn : j ≠ n := fun e => hNoPredN mp (e ▸ hh)
        rw [hin, hkeyEq j hjn, hkeyT1n, w.nextMain mp j hh, hothern, ← hmpdef]
      · rw [hn3 i him hin] at hh
        have hjn : j ≠ n := fun e => hNoPredN i (e ▸ hh)
        rw [hkeyEq i hin, hkeyEq j hjn]
        exact w.nextMain i j hh
  · intro i hi
    by_cases hin : i = n
    · rw [hin]
      exact hchainN
    · obtain ⟨l, hl, hnd⟩ := w.chains i hi
      obtain ⟨hlnew, helem⟩ := hlink i l hl hin
      refine ⟨linkAfter mp n l, hlnew, linkAfter_nodup hne hnd ?_⟩
      intro hmem
      exact (helem n hmem) rfl
  · intro i hi hiocc l2 hl2
    by_cases hin : i = n
    · rw [hin] at hl2 ⊢
      rw [hkeyT1n, ← hmpdef] at hl2
      obtain ⟨lm, hlm, hndm⟩ := w.chains mp hmlt
      obtain ⟨hlnew, helem⟩ := hlink mp lm hlm hne
      have he : l2 = linkAfter mp n lm := chainTo_unique hl2 hlnew
      rw [he]
      apply mem_linkAfter.mpr
      refine Or.inr ⟨rfl, ?_⟩
      obtain ⟨lm2, hlm2⟩ := chainTo_head hlm
      rw [hlm2]
      exact List.mem_cons_self mp lm2
    · rw [hkeyEq i hin] at hl2
      set m := mainposIdx len (getNode t i).key with hmdef
      have hmn : m ≠ n := by
        intro e
        have hml : m < len := mainposIdx_lt _ _ w.sizePos
        obtain ⟨lnn, hlnn, hndn⟩ := w.chains m hml
        have hinl : i ∈ lnn := w.chainAll i hi (by rwa [← hkeyEq i hin]) lnn hlnn
        have hsingle : lnn = [n] := by
          have h2 : ChainTo t m [n] := by
            rw [e]
            exact .last n hnextn
          exact chainTo_unique hlnn h2
        rw [hsingle] at hinl
        simp at hinl
        exact hin hinl
      obtain ⟨lm, hlm, hndm⟩ := w.chains m (mainposIdx_lt _ _ w.sizePos)
      obtain ⟨hlnew, helem⟩ := hlink m lm hlm hmn
      have he : l2 = linkAfter mp n lm := chainTo_unique hl2 hlnew
      rw [he]
      apply mem_linkAfter.mpr
      exact Or.inl (w.chainAll i hi (by rwa [← hkeyEq i hin]) lm hlm)
  · intro i j hi hj hiocc he
    by_cases hin : i = n
    · by_cases hjn : j = n
      · rw [hin, hjn]
      · rw [hin, hkeyT1n] at he
        rw [hkeyEq j hjn] at he
        exact absurd he.symm (habs j hj)
    · by_cases hjn : j = n
      · rw [hjn, hkeyT1n] at he
        rw [hkeyEq i hin] at he
        exact absurd he (habs i hi)
      · rw [hkeyEq i hin] at hiocc he
        rw [hkeyEq j hjn] at he
        exact w.distinct i j hi hj hiocc he
  · intro i h1 h2
    have hin : i ≠ n := by omega
    rw [hkeyEq i hin]
    exact w.highOcc i h1 h2
  · intro i h1 hiocc
    have hin : i ≠ n := by omega
    rw [hkeyEq i hin] at hiocc ⊢
    exact w.lowMain i h1 hiocc

/-! Insertion case 3 (ltable.c lines 253-258, Brent's variation): the
colliding node is out of its own main position; it is relocated to the free
position, its chain predecessor is redirected, and the new pair takes the
main position. -/

theorem wf_findPrev {t : Hash} (w : WF t) {mp : Nat} (hmlt : mp < t.node.length)
    (hocc : (getNode t mp).key ≠ TObject.nil)
    (hother : mainposIdx t.node.length (getNode t mp).key ≠ mp) :
    ∃ prev, findPrev t mp t.node.length
        (mainposIdx t.node.length (getNode t mp).key) = some prev ∧
      (getNode t prev).next = some mp ∧ prev < t.node.length ∧
      prev ≠ mp ∧ prev ≠ t.firstfree ∧
      mainposIdx t.node.length (getNode t prev).key
        = mainposIdx t.node.length (getNode t mp).key := by
  set othern := mainposIdx t.node.length (getNode t mp).key with hodef
  have holt : othern < t.node.length := mainposIdx_lt _ _ w.sizePos
  obtain ⟨lo, hlo, hndo⟩ := w.chains othern holt
  have hmpmem : mp ∈ lo := w.chainAll mp hmlt hocc lo hlo
  have hex : ∃ b ∈ lo, (getNode t b).next = some mp := by
    rcases chainTo_mem_cases hlo mp hmpmem with he | hb
    · exact absurd he.symm hother
    · exact hb
  have hfp := @findPrev_eq t mp _ _ hlo t.node.length (wf_chain_bound w hlo hndo holt)
  have hsome : (lo.find? (fun a => decide ((getNode t a).next = some mp))).isSome := by
    rw [List.find?_isSome]
    obtain ⟨b, hbm, hbn⟩ := hex
    exact ⟨b, hbm, by simpa using hbn⟩
  obtain ⟨prev, hprev⟩ := Option.isSome_iff_exists.mp hsome
  have hpmem : prev ∈ lo := List.mem_of_find?_eq_some hprev
  have hpnext : (getNode t prev).next = some mp := by
    have := List.find?_some hprev
    simpa using this
  have hplt : prev < t.node.length := chainTo_elem_lt hlo w.nextLt holt prev hpmem
  have hpmp : prev ≠ mp := by
    intro e
    refine wf_no_self_loop w mp ?_
    rw [e] at hpnext
    exact hpnext
  have hpff : prev ≠ t.firstfree := by
    intro e
    have := w.nextKeySrc prev mp hpnext
    rw [e] at this
    exact this w.ffNil
  have hpmain : mainposIdx t.node.length (getNode t prev).key = othern := by
    have hconst := chainTo_const (fun x => mainposIdx t.node.length (getNode t x).key) hlo
      (fun i j hij _ => w.nextMain i j hij)
    have h1 := hconst prev hpmem
    have h2 := hconst mp hmpmem
    simp only at h1 h2
    rw [h1, ← h2, hodef]
  exact ⟨prev, hfp ▸ hprev, hpnext, hplt, hpmp, hpff, hpmain⟩

theorem insOK_caseA {t : Hash} (w : WF t) {k v : TObject} (hk : k ≠ TObject.nil)
    (habs : ∀ i, i < t.node.length → (getNode t i).key ≠ k)
    (hocc : (getNode t (mainposIdx t.node.length k)).key ≠ TObject.nil)
    (hgt : mainposIdx t.node.length k > t.firstfree)
    (hother : mainposIdx t.node.length
        (getNode t (mainposIdx t.node.length k)).key ≠ mainposIdx t.node.length k) :
    InsOK t (insertNew t (mainposIdx t.node.length k) k v) k v := by
  have hmlt : mainposIdx t.node.length k < t.node.length := mainposIdx_lt _ _ w.sizePos
  have hffLt : t.firstfree < t.node.length := w.ffLt
  obtain ⟨prev, hfp, hpnext, hplt, hpmp, hpff, hpmain⟩ := wf_findPrev w hmlt hocc hother
  obtain ⟨hlen, hff, ht1n, ht1mp, ht1prev, hframe⟩ :=
    insertNew_caseA_spec (v := v) hocc ⟨hgt, hother⟩ hfp hmlt hffLt hpmp hpff hplt
  set len := t.node.length with hlendef
  set mp := mainposIdx len k with hmpdef
  set n := t.firstfree with hndef
  set othern := mainposIdx len (getNode t mp).key with hodef
  set t1 := insertNew t mp k v with ht1def
  have hmpn : mp ≠ n := by omega
  have hkeyn : (getNode t n).key = TObject.nil := w.ffNil
  have hnextn : (getNode t n).next = none := by
    rcases hh : (getNode t n).next with _ | j
    · rfl
    · exact absurd hkeyn (by simpa using w.nextKeySrc n j hh)
  have hNoPredN : ∀ i, (getNode t i).next ≠ some n := by
    intro i hh
    have := w.nextGtFF i n hh
    omega
  have hOnlyPrev : ∀ x, (getNode t x).next = some mp → x = prev := by
    intro x hx
    exact wf_pred_unique w hx hpnext
  have hn1 : (getNode t1 mp).next = none := by rw [ht1mp]
  have hn2 : (getNode t1 n).next = (getNode t mp).next := by rw [ht1n]
  have hn3 : (getNode t1 prev).next = some n := by rw [ht1prev]
  have hnF : ∀ x, x ≠ mp → x ≠ n → x ≠ prev →
      (getNode t1 x).next = (getNode t x).next := by
    intro x h1 h2 h3
    rw [hframe x h1 h2 h3]
  have hrep3 : ∀ x, x ≠ mp → x ≠ n → (getNode t1 x).next =
      (if (getNode t x).next = some mp then some n else (getNode t x).next) := by
    intro x h1 h2
    by_cases hp : x = prev
    · rw [hp, hn3, if_pos hpnext]
    · rw [hnF x h1 h2 hp]
      rw [if_neg (fun e => hp (hOnlyPrev x e))]
  have hkeyEq : ∀ x, x ≠ mp → x ≠ n → (getNode t1 x).key = (getNode t x).key := by
    intro x h1 h2
    by_cases hp : x = prev
    · rw [hp, ht1prev]
    · rw [hframe x h1 h2 hp]
  have hvalEq : ∀ x, x ≠ mp → x ≠ n → (getNode t1 x).val = (getNode t x).val := by
    intro x h1 h2
    by_cases hp : x = prev
    · rw [hp, ht1prev]
    · rw [hframe x h1 h2 hp]
  have hkeyT1mp : (getNode t1 mp).key = k := by rw [ht1mp]
  have hkeyT1n : (getNode t1 n).key = (getNode t mp).key := by rw [ht1n]
  have hvalT1n : (getNode t1 n).val = (getNode t mp).val := by rw [ht1n]
  have hkeymp : (getNode t mp).key ≠ TObject.nil := hocc
  have hothermp : othern ≠ mp := hother
  have honLt : othern < len := mainposIdx_lt _ _ w.sizePos
  -- the root of the occupant's chain is occupied, hence distinct from the free slot
  obtain ⟨lo, hlo, hndo⟩ := w.chains othern honLt
  have hmpmem : mp ∈ lo := w.chainAll mp hmlt hocc lo hlo
  have honOcc : (getNode t othern).key ≠ TObject.nil := by
    rcases chainTo_mem_cases hlo mp hmpmem with he | ⟨b, hbm, hbn⟩
    · exact absurd he.symm hothermp
    · -- othern has an outgoing edge, since its chain has at least two members
      obtain ⟨l2, hl2⟩ := chainTo_head hlo
      rcases hh : (getNode t othern).next with _ | j
      · have : lo = [othern] := chainTo_unique hlo (.last othern hh)
        rw [this] at hmpmem
        simp at hmpmem
        exact absurd hmpmem.symm hothermp
      · exact w.nextKeySrc othern j hh
  have honN : othern ≠ n := by
    intro e
    rw [e] at honOcc
    exact honOcc hkeyn
  -- chain of the occupant's main position, rebuilt
  have hconstlo := chainTo_const (fun x => mainposIdx len (getNode t x).key) hlo
    (fun i j hij _ => w.nextMain i j hij)
  -- chains from starts other than mp and n
  have hmap : ∀ s l, ChainTo t s l → l.Nodup → s ≠ mp → s ≠ n →
      ChainTo t1 s (l.map (fun y => if y = mp then n else y)) := by
    intro s l hl hnd hsm hsn
    have helem : ∀ x ∈ l, x ≠ n := wf_chain_elem_ne_ff w hl hsn
    have hrw := chainTo_replace hn2 hrep3 hl hnd helem
    rwa [if_neg hsm] at hrw
  -- the rebuilt chain from the free position
  have hchainN : ∃ ln, ChainTo t1 n ln ∧ ln.Nodup := by
    rcases hh : (getNode t mp).next with _ | j
    · refine ⟨[n], .last n ?_, by simp⟩
      rw [hn2, hh]
    · obtain ⟨lj, hlj, hndj, hmpnot, hgtff⟩ := wf_tail_chain w hmlt hh
      have hprevnot : prev ∉ lj := by
        intro hmem
        have hlmp : ChainTo t mp (mp :: lj) := .step mp j lj hh hlj
        have hlprev : ChainTo t prev (prev :: mp :: lj) := .step prev mp _ hpnext hlmp
        obtain ⟨lp, hlp, hndp⟩ := w.chains prev hplt
        have he : lp = prev :: mp :: lj := chainTo_unique hlp hlprev
        rw [he] at hndp
        simp only [List.nodup_cons] at hndp
        exact hndp.1 (List.mem_cons_of_mem _ hmem)
      have hljt1 : ChainTo t1 j lj := by
        refine chainTo_congr hlj ?_
        intro a ha
        refine hnF a (fun e => hmpnot (e ▸ ha)) (fun e => ?_) (fun e => hprevnot (e ▸ ha))
        have := hgtff a ha
        omega
      refine ⟨n :: lj, .step n j lj (by rw [hn2, hh]) hljt1, ?_⟩
      simp only [List.nodup_cons]
      exact ⟨fun hmem => absurd (hgtff n hmem) (lt_irrefl n), hndj⟩
  -- the elements of the occupant-root chain all share its main position
  have hprevmem : prev ∈ lo := by
    have hconst := hconstlo prev
    -- membership via the adjacency of prev before mp
    have : ∀ x, (getNode t x).next = some mp → x ∈ lo := by
      intro x hx
      have hxk : (getNode t x).key ≠ TObject.nil := w.nextKeySrc x mp hx
      have hxlt : x < len := by
        by_contra hge
        rw [show getNode t x = dummyNode from getD_oob _ _ (by omega)] at hxk
        exact hxk rfl
      have hxm : mainposIdx len (getNode t x).key = othern := by
        rw [← w.nextMain x mp hx]
      refine w.chainAll x hxlt hxk lo ?_
      rw [hxm]
      exact hlo
    exact this prev hpnext
  have hnode : t1.node =
      ((updNode ((updNode t.node prev (fun nd => { nd with next := some n })).set
          n ((updNode t.node prev
            (fun nd => { nd with next := some n })).getD mp dummyNode)) mp
          (fun nd => { nd with next := none })).set mp
        ⟨k, v, (((updNode ((updNode t.node prev
            (fun nd => { nd with next := some n })).set
            n ((updNode t.node prev
              (fun nd => { nd with next := some n })).getD mp dummyNode)) mp
            (fun nd => { nd with next := none })).getD mp dummyNode)).next⟩) := by
    rw [ht1def, insertNew, if_pos hocc, if_pos ⟨hgt, hother⟩, hfp]
  refine ⟨hlen, hff, ?_, ?_, ?_, ?_, ?_, ?_, ?_, ?_, ?_, ?_, ?_, ?_, ?_, ?_, ?_⟩
  · exact ⟨mp, hmlt, by rw [ht1mp], by rw [ht1mp]⟩
  · -- counting: the relocation moves one occupied slot and fills the free one
    rw [keyCount, keyCount, hnode]
    have hg1 : (updNode t.node prev
        (fun nd => { nd with next := some n })).getD mp dummyNode = getNode t mp :=
      getD_updNode_ne _ _ _ _ hpmp
    have e1 : ((updNode t.node prev
        (fun nd => { nd with next := some n })).filter
          (fun nd => nd.key ≠ TObject.nil)).length
        = (t.node.filter (fun nd => nd.key ≠ TObject.nil)).length :=
      filter_length_updNode_keep _ _ _ _ (fun nd => rfl)
    have e2 : (((updNode t.node prev (fun nd => { nd with next := some n })).set
        n ((updNode t.node prev
          (fun nd => { nd with next := some n })).getD mp dummyNode)).filter
          (fun nd => nd.key ≠ TObject.nil)).length
        = ((updNode t.node prev
            (fun nd => { nd with next := some n })).filter
          (fun nd => nd.key ≠ TObject.nil)).length + 1 := by
      refine filter_length_set_flip _ _ _ _ (by simpa [updNode] using hffLt) ?_ ?_
      · rw [getD_updNode_ne _ _ _ _ hpff]
        simpa [getNode, List.getD_eq_getElem?_getD] using hkeyn
      · rw [hg1]
        simpa using hocc
    have e3 : ((updNode ((updNode t.node prev
        (fun nd => { nd with next := some n })).set
          n ((updNode t.node prev
            (fun nd => { nd with next := some n })).getD mp dummyNode)) mp
          (fun nd => { nd with next := none })).filter
          (fun nd => nd.key ≠ TObject.nil)).length
        = (((updNode t.node prev (fun nd => { nd with next := some n })).set
            n ((updNode t.node prev
              (fun nd => { nd with next := some n })).getD mp dummyNode)).filter
          (fun nd => nd.key ≠ TObject.nil)).length :=
      filter_length_updNode_keep _ _ _ _ (fun nd => rfl)
    have hgmp : ((updNode ((updNode t.node prev
        (fun nd => { nd with next := some n })).set
          n ((updNode t.node prev
            (fun nd => { nd with next := some n })).getD mp dummyNode)) mp
          (fun nd => { nd with next := none })).getD mp dummyNode).key
        = (getNode t mp).key := by
      rw [getD_updNode_self _ _ _ (by simpa [updNode] using hmlt)]
      rw [getD_set_ne _ _ _ _ (fun e => hmpn e.symm)]
      rw [hg1]
    have e4 := filter_length_set_keep (fun nd => decide (nd.key ≠ TObject.nil))
      ((updNode ((updNode t.node prev
        (fun nd => { nd with next := some n })).set
          n ((updNode t.node prev
            (fun nd => { nd with next := some n })).getD mp dummyNode)) mp
          (fun nd => { nd with next := none })))
      mp
      ⟨k, v, (((updNode ((updNode t.node prev
          (fun nd => { nd with next := some n })).set
          n ((updNode t.node prev
            (fun nd => { nd with next := some n })).getD mp dummyNode)) mp
          (fun nd => { nd with next := none })).getD mp dummyNode)).next⟩
      (by
        simp only [hgmp]
        simp [hk, hocc])
    rw [e4, e3, e2, e1]
  · intro j hj hjocc
    by_cases hjm : j = mp
    · exact ⟨n, hffLt, by rw [hkeyT1n, hjm], by rw [hvalT1n, hjm]⟩
    · have hjn : j ≠ n := fun e => hjocc (by rw [e]; exact hkeyn)
      exact ⟨j, hj, hkeyEq j hjm hjn, hvalEq j hjm hjn⟩
  · intro j2 hj2 hjocc hjk
    by_cases hjm : j2 = mp
    · exact absurd (by rw [hjm, hkeyT1mp]) hjk
    · by_cases hjn : j2 = n
      · exact ⟨mp, hmlt, by rw [hjn, hkeyT1n], by rw [hjn, hvalT1n]⟩
      · exact ⟨j2, hj2, (hkeyEq j2 hjm hjn).symm, (hvalEq j2 hjm hjn).symm⟩
  · intro i j hh
    by_cases him : i = mp
    · rw [him, hn1] at hh; cases hh
    · by_cases hin : i = n
      · rw [hin, hn2] at hh
        exact w.nextLt mp j hh
      · by_cases hip : i = prev
        · rw [hip, hn3] at hh
          injection hh with e
          rw [← e]
          exact hffLt
        · rw [hnF i him hin hip] at hh
          exact w.nextLt i j hh
  · intro i j hh
    by_cases him : i = mp
    · rw [him, hn1] at hh; cases hh
    · by_cases hin : i = n
      · rw [hin, hn2] at hh
        exact Nat.le_of_lt (w.nextGtFF mp j hh)
      · by_cases hip : i = prev
        · rw [hip, hn3] at hh
          injection hh with e
          omega
        · rw [hnF i him hin hip] at hh
          exact Nat.le_of_lt (w.nextGtFF i j hh)
  · intro hnil
    rw [hkeyT1n] at hnil
    exact absurd hnil hocc
  · intro i j hh
    by_cases him : i = mp
    · rw [him, hn1] at hh; cases hh
    · by_cases hin : i = n
      · rw [hin, hkeyT1n]
        exact hocc
      · by_cases hip : i = prev
        · rw [hip, hkeyEq prev hpmp hpff]
          exact w.nextKeySrc prev mp hpnext
        · rw [hnF i him hin hip] at hh
          rw [hkeyEq i him hin]
          exact w.nextKeySrc i j hh
  · intro i j hh
    by_cases him : i = mp
    · rw [him, hn1] at hh; cases hh
    · by_cases hin : i = n
      · rw [hin, hn2] at hh
        have hjn : j ≠ n := fun e => hNoPredN mp (e ▸ hh)
        have hjm : j ≠ mp := fun e => wf_no_self_loop w mp (e ▸ hh)
        rw [hkeyEq j hjm hjn]
        exact w.nextKeyTgt mp j hh
      · by_cases hip : i = prev
        · rw [hip, hn3] at hh
          injection hh with e
          rw [← e, hkeyT1n]
          exact hocc
        · rw [hnF i him hin hip] at hh
          have hjn : j ≠ n := fun e => hNoPredN i (e ▸ hh)
          have hjm : j ≠ mp := fun e => hip (hOnlyPrev i (e ▸ hh))
          rw [hkeyEq j hjm hjn]
          exact w.nextKeyTgt i j hh
  · intro i j hh
    by_cases him : i = mp
    · rw [him, hn1] at hh; cases hh
    · by_cases hin : i = n
      · rw [hin, hn2] at hh
        have hjn : j ≠ n := fun e => hNoPredN mp (e ▸ hh)
        have hjm : j ≠ mp := fun e => wf_no_self_loop w mp (e ▸ hh)
        rw [hin, hkeyEq j hjm hjn, hkeyT1n, w.nextMain mp j hh]
      · by_cases hip : i = prev
        · rw [hip, hn3] at hh
          injection hh with e
          rw [hip, ← e, hkeyT1n, hkeyEq prev hpmp hpff]
          rw [show mainposIdx len (getNode t prev).key = othern from hpmain, hodef]
        · rw [hnF i him hin hip] at hh
          have hjn : j ≠ n := fun e => hNoPredN i (e ▸ hh)
          have hjm : j ≠ mp := fun e => hip (hOnlyPrev i (e ▸ hh))
          rw [hkeyEq i him hin, hkeyEq j hjm hjn]
          exact w.nextMain i j hh
  · intro i hi
    by_cases him : i = mp
    · refine ⟨[mp], ?_, by simp⟩
      rw [him]
      exact .last mp hn1
    · by_cases hin : i = n
      · rw [hin]
        exact hchainN
      · obtain ⟨l, hl, hnd⟩ := w.chains i hi
        refine ⟨l.map (fun y => if y = mp then n else y), hmap i l hl hnd him hin, ?_⟩
        exact map_replace_nodup hnd (fun hmem =>
          (wf_chain_elem_ne_ff w hl hin n hmem) rfl)
  · intro i hi hiocc l2 hl2
    by_cases him : i = mp
    · have hm : mainposIdx len (getNode t1 i).key = mp := by
        rw [him, hkeyT1mp, ← hmpdef]
      rw [hm] at hl2
      rw [him]
      obtain ⟨l3, hl3⟩ := chainTo_head hl2
      rw [hl3]
      exact List.mem_cons_self mp l3
    · by_cases hin : i = n
      · have hm : mainposIdx len (getNode t1 i).key = othern := by
          rw [hin, hkeyT1n, ← hodef]
        rw [hm] at hl2
        rw [hin]
        have hcan := hmap othern lo hlo hndo hothermp honN
        have he : l2 = lo.map (fun y => if y = mp then n else y) :=
          chainTo_unique hl2 hcan
        rw [he]
        apply mem_map_replace.mpr
        exact Or.inr ⟨rfl, hmpmem⟩
      · rw [hkeyEq i him hin] at hiocc hl2
        set m := mainposIdx len (getNode t i).key with hmdef
        have hmlt2 : m < len := mainposIdx_lt _ _ w.sizePos
        obtain ⟨lm, hlm, hndm⟩ := w.chains m hmlt2
        have himem : i ∈ lm := w.chainAll i hi hiocc lm hlm
        have hmn : m ≠ n := by
          intro e
          have hsingle : lm = [n] := by
            have h2 : ChainTo t m [n] := by
              rw [e]
              exact .last n hnextn
            exact chainTo_unique hlm h2
          rw [hsingle] at himem
          simp at himem
          exact hin himem
        have hmm : m ≠ mp := by
          intro e
          -- the chain rooted at mp consists of nodes whose main position is othern
          have hlmp : ChainTo t mp lm := by rw [← e]; exact hlm
          have hconst := chainTo_const (fun x => mainposIdx len (getNode t x).key)
            hlmp (fun a b hab _ => w.nextMain a b hab)
          have h1 := hconst i himem
          simp only at h1
          rw [← hmdef] at h1
          rw [← hodef] at h1
          exact hothermp (h1.symm.trans e)
        have hcan := hmap m lm hlm hndm hmm hmn
        have he : l2 = lm.map (fun y => if y = mp then n else y) :=
          chainTo_unique hl2 hcan
        rw [he]
        apply mem_map_replace.mpr
        exact Or.inl ⟨himem, him⟩
  · intro i j hi hj hiocc he
    by_cases him : i = mp
    · by_cases hjm : j = mp
      · rw [him, hjm]
      · by_cases hjn : j = n
        · rw [him, hkeyT1mp] at he
          rw [hjn, hkeyT1n] at he
          exact absurd he.symm (habs mp hmlt)
        · rw [him, hkeyT1mp] at he
          rw [hkeyEq j hjm hjn] at he
          exact absurd he.symm (habs j hj)
    · by_cases hin : i = n
      · by_cases hjm : j = mp
        · rw [hin, hkeyT1n] at he
          rw [hjm, hkeyT1mp] at he
          exact absurd he (habs mp hmlt)
        · by_cases hjn : j = n
          · rw [hin, hjn]
          · rw [hin, hkeyT1n] at he
            rw [hkeyEq j hjm hjn] at he
            have h2 := w.distinct mp j hmlt hj hocc he
            exact absurd h2.symm hjm
      · by_cases hjm : j = mp
        · rw [hjm, hkeyT1mp] at he
          rw [hkeyEq i him hin] at he
          exact absurd he (habs i hi)
        · by_cases hjn : j = n
          · rw [hjn, hkeyT1n] at he
            rw [hkeyEq i him hin] at he hiocc
            have h2 := w.distinct i mp hi hmlt hiocc he
            exact absurd h2 him
          · rw [hkeyEq i him hin] at he hiocc
            rw [hkeyEq j hjm hjn] at he
            exact w.distinct i j hi hj hiocc he
  · intro i h1 h2
    by_cases him : i = mp
    · rw [him, hkeyT1mp]
      exact hk
    · by_cases hin : i = n
      · rw [hin, hkeyT1n]
        exact hocc
      · rw [hkeyEq i him hin]
        exact w.highOcc i h1 h2
  · intro i h1 hiocc
    have him : i ≠ mp := by omega
    have hin : i ≠ n := by omega
    rw [hkeyEq i him hin] at hiocc ⊢
    exact w.lowMain i h1 hiocc

/-! General forms of chain lemmas, and the rehash development. -/

theorem no_self_loop_of_chain {t : Hash} {x : Nat} {l : List Nat}
    (hl : ChainTo t x l) (hnd : l.Nodup) : (getNode t x).next ≠ some x := by
  intro hx
  cases hl with
  | last _ hn => rw [hn] at hx; cases hx
  | step _ j l2 hj hc =>
    rw [hx] at hj
    injection hj with e
    obtain ⟨l3, hl3⟩ := chainTo_head hc
    rw [hl3, ← e] at hnd
    simp at hnd

theorem tail_chain_of {t : Hash} {mp j : Nat}
    (hch : ∀ i, i < t.node.length → ∃ l, ChainTo t i l ∧ l.Nodup)
    (hlt : ∀ a b, (getNode t a).next = some b → b < t.node.length)
    (hgt : ∀ a b, (getNode t a).next = some b → t.firstfree < b)
    (hmlt : mp < t.node.length) (hj : (getNode t mp).next = some j) :
    ∃ lj, ChainTo t j lj ∧ lj.Nodup ∧ mp ∉ lj ∧ (∀ x ∈ lj, t.firstfree < x) := by
  obtain ⟨lj, hlj, hndj⟩ := hch j (hlt mp j hj)
  have hchain : ChainTo t mp (mp :: lj) := .step mp j lj hj hlj
  obtain ⟨l0, hl0, hnd0⟩ := hch mp hmlt
  have he : l0 = mp :: lj := chainTo_unique hl0 hchain
  rw [he] at hnd0
  simp only [List.nodup_cons] at hnd0
  refine ⟨lj, hlj, hnd0.2, hnd0.1, ?_⟩
  intro x hx
  rcases chainTo_mem_cases hlj x hx with he2 | ⟨b, _, hb⟩
  · rw [he2]; exact hgt mp j hj
  · exact hgt b x hb

theorem chain_elem_ne_of_gt {t : Hash} {s : Nat} {l : List Nat}
    (hgt : ∀ a b, (getNode t a).next = some b → t.firstfree < b)
    (hl : ChainTo t s l) (hs : s ≠ t.firstfree) : ∀ x ∈ l, x ≠ t.firstfree := by
  intro x hx
  rcases chainTo_mem_cases hl x hx with he | ⟨b, _, hb⟩
  · rw [he]; exact hs
  · have := hgt b x hb
    omega

theorem absGet_found_of_distinct {t : Hash}
    (hdist : ∀ i j, i < t.node.length → j < t.node.length →
      (getNode t i).key ≠ TObject.nil → (getNode t i).key = (getNode t j).key → i = j)
    {k : TObject} {i : Nat}
    (hi : i < t.node.length) (hkey : (getNode t i).key = k) (hk : k ≠ TObject.nil) :
    absGet t k = (getNode t i).val := by
  have hsome : (t.node.find? (fun nd => nd.key = k)).isSome := by
    rw [List.find?_isSome]
    exact ⟨getNode t i, getD_mem t.node i hi, by simp [hkey]⟩
  obtain ⟨nd, hnd⟩ := Option.isSome_iff_exists.mp hsome
  have hpk : nd.key = k := by simpa using List.find?_some hnd
  obtain ⟨a, halt, hget⟩ := mem_getD t.node nd (List.mem_of_find?_eq_some hnd)
  have : i = a := by
    refine hdist i a hi halt (by rw [hkey]; exact hk) ?_
    rw [hkey]
    show k = (getNode t a).key
    rw [show getNode t a = nd from hget, hpk]
  rw [absGet, hnd, ← hget, ← this]
  rfl

theorem filter_all_eq (p : Node → Bool) : ∀ (ns : List Node),
    (∀ m, m < ns.length → p (ns.getD m dummyNode)) → ns.filter p = ns := by
  intro ns
  induction ns with
  | nil => intro _; rfl
  | cons y ys ih =>
    intro h
    have hy : p y := by simpa using h 0 (by simp)
    rw [List.filter_cons, if_pos hy, ih]
    intro m hm
    have := h (m + 1) (by simpa using Nat.succ_lt_succ hm)
    simpa using this

theorem exists_free_of_count_lt (p : Node → Bool) (ns : List Node)
    (h : (ns.filter p).length < ns.length) :
    ∃ m, m < ns.length ∧ ¬ p (ns.getD m dummyNode) := by
  by_contra hcon
  push_neg at hcon
  rw [filter_all_eq p ns hcon] at h
  exact lt_irrefl _ h

theorem p1_init (sz : Nat) : P1Inv sz [] (List.replicate sz dummyNode, []) := by
  refine ⟨by simp, ?_, ?_, ?_, ?_, ?_, ?_, ?_, ?_⟩
  · intro m
    rw [getD_replicate_dummy]
    rfl
  · intro m _
    rw [getD_replicate_dummy]
  · intro m _ h
    rw [getD_replicate_dummy] at h
    exact absurd rfl h
  · intro q hq
    simp at hq
  · intro nd hnd _
    simp at hnd
  · have : (List.replicate sz dummyNode).filter (fun nd => nd.key ≠ TObject.nil) = [] := by
      rw [List.filter_eq_nil_iff]
      intro a ha
      rw [List.eq_of_mem_replicate ha]
      simp [dummyNode]
    rw [this]
    simp
  · intro q hq
    simp at hq
  · simp

theorem p1_step {sz : Nat} (hsz : 0 < sz) {pre : List Node}
    {st : List Node × List (Node × Nat)} (inv : P1Inv sz pre st) (nd : Node)
    (hndk : nd.key ≠ TObject.nil)
    (hfresh : ∀ x ∈ pre, x.key ≠ nd.key)
    (hpreKeys : ∀ x ∈ pre, x.key ≠ TObject.nil) :
    P1Inv sz (pre ++ [nd]) (rehashPlace sz st nd) := by
  by_cases hval : nd.val = TObject.nil
  · rw [rehashPlace, if_pos hval]
    refine ⟨inv.hlen, inv.hnextall, inv.hnil, ?_, ?_, ?_, ?_, inv.hpendFresh, inv.hpendND⟩
    · intro m hm hk2
      obtain ⟨h1, h2, nd2, h3, h4, h5⟩ := inv.hocc m hm hk2
      exact ⟨h1, h2, nd2, List.mem_append_left _ h3, h4, h5⟩
    · intro q hq
      obtain ⟨h1, h2, h3, h4, h5, h6⟩ := inv.hpend q hq
      exact ⟨List.mem_append_left _ h1, h2, h3, h4, h5, h6⟩
    · intro nd2 hnd2 hv2
      rcases List.mem_append.mp hnd2 with h | h
      · exact inv.hcover nd2 h hv2
      · simp at h
        rw [h] at hv2
        exact absurd hval hv2
    · refine le_trans inv.hcount ?_
      rw [List.filter_append]
      simp
  · rw [rehashPlace, if_neg hval]
    set mp := mainposIdx sz nd.key with hmpdef
    have hmplt : mp < sz := mainposIdx_lt _ _ hsz
    by_cases hforig : (st.1.getD mp dummyNode).key = TObject.nil
    · rw [if_pos hforig]
      have hmpdum : st.1.getD mp dummyNode = dummyNode := inv.hnil mp hforig
      have hglen : mp < st.1.length := by rw [inv.hlen]; exact hmplt
      have hgetmp : (updNode st.1 mp
          (fun x => { x with key := nd.key, val := nd.val })).getD mp dummyNode
          = ⟨nd.key, nd.val, none⟩ := by
        rw [getD_updNode_self _ _ _ hglen, hmpdum]
        rfl
      have hgetoth : ∀ m, m ≠ mp → (updNode st.1 mp
          (fun x => { x with key := nd.key, val := nd.val })).getD m dummyNode
          = st.1.getD m dummyNode :=
        fun m hm => getD_updNode_ne _ _ _ _ (fun e => hm e.symm)
      refine ⟨by simpa [updNode] using inv.hlen, ?_, ?_, ?_, ?_, ?_, ?_, ?_, inv.hpendND⟩
      · intro m
        by_cases hm : m = mp
        · rw [hm, hgetmp]
        · rw [hgetoth m hm]
          exact inv.hnextall m
      · intro m hk2
        by_cases hm : m = mp
        · rw [hm, hgetmp] at hk2
          exact absurd hk2 hndk
        · rw [hgetoth m hm] at hk2 ⊢
          exact inv.hnil m hk2
      · intro m hm hk2
        by_cases hme : m = mp
        · rw [hme, hgetmp]
          refine ⟨hmpdef.symm, hval, nd, ?_, rfl, rfl⟩
          exact List.mem_append_right _ (List.mem_singleton_self nd)
        · rw [hgetoth m hme] at hk2 ⊢
          obtain ⟨h1, h2, nd2, h3, h4, h5⟩ := inv.hocc m hm hk2
          exact ⟨h1, h2, nd2, List.mem_append_left _ h3, h4, h5⟩
      · intro q hq
        obtain ⟨h1, h2, h3, h4, h5, h6⟩ := inv.hpend q hq
        refine ⟨List.mem_append_left _ h1, h2, h3, h4, h5, ?_⟩
        by_cases hqm : q.2 = mp
        · rw [hqm, hgetmp]
          exact hndk
        · rw [hgetoth q.2 hqm]
          exact h6
      · intro nd2 hnd2 hv2
        rcases List.mem_append.mp hnd2 with h | h
        · rcases inv.hcover nd2 h hv2 with ⟨m, hm1, hm2, hm3⟩ | h2
          · have hmne : m ≠ mp := by
              intro e
              rw [e, hmpdum] at hm2
              exact hpreKeys nd2 h (by rw [← hm2]; rfl)
            exact Or.inl ⟨m, hm1, by rw [hgetoth m hmne]; exact hm2,
              by rw [hgetoth m hmne]; exact hm3⟩
          · exact Or.inr h2
        · simp at h
          rw [h]
          exact Or.inl ⟨mp, hmplt, by rw [hgetmp], by rw [hgetmp]⟩
      · have e1 : ((updNode st.1 mp
            (fun x => { x with key := nd.key, val := nd.val })).filter
            (fun x => x.key ≠ TObject.nil)).length
            = (st.1.filter (fun x => x.key ≠ TObject.nil)).length + 1 := by
          refine filter_length_set_flip _ _ _ _ hglen ?_ ?_
          · simpa using hforig
          · simpa using hndk
        rw [e1, List.filter_append]
        simp only [List.length_append]
        have h1 : (List.filter (fun x => decide (x.val ≠ TObject.nil)) [nd]).length = 1 := by
          simp [hval]
        rw [h1]
        have := inv.hcount
        omega
      · intro q hq m hm
        obtain ⟨h1, _, _, _, _, _⟩ := inv.hpend q hq
        by_cases hme : m = mp
        · rw [hme, hgetmp]
          exact fun e => (hfresh q.1 h1 e.symm)
        · rw [hgetoth m hme]
          exact inv.hpendFresh q hq m hm
    · rw [if_neg hforig]
      refine ⟨inv.hlen, inv.hnextall, inv.hnil, ?_, ?_, ?_, ?_, ?_, ?_⟩
      · intro m hm hk2
        obtain ⟨h1, h2, nd2, h3, h4, h5⟩ := inv.hocc m hm hk2
        exact ⟨h1, h2, nd2, List.mem_append_left _ h3, h4, h5⟩
      · intro q hq
        rcases List.mem_append.mp hq with h | h
        · obtain ⟨h1, h2, h3, h4, h5, h6⟩ := inv.hpend q h
          exact ⟨List.mem_append_left _ h1, h2, h3, h4, h5, h6⟩
        · simp at h
          rw [h]
          refine ⟨List.mem_append_right _ (List.mem_singleton_self nd), hval, hndk,
            by rw [hmpdef], hmplt, hforig⟩
      · intro nd2 hnd2 hv2
        rcases List.mem_append.mp hnd2 with h | h
        · rcases inv.hcover nd2 h hv2 with h2 | h2
          · exact Or.inl h2
          · exact Or.inr (List.mem_append_left _ h2)
        · simp at h
          rw [h]
          exact Or.inr (List.mem_append_right _ (by rw [hmpdef]; exact List.mem_singleton_self _))
      · rw [List.filter_append]
        simp only [List.length_append]
        have h1 : (List.filter (fun x => decide (x.val ≠ TObject.nil)) [nd]).length = 1 := by
          simp [hval]
        rw [h1]
        have := inv.hcount
        simp only [List.length_append, List.length_singleton]
        omega
      · intro q hq m hm
        rcases List.mem_append.mp hq with h | h
        · exact inv.hpendFresh q h m hm
        · simp at h
          rw [h]
          show (st.1.getD m dummyNode).key ≠ nd.key
          intro e
          by_cases hknil : (st.1.getD m dummyNode).key = TObject.nil
          · rw [hknil] at e
            exact hndk e.symm
          · obtain ⟨_, _, nd2, h3, h4, _⟩ := inv.hocc m hm hknil
            exact hfresh nd2 h3 (h4.trans e)
      · rw [List.map_append]
        rw [List.nodup_append]
        refine ⟨inv.hpendND, by simp, ?_⟩
        intro x hx hx2
        simp only [List.map_cons, List.map_nil, List.mem_singleton] at hx2
        obtain ⟨q, hq, hqe⟩ := List.mem_map.mp hx
        obtain ⟨h1, _, _, _, _, _⟩ := inv.hpend q hq
        rw [hx2] at hqe
        exact hfresh q.1 h1 hqe


theorem p1_fold {sz : Nat} (hsz : 0 < sz) :
    ∀ (post pre : List Node) (st : List Node × List (Node × Nat)),
      (∀ x ∈ pre ++ post, x.key ≠ TObject.nil) →
      ((pre ++ post).map Node.key).Nodup →
      P1Inv sz pre st →
      P1Inv sz (pre ++ post) (post.foldl (rehashPlace sz) st) := by
  intro post
  induction post with
  | nil =>
    intro pre st _ _ inv
    simpa using inv
  | cons nd rest ih =>
    intro pre st hkeys hnd inv
    have hndk : nd.key ≠ TObject.nil :=
      hkeys nd (List.mem_append_right _ (List.mem_cons_self nd rest))
    have hfresh : ∀ x ∈ pre, x.key ≠ nd.key := by
      intro x hx e
      have hsplit : (pre.map Node.key ++ (nd :: rest).map Node.key).Nodup := by
        rw [← List.map_append]
        exact hnd
      rw [List.nodup_append] at hsplit
      exact hsplit.2.2 (List.mem_map_of_mem _ hx)
        (by rw [e]; exact List.mem_map_of_mem Node.key (List.mem_cons_self nd rest))
    have hpreKeys : ∀ x ∈ pre, x.key ≠ TObject.nil :=
      fun x hx => hkeys x (List.mem_append_left _ hx)
    have inv1 := p1_step hsz inv nd hndk hfresh hpreKeys
    have hassoc : pre ++ nd :: rest = (pre ++ [nd]) ++ rest := by simp
    rw [hassoc, List.foldl_cons]
    refine ih (pre ++ [nd]) (rehashPlace sz st nd) ?_ ?_ inv1
    · rw [← hassoc]
      exact hkeys
    · rw [← hassoc]
      exact hnd
theorem p2_init {sz : Nat} {u : Hash}
    (hlive : (u.node.filter (fun nd => nd.val ≠ TObject.nil)).length < sz)
    {st : List Node × List (Node × Nat)}
    (inv : P1Inv sz u.node st) :
    P2Inv sz u st.2 ⟨st.1, scanFree st.1 (sz - 1)⟩ := by
  have hsz : 0 < sz := by omega
  have hocclt : (st.1.filter (fun nd => nd.key ≠ TObject.nil)).length < st.1.length := by
    rw [inv.hlen]
    have := inv.hcount
    omega
  obtain ⟨m0, hm0lt, hm0⟩ :=
    exists_free_of_count_lt (fun nd => nd.key ≠ TObject.nil) st.1 hocclt
  have hm0nil : (st.1.getD m0 dummyNode).key = TObject.nil := by
    by_contra hcon
    exact hm0 (by simpa using hcon)
  obtain ⟨hff1, hff2, hff3⟩ :=
    @scanFree_spec st.1 (sz - 1)
      ⟨m0, by rw [inv.hlen] at hm0lt; omega, hm0nil⟩
  have hnon : ∀ i j, (st.1.getD i dummyNode).next = some j → False := by
    intro i j h
    rw [inv.hnextall] at h
    cases h
  refine ⟨inv.hlen, show scanFree st.1 (sz - 1) < sz by omega, hff2, ?_, ?_, inv.hnil,
    ?_, ?_, ?_, ?_, ?_, ?_, ?_, ?_, ?_, ?_, ?_, ?_, ?_, inv.hpendND⟩
  · intro i h1 h2
    exact hff3 i h1 (by omega)
  · intro i hilt hk
    have hi : i < sz := by
      have h2 : i < scanFree st.1 (sz - 1) := hilt
      omega
    exact (inv.hocc i hi hk).1
  · intro i j h
    exact absurd h (fun h => hnon i j h)
  · intro i j h
    exact absurd h (fun h => hnon i j h)
  · intro i j h
    exact absurd h (fun h => hnon i j h)
  · intro i j h
    exact absurd h (fun h => hnon i j h)
  · intro i j h
    exact absurd h (fun h => hnon i j h)
  · intro i _
    exact ⟨[i], .last i (inv.hnextall i), List.nodup_singleton i⟩
  · intro i hi hk l hl
    have hmp : mainposIdx sz (getNode { node := st.1, firstfree := scanFree st.1 (sz - 1) } i).key = i :=
      (inv.hocc i hi hk).1
    rw [hmp] at hl
    have : l = [i] := chainTo_unique hl (.last i (inv.hnextall i))
    rw [this]
    exact List.mem_singleton_self i
  · intro i j hi hj hk he
    have hkj : (getNode { node := st.1, firstfree := scanFree st.1 (sz - 1) } j).key ≠ TObject.nil := by
      rw [← he]; exact hk
    have h1 := (inv.hocc i hi hk).1
    have h2 := (inv.hocc j hj hkj).1
    have he2 : (st.1.getD i dummyNode).key = (st.1.getD j dummyNode).key := he
    exact h1.symm.trans (by rw [he2]; exact h2)
  · intro m hm hk
    obtain ⟨_, h2, nd, h3, h4, h5⟩ := inv.hocc m hm hk
    exact ⟨h2, nd, h3, h4, h5⟩
  · intro nd hnd hv
    exact inv.hcover nd hnd hv
  · exact inv.hcount
  · intro q hq
    obtain ⟨h1, h2, h3, h4, h5, h6⟩ := inv.hpend q hq
    exact ⟨h1, h2, h3, h4, h5, h6, (inv.hocc q.2 h5 h6).1⟩
  · intro q hq m hm
    exact inv.hpendFresh q hq m hm
theorem p2_step_core {sz : Nat} {u : Hash}
    (hlive : (u.node.filter (fun x => x.val ≠ TObject.nil)).length < sz)
    (nd : Node) (mp : Nat) (rest : List (Node × Nat)) (ns : List Node) (e : Nat)
    (inv : P2Inv sz u ((nd, mp) :: rest) ⟨ns, e⟩)
    (ns3 : List Node)
    (hlen3 : ns3.length = ns.length)
    (g3e : ns3.getD e dummyNode = ⟨nd.key, nd.val, (ns.getD mp dummyNode).next⟩)
    (g3mp : ns3.getD mp dummyNode = { ns.getD mp dummyNode with next := some e })
    (g3o : ∀ m, m ≠ e → m ≠ mp → ns3.getD m dummyNode = ns.getD m dummyNode)
    (hocc3 : (ns3.filter (fun x => x.key ≠ TObject.nil)).length
      = (ns.filter (fun x => x.key ≠ TObject.nil)).length + 1) :
    P2Inv sz u rest ⟨ns3, scanFree ns3 (e - 1)⟩ := by
  have hsz : 0 < sz := by omega
  obtain ⟨hndu, hndval, hndkey, hmpdef, hmplt, hmpocc, hmpmain⟩ :=
    inv.hrestOK (nd, mp) (List.mem_cons_self _ _)
  have hmpocc' : (ns.getD mp dummyNode).key ≠ TObject.nil := hmpocc
  have hmpmain' : mainposIdx sz (ns.getD mp dummyNode).key = mp := hmpmain
  have hmpdef' : mp = mainposIdx sz nd.key := hmpdef
  have hlen : ns.length = sz := inv.hlen
  have helt : e < sz := inv.hffLt
  have hffNil : (ns.getD e dummyNode).key = TObject.nil := inv.hffNil
  have hedum : ns.getD e dummyNode = dummyNode := inv.hnil e hffNil
  have hmpe : mp ≠ e := by
    intro hcon
    apply hmpocc'
    rw [hcon]
    exact hffNil
  have ihigh : ∀ i, e < i → i < sz → (ns.getD i dummyNode).key ≠ TObject.nil := inv.hhigh
  have ilow : ∀ i, i < e → (ns.getD i dummyNode).key ≠ TObject.nil →
      mainposIdx sz (ns.getD i dummyNode).key = i := inv.hlow
  have inil : ∀ m, (ns.getD m dummyNode).key = TObject.nil →
      ns.getD m dummyNode = dummyNode := inv.hnil
  have inextLt : ∀ i j, (ns.getD i dummyNode).next = some j → j < sz := inv.hnextLt
  have inextGT : ∀ i j, (ns.getD i dummyNode).next = some j → e < j := inv.hnextGT
  have inextKeyTgt : ∀ i j, (ns.getD i dummyNode).next = some j →
      (ns.getD j dummyNode).key ≠ TObject.nil := inv.hnextKeyTgt
  have inextKeySrc : ∀ i j, (ns.getD i dummyNode).next = some j →
      (ns.getD i dummyNode).key ≠ TObject.nil := inv.hnextKeySrc
  have inextMain : ∀ i j, (ns.getD i dummyNode).next = some j →
      mainposIdx sz (ns.getD j dummyNode).key = mainposIdx sz (ns.getD i dummyNode).key :=
    inv.hnextMain
  have ichains : ∀ i, i < sz → ∃ l, ChainTo ⟨ns, e⟩ i l ∧ l.Nodup := inv.hchains
  have ichainAll : ∀ i, i < sz → (ns.getD i dummyNode).key ≠ TObject.nil →
      ∀ l, ChainTo ⟨ns, e⟩ (mainposIdx sz (ns.getD i dummyNode).key) l → i ∈ l :=
    inv.hchainAll
  have idistinct : ∀ i j, i < sz → j < sz → (ns.getD i dummyNode).key ≠ TObject.nil →
      (ns.getD i dummyNode).key = (ns.getD j dummyNode).key → i = j := inv.hdistinct
  have ihorigin : ∀ m, m < sz → (ns.getD m dummyNode).key ≠ TObject.nil →
      (ns.getD m dummyNode).val ≠ TObject.nil ∧
      ∃ x, x ∈ u.node ∧ x.key = (ns.getD m dummyNode).key ∧
        x.val = (ns.getD m dummyNode).val := inv.horigin
  have ihcover : ∀ x, x ∈ u.node → x.val ≠ TObject.nil →
      (∃ m, m < sz ∧ (ns.getD m dummyNode).key = x.key ∧
        (ns.getD m dummyNode).val = x.val)
      ∨ (x, mainposIdx sz x.key) ∈ (nd, mp) :: rest := inv.hcover
  have icount : (ns.filter (fun x => x.key ≠ TObject.nil)).length + (rest.length + 1)
      ≤ (u.node.filter (fun x => x.val ≠ TObject.nil)).length := by
    have h := inv.hcount
    have h2 : keyCount { node := ns, firstfree := e } =
        (ns.filter (fun x => x.key ≠ TObject.nil)).length := rfl
    rw [h2] at h
    simpa using h
  have irestFreshQ : ∀ m, m < sz → (ns.getD m dummyNode).key ≠ nd.key := by
    intro m hm
    exact inv.hrestFresh (nd, mp) (List.mem_cons_self _ _) m hm
  have hlen3' : ns3.length = sz := by rw [hlen3, hlen]
  have hkey3 : ∀ x, x ≠ e → (ns3.getD x dummyNode).key = (ns.getD x dummyNode).key := by
    intro x hx
    by_cases hxm : x = mp
    · rw [hxm, g3mp]
    · rw [g3o x hx hxm]
  have hval3 : ∀ x, x ≠ e → (ns3.getD x dummyNode).val = (ns.getD x dummyNode).val := by
    intro x hx
    by_cases hxm : x = mp
    · rw [hxm, g3mp]
    · rw [g3o x hx hxm]
  have hkey3e : (ns3.getD e dummyNode).key = nd.key := by rw [g3e]
  have hval3e : (ns3.getD e dummyNode).val = nd.val := by rw [g3e]
  obtain ⟨m0, hm0e, hm0nil⟩ :
      ∃ m, m < e ∧ (ns3.getD m dummyNode).key = TObject.nil := by
    have hocclt : (ns3.filter (fun x => x.key ≠ TObject.nil)).length < ns3.length := by
      rw [hlen3', hocc3]
      omega
    obtain ⟨m, hmlt, hmp2⟩ :=
      exists_free_of_count_lt (fun x => x.key ≠ TObject.nil) ns3 hocclt
    have hmnil : (ns3.getD m dummyNode).key = TObject.nil := by
      by_contra hcon
      exact hmp2 (by simpa using hcon)
    have hme : m ≠ e := by
      intro hcon
      rw [hcon, hkey3e] at hmnil
      exact hndkey hmnil
    have hmmp : m ≠ mp := by
      intro hcon
      rw [hcon, hkey3 mp hmpe] at hmnil
      exact hmpocc' hmnil
    have hmlte : m < e := by
      rcases Nat.lt_trichotomy m e with h | h | h
      · exact h
      · exact absurd h hme
      · exfalso
        rw [g3o m hme hmmp] at hmnil
        exact ihigh m h (by rw [← hlen3']; exact hmlt) hmnil
    exact ⟨m, hmlte, hmnil⟩
  have he1 : 1 ≤ e := by omega
  obtain ⟨hsf1, hsf2, hsf3⟩ :=
    @scanFree_spec ns3 (e - 1) ⟨m0, by omega, hm0nil⟩
  have hA : (getNode (⟨ns3, scanFree ns3 (e - 1)⟩ : Hash) mp).next = some e := by
    show (ns3.getD mp dummyNode).next = some e
    rw [g3mp]
  have hB : (getNode (⟨ns3, scanFree ns3 (e - 1)⟩ : Hash) e).next
      = (getNode (⟨ns, e⟩ : Hash) mp).next := by
    show (ns3.getD e dummyNode).next = (ns.getD mp dummyNode).next
    rw [g3e]
  have hC : ∀ x, x ≠ mp → x ≠ e →
      (getNode (⟨ns3, scanFree ns3 (e - 1)⟩ : Hash) x).next
        = (getNode (⟨ns, e⟩ : Hash) x).next := by
    intro x hx1 hx2
    show (ns3.getD x dummyNode).next = (ns.getD x dummyNode).next
    rw [g3o x hx2 hx1]
  have hnewChain : ∀ {i : Nat} {l : List Nat}, ChainTo (⟨ns, e⟩ : Hash) i l →
      (∀ x ∈ l, x ≠ e) →
      ChainTo (⟨ns3, scanFree ns3 (e - 1)⟩ : Hash) i (linkAfter mp e l) :=
    fun hl hne => chainTo_linkAfter hA hB hC hl hne
  obtain ⟨lmp, hlmp, hlmpnd⟩ := ichains mp hmplt
  have hlmpne : ∀ x ∈ lmp, x ≠ e := chain_elem_ne_of_gt inv.hnextGT hlmp hmpe
  have hmpChain2 : ChainTo (⟨ns3, scanFree ns3 (e - 1)⟩ : Hash) mp (linkAfter mp e lmp) :=
    hnewChain hlmp hlmpne
  have hmpChain2nd : (linkAfter mp e lmp).Nodup :=
    linkAfter_nodup hmpe hlmpnd (fun hcon => hlmpne e hcon rfl)
  have hmpInLmp : mp ∈ lmp := by
    obtain ⟨l2, hl2⟩ := chainTo_head hlmp
    rw [hl2]
    exact List.mem_cons_self _ _
  have heInMp2 : e ∈ linkAfter mp e lmp := mem_linkAfter.mpr (Or.inr ⟨rfl, hmpInLmp⟩)
  refine ⟨?_, ?_, ?_, ?_, ?_, ?_, ?_, ?_, ?_, ?_, ?_, ?_, ?_, ?_, ?_, ?_, ?_, ?_, ?_, ?_⟩
  · exact hlen3'
  · show scanFree ns3 (e - 1) < sz
    omega
  · show (ns3.getD (scanFree ns3 (e - 1)) dummyNode).key = TObject.nil
    exact hsf2
  · intro i h1 h2
    show (ns3.getD i dummyNode).key ≠ TObject.nil
    rcases Nat.lt_trichotomy i e with hlt | heq | hgt
    · exact hsf3 i h1 (by omega)
    · rw [heq, hkey3e]
      exact hndkey
    · rw [hkey3 i (by omega)]
      exact ihigh i hgt h2
  · intro i h1 hk
    have hk' : (ns3.getD i dummyNode).key ≠ TObject.nil := hk
    have h1' : i < scanFree ns3 (e - 1) := h1
    have hie : i ≠ e := by omega
    rw [hkey3 i hie] at hk'
    show mainposIdx sz (ns3.getD i dummyNode).key = i
    rw [hkey3 i hie]
    exact ilow i (by omega) hk'
  · intro m hk
    have hk' : (ns3.getD m dummyNode).key = TObject.nil := hk
    have hme : m ≠ e := by
      intro hcon
      rw [hcon, hkey3e] at hk'
      exact hndkey hk'
    have hmm : m ≠ mp := by
      intro hcon
      rw [hcon, hkey3 mp hmpe] at hk'
      exact hmpocc' hk'
    show ns3.getD m dummyNode = dummyNode
    rw [g3o m hme hmm] at hk' ⊢
    exact inil m hk'
  · intro i j h
    have h' : (ns3.getD i dummyNode).next = some j := h
    by_cases hie : i = e
    · rw [hie, g3e] at h'
      exact inextLt mp j h'
    · by_cases him : i = mp
      · rw [him, g3mp] at h'
        have h2 : some e = some j := h'
        injection h2 with h3
        omega
      · rw [g3o i hie him] at h'
        exact inextLt i j h'
  · intro i j h
    have h' : (ns3.getD i dummyNode).next = some j := h
    show scanFree ns3 (e - 1) < j
    by_cases hie : i = e
    · rw [hie, g3e] at h'
      have := inextGT mp j h'
      omega
    · by_cases him : i = mp
      · rw [him, g3mp] at h'
        have h2 : some e = some j := h'
        injection h2 with h3
        omega
      · rw [g3o i hie him] at h'
        have := inextGT i j h'
        omega
  · intro i j h
    have h' : (ns3.getD i dummyNode).next = some j := h
    show (ns3.getD i dummyNode).key ≠ TObject.nil
    by_cases hie : i = e
    · rw [hie, hkey3e]
      exact hndkey
    · by_cases him : i = mp
      · rw [him, hkey3 mp hmpe]
        exact hmpocc'
      · rw [hkey3 i hie]
        rw [g3o i hie him] at h'
        exact inextKeySrc i j h'
  · intro i j h
    have h' : (ns3.getD i dummyNode).next = some j := h
    show (ns3.getD j dummyNode).key ≠ TObject.nil
    by_cases hie : i = e
    · rw [hie, g3e] at h'
      have hje : j ≠ e := by
        have := inextGT mp j h'
        omega
      rw [hkey3 j hje]
      exact inextKeyTgt mp j h'
    · by_cases him : i = mp
      · rw [him, g3mp] at h'
        have h2 : some e = some j := h'
        injection h2 with h3
        rw [← h3, hkey3e]
        exact hndkey
      · rw [g3o i hie him] at h'
        have hje : j ≠ e := by
          have := inextGT i j h'
          omega
        rw [hkey3 j hje]
        exact inextKeyTgt i j h'
  · intro i j h
    have h' : (ns3.getD i dummyNode).next = some j := h
    show mainposIdx sz (ns3.getD j dummyNode).key = mainposIdx sz (ns3.getD i dummyNode).key
    by_cases hie : i = e
    · rw [hie, g3e] at h'
      have hje : j ≠ e := by
        have := inextGT mp j h'
        omega
      rw [hkey3 j hje, hie, hkey3e]
      exact (inextMain mp j h').trans (hmpmain'.trans hmpdef')
    · by_cases him : i = mp
      · rw [him, g3mp] at h'
        have h2 : some e = some j := h'
        injection h2 with h3
        rw [← h3, hkey3e, him, hkey3 mp hmpe]
        exact hmpdef'.symm.trans hmpmain'.symm
      · rw [g3o i hie him] at h'
        have hje : j ≠ e := by
          have := inextGT i j h'
          omega
        rw [hkey3 j hje, hkey3 i hie]
        exact inextMain i j h'
  · intro i hi
    by_cases hie : i = e
    · subst hie
      obtain ⟨xs, l2, hsplit, hl2⟩ := chainTo_suffix hmpChain2 i heInMp2
      refine ⟨l2, hl2, ?_⟩
      have hnd2 := hmpChain2nd
      rw [hsplit] at hnd2
      exact hnd2.of_append_right
    · obtain ⟨l, hl, hnd'⟩ := ichains i hi
      have hne := chain_elem_ne_of_gt inv.hnextGT hl hie
      exact ⟨linkAfter mp e l, hnewChain hl hne,
        linkAfter_nodup hmpe hnd' (fun hcon => hne e hcon rfl)⟩
  · intro i hi hk l hl
    have hk' : (ns3.getD i dummyNode).key ≠ TObject.nil := hk
    by_cases hie : i = e
    · subst hie
      have hl' : ChainTo (⟨ns3, scanFree ns3 (i - 1)⟩ : Hash)
          (mainposIdx sz (ns3.getD i dummyNode).key) l := hl
      rw [hkey3e, ← hmpdef'] at hl'
      have : l = linkAfter mp i lmp := chainTo_unique hl' hmpChain2
      rw [this]
      exact heInMp2
    · have hl' : ChainTo (⟨ns3, scanFree ns3 (e - 1)⟩ : Hash)
          (mainposIdx sz (ns3.getD i dummyNode).key) l := hl
      rw [hkey3 i hie] at hk' hl'
      have hmie : mainposIdx sz (ns.getD i dummyNode).key ≠ e := by
        intro hcon
        have hchE : ChainTo (⟨ns, e⟩ : Hash) e [e] := by
          refine .last e ?_
          show (ns.getD e dummyNode).next = none
          rw [hedum]
          rfl
        have hmem := ichainAll i hi hk' [e] (by rw [hcon]; exact hchE)
        simp only [List.mem_singleton] at hmem
        exact hie hmem
      by_cases hmim : mainposIdx sz (ns.getD i dummyNode).key = mp
      · have hl2 : ChainTo (⟨ns3, scanFree ns3 (e - 1)⟩ : Hash) mp l := by
          rw [hmim] at hl'
          exact hl'
        have : l = linkAfter mp e lmp := chainTo_unique hl2 hmpChain2
        rw [this]
        refine mem_linkAfter.mpr (Or.inl ?_)
        exact ichainAll i hi hk' lmp (by rw [hmim]; exact hlmp)
      · obtain ⟨li, hli, hlind⟩ :=
          ichains (mainposIdx sz (ns.getD i dummyNode).key) (mainposIdx_lt _ _ hsz)
        have hne := chain_elem_ne_of_gt inv.hnextGT hli hmie
        have hnew := hnewChain hli hne
        have : l = linkAfter mp e li := chainTo_unique hl' hnew
        rw [this]
        exact mem_linkAfter.mpr (Or.inl (ichainAll i hi hk' li hli))
  · intro i j hi hj hk he'
    have hk' : (ns3.getD i dummyNode).key ≠ TObject.nil := hk
    have he'' : (ns3.getD i dummyNode).key = (ns3.getD j dummyNode).key := he'
    by_cases hie : i = e
    · by_cases hje : j = e
      · rw [hie, hje]
      · exfalso
        rw [hie, hkey3e, hkey3 j hje] at he''
        exact irestFreshQ j hj he''.symm
    · by_cases hje : j = e
      · exfalso
        rw [hje, hkey3 i hie, hkey3e] at he''
        exact irestFreshQ i hi he''
      · rw [hkey3 i hie, hkey3 j hje] at he''
        rw [hkey3 i hie] at hk'
        exact idistinct i j hi hj hk' he''
  · intro m hm hk
    have hk' : (ns3.getD m dummyNode).key ≠ TObject.nil := hk
    by_cases hme : m = e
    · subst hme
      show (ns3.getD m dummyNode).val ≠ TObject.nil ∧
        ∃ x, x ∈ u.node ∧ x.key = (ns3.getD m dummyNode).key ∧
          x.val = (ns3.getD m dummyNode).val
      rw [hkey3e, hval3e]
      exact ⟨hndval, nd, hndu, rfl, rfl⟩
    · show (ns3.getD m dummyNode).val ≠ TObject.nil ∧
        ∃ x, x ∈ u.node ∧ x.key = (ns3.getD m dummyNode).key ∧
          x.val = (ns3.getD m dummyNode).val
      rw [hkey3 m hme, hval3 m hme]
      rw [hkey3 m hme] at hk'
      exact ihorigin m hm hk'
  · intro x hx hv
    rcases ihcover x hx hv with ⟨m, hm1, hm2, hm3⟩ | hmem
    · have hme : m ≠ e := by
        intro hcon
        apply hv
        rw [hcon, hedum] at hm3
        exact hm3.symm
      refine Or.inl ⟨m, hm1, ?_, ?_⟩
      · show (ns3.getD m dummyNode).key = x.key
        rw [hkey3 m hme]
        exact hm2
      · show (ns3.getD m dummyNode).val = x.val
        rw [hval3 m hme]
        exact hm3
    · rcases List.mem_cons.mp hmem with hq | hrest
      · have hx1 : x = nd := congrArg Prod.fst hq
        refine Or.inl ⟨e, helt, ?_, ?_⟩
        · show (ns3.getD e dummyNode).key = x.key
          rw [hkey3e, hx1]
        · show (ns3.getD e dummyNode).val = x.val
          rw [hval3e, hx1]
      · exact Or.inr hrest
  · show (ns3.filter (fun x => x.key ≠ TObject.nil)).length + rest.length
      ≤ (u.node.filter (fun x => x.val ≠ TObject.nil)).length
    rw [hocc3]
    omega
  · intro q' hq'
    obtain ⟨c1, c2, c3, c4, c5, c6, c7⟩ := inv.hrestOK q' (List.mem_cons_of_mem _ hq')
    have c6' : (ns.getD q'.2 dummyNode).key ≠ TObject.nil := c6
    have c7' : mainposIdx sz (ns.getD q'.2 dummyNode).key = q'.2 := c7
    have hq2e : q'.2 ≠ e := by
      intro hcon
      rw [hcon] at c6'
      exact c6' hffNil
    refine ⟨c1, c2, c3, c4, c5, ?_, ?_⟩
    · show (ns3.getD q'.2 dummyNode).key ≠ TObject.nil
      rw [hkey3 q'.2 hq2e]
      exact c6'
    · show mainposIdx sz (ns3.getD q'.2 dummyNode).key = q'.2
      rw [hkey3 q'.2 hq2e]
      exact c7'
  · intro q' hq' m hm
    have hndfresh : nd.key ∉ rest.map (fun r => r.1.key) := by
      have h := inv.hrestND
      simp only [List.map_cons, List.nodup_cons] at h
      exact h.1
    by_cases hme : m = e
    · show (ns3.getD m dummyNode).key ≠ q'.1.key
      rw [hme, hkey3e]
      intro hcon
      apply hndfresh
      rw [hcon]
      exact List.mem_map_of_mem _ hq'
    · show (ns3.getD m dummyNode).key ≠ q'.1.key
      rw [hkey3 m hme]
      exact inv.hrestFresh q' (List.mem_cons_of_mem _ hq') m hm
  · have h := inv.hrestND
    simp only [List.map_cons, List.nodup_cons] at h
    exact h.2
theorem p2_step {sz : Nat} {u : Hash}
    (hlive : (u.node.filter (fun x => x.val ≠ TObject.nil)).length < sz)
    (q : Node × Nat) (rest : List (Node × Nat)) (ns : List Node) (e : Nat)
    (inv : P2Inv sz u (q :: rest) ⟨ns, e⟩) :
    P2Inv sz u rest ⟨(rehashChain (ns, e) q).1, (rehashChain (ns, e) q).2⟩ := by
  obtain ⟨nd, mp⟩ := q
  obtain ⟨hndu, hndval, hndkey, hmpdef, hmplt, hmpocc, hmpmain⟩ :=
    inv.hrestOK (nd, mp) (List.mem_cons_self _ _)
  have hmpocc' : (ns.getD mp dummyNode).key ≠ TObject.nil := hmpocc
  have hffNil : (ns.getD e dummyNode).key = TObject.nil := inv.hffNil
  have hedum : ns.getD e dummyNode = dummyNode := inv.hnil e hffNil
  have hmpe : mp ≠ e := by
    intro hcon
    apply hmpocc'
    rw [hcon]
    exact hffNil
  have helt : e < ns.length := by rw [inv.hlen]; exact inv.hffLt
  have hmplt' : mp < ns.length := by rw [inv.hlen]; exact hmplt
  set ns1 := updNode ns e (fun x => { x with key := nd.key, val := nd.val }) with hns1
  have h1len : ns1.length = ns.length := length_updNode ns e _
  have g1e : ns1.getD e dummyNode = ⟨nd.key, nd.val, none⟩ := by
    rw [hns1, getD_updNode_self _ _ _ helt, hedum]
    rfl
  have g1o : ∀ m, m ≠ e → ns1.getD m dummyNode = ns.getD m dummyNode := by
    intro m hm
    rw [hns1]
    exact getD_updNode_ne _ _ _ _ (fun h => hm h.symm)
  set ns2 := updNode ns1 e (fun x => { x with next := (ns1.getD mp dummyNode).next })
    with hns2
  have h2len : ns2.length = ns.length := by
    rw [hns2, length_updNode]
    exact h1len
  have g2e : ns2.getD e dummyNode = ⟨nd.key, nd.val, (ns.getD mp dummyNode).next⟩ := by
    rw [hns2, getD_updNode_self _ _ _ (by rw [h1len]; exact helt), g1e, g1o mp hmpe]
  have g2o : ∀ m, m ≠ e → ns2.getD m dummyNode = ns.getD m dummyNode := by
    intro m hm
    rw [hns2, getD_updNode_ne _ _ _ _ (fun h => hm h.symm)]
    exact g1o m hm
  set ns3 := updNode ns2 mp (fun x => { x with next := some e }) with hns3
  have h3len : ns3.length = ns.length := by
    rw [hns3, length_updNode]
    exact h2len
  have g3mp : ns3.getD mp dummyNode = { ns.getD mp dummyNode with next := some e } := by
    rw [hns3, getD_updNode_self _ _ _ (by rw [h2len]; exact hmplt'), g2o mp hmpe]
  have g3e : ns3.getD e dummyNode = ⟨nd.key, nd.val, (ns.getD mp dummyNode).next⟩ := by
    rw [hns3, getD_updNode_ne _ _ _ _ hmpe]
    exact g2e
  have g3o : ∀ m, m ≠ e → m ≠ mp → ns3.getD m dummyNode = ns.getD m dummyNode := by
    intro m hm1 hm2
    rw [hns3, getD_updNode_ne _ _ _ _ (fun h => hm2 h.symm)]
    exact g2o m hm1
  have hocc1 : (ns1.filter (fun x => x.key ≠ TObject.nil)).length
      = (ns.filter (fun x => x.key ≠ TObject.nil)).length + 1 := by
    rw [hns1]
    show (((ns.set e ((fun x => { x with key := nd.key, val := nd.val })
        (ns.getD e dummyNode))).filter (fun x => x.key ≠ TObject.nil)).length) = _
    refine filter_length_set_flip _ _ _ _ helt ?_ ?_
    · have h := hffNil
      simp only [List.getD_eq_getElem?_getD] at h
      simp [h]
    · simpa using hndkey
  have hocc2 : (ns2.filter (fun x => x.key ≠ TObject.nil)).length
      = (ns1.filter (fun x => x.key ≠ TObject.nil)).length := by
    rw [hns2]
    have e2 : ((updNode ns1 e (fun x =>
        { x with next := (ns1.getD mp dummyNode).next })).filter
        (fun x => x.key ≠ TObject.nil)).length
        = (ns1.filter (fun x => x.key ≠ TObject.nil)).length :=
      filter_length_updNode_keep _ _ _ _ (fun x => rfl)
    exact e2
  have hocc3 : (ns3.filter (fun x => x.key ≠ TObject.nil)).length
      = (ns2.filter (fun x => x.key ≠ TObject.nil)).length := by
    rw [hns3]
    have e2 : ((updNode ns2 mp (fun x => { x with next := some e })).filter
        (fun x => x.key ≠ TObject.nil)).length
        = (ns2.filter (fun x => x.key ≠ TObject.nil)).length :=
      filter_length_updNode_keep _ _ _ _ (fun x => rfl)
    exact e2
  have hfin := p2_step_core hlive nd mp rest ns e inv ns3 h3len g3e g3mp g3o
    (by rw [hocc3, hocc2, hocc1])
  show P2Inv sz u rest ⟨ns3, scanFree ns3 (e - 1)⟩
  exact hfin
theorem p2_fold {sz : Nat} {u : Hash}
    (hlive : (u.node.filter (fun x => x.val ≠ TObject.nil)).length < sz) :
    ∀ (rest : List (Node × Nat)) (ns : List Node) (e : Nat),
      P2Inv sz u rest ⟨ns, e⟩ →
      P2Inv sz u []
        ⟨(rest.foldl rehashChain (ns, e)).1, (rest.foldl rehashChain (ns, e)).2⟩ := by
  intro rest
  induction rest with
  | nil =>
    intro ns e inv
    exact inv
  | cons q rest ih =>
    intro ns e inv
    rw [List.foldl_cons]
    have step := p2_step hlive q rest ns e inv
    exact ih (rehashChain (ns, e) q).1 (rehashChain (ns, e) q).2 step

theorem nodup_map_key_of_distinct : ∀ (ns : List Node),
    (∀ i j, i < ns.length → j < ns.length →
      (ns.getD i dummyNode).key = (ns.getD j dummyNode).key → i = j) →
    (ns.map Node.key).Nodup := by
  intro ns
  induction ns with
  | nil => intro _; simp
  | cons y ys ih =>
    intro h
    simp only [List.map_cons, List.nodup_cons]
    constructor
    · intro hmem
      obtain ⟨x, hx, hxe⟩ := List.mem_map.mp hmem
      obtain ⟨a, ha, hga⟩ := mem_getD ys x hx
      have h0 : ((y :: ys).getD 0 dummyNode).key = ((y :: ys).getD (a + 1) dummyNode).key := by
        rw [List.getD_cons_zero, List.getD_cons_succ, hga, hxe]
      have := h 0 (a + 1) (by simp) (by simpa using Nat.succ_lt_succ ha) h0
      exact absurd this (by omega)
    · refine ih ?_
      intro i j hi hj he
      have := h (i + 1) (j + 1) (by simpa using Nat.succ_lt_succ hi)
        (by simpa using Nat.succ_lt_succ hj)
        (by rw [List.getD_cons_succ, List.getD_cons_succ]; exact he)
      omega

theorem rehash_core {sz : Nat} {u : Hash}
    (hkeys : ∀ x ∈ u.node, x.key ≠ TObject.nil)
    (hnd : (u.node.map Node.key).Nodup)
    (hlive : (u.node.filter (fun x => x.val ≠ TObject.nil)).length < sz) :
    P2Inv sz u []
      ⟨(((u.node.foldl (rehashPlace sz) (List.replicate sz dummyNode, [])).2).foldl
          rehashChain
          ((u.node.foldl (rehashPlace sz) (List.replicate sz dummyNode, [])).1,
            scanFree (u.node.foldl (rehashPlace sz)
              (List.replicate sz dummyNode, [])).1 (sz - 1))).1,
        (((u.node.foldl (rehashPlace sz) (List.replicate sz dummyNode, [])).2).foldl
          rehashChain
          ((u.node.foldl (rehashPlace sz) (List.replicate sz dummyNode, [])).1,
            scanFree (u.node.foldl (rehashPlace sz)
              (List.replicate sz dummyNode, [])).1 (sz - 1))).2⟩ := by
  have hsz : 0 < sz := by omega
  have hp1 := p1_fold hsz u.node [] (List.replicate sz dummyNode, [])
    (by simpa using hkeys) (by simpa using hnd) (p1_init sz)
  rw [List.nil_append] at hp1
  have hinit := p2_init hlive hp1
  exact p2_fold hlive _ _ _ hinit
theorem wf_of_p2 {sz : Nat} {u tb : Hash} (hsz : 0 < sz) (inv : P2Inv sz u [] tb) :
    WF tb := by
  have hl := inv.hlen
  refine ⟨?_, ?_, inv.hffNil, ?_, ?_, ?_, inv.hnextGT, inv.hnextKeySrc,
    inv.hnextKeyTgt, ?_, ?_, ?_, ?_⟩
  · rw [hl]
    exact hsz
  · rw [hl]
    exact inv.hffLt
  · intro i h1 h2
    exact inv.hhigh i h1 (by rw [← hl]; exact h2)
  · intro i h1 hk
    rw [hl]
    exact inv.hlow i h1 hk
  · intro i j h
    rw [hl]
    exact inv.hnextLt i j h
  · intro i j h
    rw [hl]
    exact inv.hnextMain i j h
  · intro i hi
    exact inv.hchains i (by rw [← hl]; exact hi)
  · intro i hi hk l hlch
    rw [hl] at hlch
    exact inv.hchainAll i (by rw [← hl]; exact hi) hk l hlch
  · intro i j hi hj hk he
    exact inv.hdistinct i j (by rw [← hl]; exact hi) (by rw [← hl]; exact hj) hk he

theorem absGet_of_p2 {sz : Nat} {u tb : Hash} (inv : P2Inv sz u [] tb)
    (hkeysU : ∀ x ∈ u.node, x.key ≠ TObject.nil)
    (hdistU : ∀ i j, i < u.node.length → j < u.node.length →
      (getNode u i).key ≠ TObject.nil → (getNode u i).key = (getNode u j).key → i = j)
    (k : TObject) : absGet tb k = absGet u k := by
  have hl := inv.hlen
  by_cases hknil : k = TObject.nil
  · subst hknil
    have h1 : absGet tb TObject.nil = TObject.nil := by
      rw [absGet]
      cases hf : tb.node.find? (fun nd => nd.key = TObject.nil) with
      | none => rfl
      | some nd =>
        have hk : nd.key = TObject.nil := by simpa using List.find?_some hf
        obtain ⟨a, halt, hga⟩ := mem_getD tb.node nd (List.mem_of_find?_eq_some hf)
        have hga' : getNode tb a = nd := hga
        have hdum : getNode tb a = dummyNode := inv.hnil a (by rw [hga']; exact hk)
        have hnde : nd = dummyNode := hga'.symm.trans hdum
        show nd.val = TObject.nil
        rw [hnde]
        rfl
    have h2 : absGet u TObject.nil = TObject.nil := by
      refine absGet_absent ?_
      intro i hi
      exact hkeysU (getNode u i) (getD_mem u.node i hi)
    rw [h1, h2]
  · cases hf : u.node.find? (fun nd => nd.key = k) with
    | none =>
      have hu : absGet u k = .nil := by rw [absGet, hf]
      have habsU : ∀ x ∈ u.node, x.key ≠ k := by
        intro x hx
        have := List.find?_eq_none.mp hf x hx
        simpa using this
      have htb : absGet tb k = .nil := by
        refine absGet_absent ?_
        intro m hm hcon
        obtain ⟨_, x, hxu, hxk, _⟩ :=
          inv.horigin m (by rw [← hl]; exact hm) (by rw [hcon]; exact hknil)
        exact habsU x hxu (hxk.trans hcon)
      rw [htb, hu]
    | some ndu =>
      have hku : ndu.key = k := by simpa using List.find?_some hf
      have hmemu := List.mem_of_find?_eq_some hf
      have hu : absGet u k = ndu.val := by rw [absGet, hf]
      by_cases hvnil : ndu.val = TObject.nil
      · have htb : absGet tb k = .nil := by
          refine absGet_absent ?_
          intro m hm hcon
          obtain ⟨hval, x, hxu, hxk, hxv⟩ :=
            inv.horigin m (by rw [← hl]; exact hm) (by rw [hcon]; exact hknil)
          obtain ⟨a, ha, hgax⟩ := mem_getD u.node x hxu
          obtain ⟨b, hb, hgbn⟩ := mem_getD u.node ndu hmemu
          have hab : a = b := by
            refine hdistU a b ha hb ?_ ?_
            · show (u.node.getD a dummyNode).key ≠ TObject.nil
              rw [hgax, hxk, hcon]
              exact hknil
            · show (u.node.getD a dummyNode).key = (u.node.getD b dummyNode).key
              rw [hgax, hgbn, hxk, hcon, hku]
          have hxnd : x = ndu := by rw [← hgax, ← hgbn, hab]
          apply hval
          rw [← hxv, hxnd, hvnil]
        rw [htb, hu, hvnil]
      · rcases inv.hcover ndu hmemu hvnil with ⟨m, hm, hm2, hm3⟩ | habs2
        · have hdtb : ∀ i j, i < tb.node.length → j < tb.node.length →
              (getNode tb i).key ≠ TObject.nil →
              (getNode tb i).key = (getNode tb j).key → i = j := by
            intro i j hi hj hk2 he2
            exact inv.hdistinct i j (by rw [← hl]; exact hi) (by rw [← hl]; exact hj)
              hk2 he2
          have htb : absGet tb k = (getNode tb m).val :=
            absGet_found_of_distinct hdtb (by rw [hl]; exact hm) (hm2.trans hku) hknil
          rw [htb, hu]
          exact hm3
        · cases habs2

theorem rehash_spec {u : Hash}
    (hkeys : ∀ x ∈ u.node, x.key ≠ TObject.nil)
    (hdistU : ∀ i j, i < u.node.length → j < u.node.length →
      (getNode u i).key ≠ TObject.nil → (getNode u i).key = (getNode u j).key → i = j) :
    WF (rehash u) ∧ (rehash u).node.length = newsize u ∧
      ∀ k, absGet (rehash u) k = absGet u k := by
  have hlive : (u.node.filter (fun x => x.val ≠ TObject.nil)).length < newsize u :=
    lt_redimension_double _
  have hnd : (u.node.map Node.key).Nodup := by
    refine nodup_map_key_of_distinct u.node ?_
    intro i j hi hj he
    refine hdistU i j hi hj ?_ he
    exact hkeys _ (getD_mem u.node i hi)
  have hp2 : P2Inv (newsize u) u [] (rehash u) := rehash_core hkeys hnd hlive
  have hsz : 0 < newsize u := one_le_redimension _
  exact ⟨wf_of_p2 hsz hp2, hp2.hlen, fun k => absGet_of_p2 hp2 hkeys hdistU k⟩
theorem wf_overwrite {t : Hash} (w : WF t) (i : Nat) (v : TObject) :
    WF { t with node := updNode t.node i (fun nd => { nd with val := v }) } := by
  set t2 := { t with node := updNode t.node i (fun nd => { nd with val := v }) } with ht2
  have hkm : ∀ m, (getNode t2 m).key = (getNode t m).key := by
    intro m
    show ((updNode t.node i (fun nd => { nd with val := v })).getD m dummyNode).key
      = (t.node.getD m dummyNode).key
    by_cases hm : m = i
    · subst hm
      by_cases hlt : m < t.node.length
      · rw [getD_updNode_self _ _ _ hlt]
      · rw [updNode, List.set_eq_of_length_le (by omega)]
    · rw [getD_updNode_ne _ _ _ _ (fun h => hm h.symm)]
  have hnm : ∀ m, (getNode t2 m).next = (getNode t m).next := by
    intro m
    show ((updNode t.node i (fun nd => { nd with val := v })).getD m dummyNode).next
      = (t.node.getD m dummyNode).next
    by_cases hm : m = i
    · subst hm
      by_cases hlt : m < t.node.length
      · rw [getD_updNode_self _ _ _ hlt]
      · rw [updNode, List.set_eq_of_length_le (by omega)]
    · rw [getD_updNode_ne _ _ _ _ (fun h => hm h.symm)]
  have hlen2 : t2.node.length = t.node.length := by
    show (updNode t.node i (fun nd => { nd with val := v })).length = t.node.length
    exact length_updNode _ _ _
  have hff2 : t2.firstfree = t.firstfree := rfl
  refine ⟨?_, ?_, ?_, ?_, ?_, ?_, ?_, ?_, ?_, ?_, ?_, ?_, ?_⟩
  · rw [hlen2]
    exact w.sizePos
  · rw [hlen2, hff2]
    exact w.ffLt
  · rw [hff2, hkm]
    exact w.ffNil
  · intro m h1 h2
    rw [hkm]
    exact w.highOcc m (by rw [hff2] at h1; exact h1) (by rw [hlen2] at h2; exact h2)
  · intro m h1 hk2
    rw [hkm] at hk2
    rw [hkm, hlen2]
    exact w.lowMain m (by rw [hff2] at h1; exact h1) hk2
  · intro a b h
    rw [hnm] at h
    rw [hlen2]
    exact w.nextLt a b h
  · intro a b h
    rw [hnm] at h
    rw [hff2]
    exact w.nextGtFF a b h
  · intro a b h
    rw [hnm] at h
    rw [hkm]
    exact w.nextKeySrc a b h
  · intro a b h
    rw [hnm] at h
    rw [hkm]
    exact w.nextKeyTgt a b h
  · intro a b h
    rw [hnm] at h
    rw [hkm b, hkm a, hlen2]
    exact w.nextMain a b h
  · intro a ha
    rw [hlen2] at ha
    obtain ⟨l, hl, hnd⟩ := w.chains a ha
    exact ⟨l, chainTo_congr hl (fun x _ => hnm x), hnd⟩
  · intro a ha hk2 l hl
    rw [hlen2] at ha
    rw [hkm] at hk2
    have hl' : ChainTo t (mainposIdx t.node.length (getNode t a).key) l := by
      have h2 := chainTo_congr hl (fun x _ => (hnm x).symm)
      rw [hkm a, hlen2] at h2
      exact h2
    exact w.chainAll a ha hk2 l hl'
  · intro a b ha hb hk2 he
    rw [hlen2] at ha hb
    rw [hkm] at hk2
    rw [hkm a, hkm b] at he
    exact w.distinct a b ha hb hk2 he

theorem absGet_overwrite {t : Hash} (w : WF t) {k v : TObject} (hk : k ≠ TObject.nil)
    {i : Nat} (hi : i < t.node.length) (hkey : (getNode t i).key = k) (k2 : TObject)
    (hk2 : k2 ≠ TObject.nil) :
    absGet { t with node := updNode t.node i (fun nd => { nd with val := v }) } k2
      = if k2 = k then v else absGet t k2 := by
  set t2 := { t with node := updNode t.node i (fun nd => { nd with val := v }) } with ht2
  have w2 : WF t2 := wf_overwrite w i v
  have hkm : ∀ m, (getNode t2 m).key = (getNode t m).key := by
    intro m
    show ((updNode t.node i (fun nd => { nd with val := v })).getD m dummyNode).key
      = (t.node.getD m dummyNode).key
    by_cases hm : m = i
    · subst hm
      by_cases hlt : m < t.node.length
      · rw [getD_updNode_self _ _ _ hlt]
      · rw [updNode, List.set_eq_of_length_le (by omega)]
    · rw [getD_updNode_ne _ _ _ _ (fun h => hm h.symm)]
  have hlen2 : t2.node.length = t.node.length := by
    show (updNode t.node i (fun nd => { nd with val := v })).length = t.node.length
    exact length_updNode _ _ _
  have hvali : (getNode t2 i).val = v := by
    show ((updNode t.node i (fun nd => { nd with val := v })).getD i dummyNode).val = v
    rw [getD_updNode_self _ _ _ hi]
  by_cases he : k2 = k
  · subst he
    rw [if_pos rfl]
    have h2 := absGet_found_of_distinct (t := t2) w2.distinct (i := i)
      (by rw [hlen2]; exact hi) (by rw [hkm]; exact hkey) hk2
    rw [h2, hvali]
  · rw [if_neg he]
    by_cases hex : ∃ j, j < t.node.length ∧ (getNode t j).key = k2
    · obtain ⟨j, hj, hjk⟩ := hex
      have h1 : absGet t k2 = (getNode t j).val := absGet_found_of_distinct w.distinct hj hjk hk2
      have hji : j ≠ i := by
        intro hcon
        rw [hcon, hkey] at hjk
        exact he hjk.symm
      have hvalj : (getNode t2 j).val = (getNode t j).val := by
        show ((updNode t.node i (fun nd => { nd with val := v })).getD j dummyNode).val
          = (t.node.getD j dummyNode).val
        rw [getD_updNode_ne _ _ _ _ (fun h => hji h.symm)]
      have h2 : absGet t2 k2 = (getNode t2 j).val :=
        absGet_found_of_distinct w2.distinct (by rw [hlen2]; exact hj)
          (by rw [hkm]; exact hjk) hk2
      rw [h1, h2, hvalj]
    · push_neg at hex
      have h1 : absGet t k2 = .nil := absGet_absent hex
      have h2 : absGet t2 k2 = .nil := by
        refine absGet_absent ?_
        intro m hm
        rw [hkm]
        exact hex m (by rw [hlen2] at hm; exact hm)
      rw [h1, h2]

theorem insOK_any {t : Hash} (w : WF t) {k v : TObject} (hk : k ≠ TObject.nil)
    (habs : ∀ i, i < t.node.length → (getNode t i).key ≠ k) :
    InsOK t (insertNew t (mainposIdx t.node.length k) k v) k v := by
  by_cases hfree : (getNode t (mainposIdx t.node.length k)).key = TObject.nil
  · exact insOK_free w hk habs hfree
  · by_cases hcond : mainposIdx t.node.length k > t.firstfree ∧
        mainposIdx t.node.length (getNode t (mainposIdx t.node.length k)).key
          ≠ mainposIdx t.node.length k
    · exact insOK_caseA w hk habs hfree hcond.1 hcond.2
    · exact insOK_caseB w hk habs hfree hcond

theorem wf_of_insOK_cursor {t t1 : Hash} (w : WF t) {k v : TObject}
    (ins : InsOK t t1 k v) {ff : Nat}
    (hfd : findFreeDown t1.node t1.firstfree = some ff) :
    WF { t1 with firstfree := ff } := by
  obtain ⟨hr1, hr2, hr3⟩ := findFreeDown_some hfd
  have hffeq := ins.hffEq
  have hlen := ins.hlen
  refine ⟨?_, ?_, ?_, ?_, ?_, ?_, ?_, ?_, ?_, ?_, ?_, ?_, ?_⟩
  · show 0 < t1.node.length
    rw [hlen]
    exact w.sizePos
  · show ff < t1.node.length
    have := w.ffLt
    omega
  · exact hr2
  · intro m h1 h2
    have h1' : ff < m := h1
    have h2' : m < t1.node.length := h2
    show (getNode t1 m).key ≠ TObject.nil
    rcases le_or_lt m t1.firstfree with hle | hgt
    · exact hr3 m h1' hle
    · exact ins.hhighOcc m (by rw [← hffeq]; exact hgt) (by rw [← hlen]; exact h2')
  · intro m h1 hk2
    have h1' : m < ff := h1
    have hk2' : (getNode t1 m).key ≠ TObject.nil := hk2
    show mainposIdx t1.node.length (getNode t1 m).key = m
    rw [hlen]
    exact ins.hlowMain m (by omega) hk2'
  · intro a b h
    have h' : (getNode t1 a).next = some b := h
    show b < t1.node.length
    rw [hlen]
    exact ins.hnextLt a b h'
  · intro a b h
    have h' : (getNode t1 a).next = some b := h
    show ff < b
    have hge := ins.hnextGE a b h'
    have hocc := ins.hnextKeyTgt a b h'
    by_cases hbe : b = t.firstfree
    · have hne : ff ≠ b := by
        intro hcon
        apply hocc
        rw [← hcon]
        exact hr2
      omega
    · have : t.firstfree < b := lt_of_le_of_ne hge (fun h2 => hbe h2.symm)
      omega
  · intro a b h
    exact ins.hnextKeySrc a b h
  · intro a b h
    exact ins.hnextKeyTgt a b h
  · intro a b h
    have h' : (getNode t1 a).next = some b := h
    show mainposIdx t1.node.length (getNode t1 b).key
      = mainposIdx t1.node.length (getNode t1 a).key
    rw [hlen]
    exact ins.hnextMain a b h'
  · intro a ha
    have ha' : a < t1.node.length := ha
    obtain ⟨l, hl, hnd⟩ := ins.hchains a (by rw [← hlen]; exact ha')
    exact ⟨l, chainTo_congr hl (fun x _ => rfl), hnd⟩
  · intro a ha hk2 l hl
    have ha' : a < t1.node.length := ha
    have hk2' : (getNode t1 a).key ≠ TObject.nil := hk2
    have hl' : ChainTo t1 (mainposIdx t1.node.length (getNode t1 a).key) l :=
      chainTo_congr hl (fun x _ => rfl)
    rw [hlen] at hl'
    exact ins.hchainAll a (by rw [← hlen]; exact ha') hk2' l hl'
  · intro a b ha hb hk2 he
    have ha' : a < t1.node.length := ha
    have hb' : b < t1.node.length := hb
    have hk2' : (getNode t1 a).key ≠ TObject.nil := hk2
    have he' : (getNode t1 a).key = (getNode t1 b).key := he
    exact ins.hdistinct a b (by rw [← hlen]; exact ha') (by rw [← hlen]; exact hb')
      hk2' he'

theorem insOK_full {t t1 : Hash} {k v : TObject} (ins : InsOK t t1 k v)
    (hfd : findFreeDown t1.node t1.firstfree = none) :
    ∀ x ∈ t1.node, x.key ≠ TObject.nil := by
  intro x hx
  obtain ⟨m, hm, hgm⟩ := mem_getD t1.node x hx
  rw [← hgm]
  show (getNode t1 m).key ≠ TObject.nil
  rcases le_or_lt m t1.firstfree with hle | hgt
  · exact findFreeDown_none hfd m hle
  · exact ins.hhighOcc m (by rw [← ins.hffEq]; exact hgt) (by rw [← ins.hlen]; exact hm)

theorem insOK_absGet {t t1 : Hash} (w : WF t) {k v : TObject} (hk : k ≠ TObject.nil)
    (ins : InsOK t t1 k v) (k2 : TObject) (hk2 : k2 ≠ TObject.nil) :
    absGet t1 k2 = if k2 = k then v else absGet t k2 := by
  have hd1 : ∀ i j, i < t1.node.length → j < t1.node.length →
      (getNode t1 i).key ≠ TObject.nil →
      (getNode t1 i).key = (getNode t1 j).key → i = j := by
    intro i j hi hj hk3 he
    exact ins.hdistinct i j (by rw [← ins.hlen]; exact hi) (by rw [← ins.hlen]; exact hj)
      hk3 he
  by_cases he : k2 = k
  · subst he
    rw [if_pos rfl]
    obtain ⟨pos, hplt, hpk, hpv⟩ := ins.hpos
    rw [absGet_found_of_distinct hd1 (by rw [ins.hlen]; exact hplt) hpk hk2, hpv]
  · rw [if_neg he]
    by_cases hex : ∃ j, j < t.node.length ∧ (getNode t j).key = k2
    · obtain ⟨j, hj, hjk⟩ := hex
      obtain ⟨j2, hj2, hjk2, hjv2⟩ := ins.hfwd j hj (by rw [hjk]; exact hk2)
      rw [absGet_found_of_distinct w.distinct hj hjk hk2]
      rw [absGet_found_of_distinct hd1 (by rw [ins.hlen]; exact hj2)
        (by rw [hjk2, hjk]) hk2]
      exact hjv2
    · push_neg at hex
      have h1 : absGet t k2 = .nil := absGet_absent hex
      have h2 : absGet t1 k2 = .nil := by
        refine absGet_absent ?_
        intro m hm hcon
        obtain ⟨j, hj, hjk, _⟩ := ins.hbwd m (by rw [← ins.hlen]; exact hm)
          (by rw [hcon]; exact hk2) (by rw [hcon]; exact he)
        exact hex j hj (by rw [hjk, hcon])
      rw [h1, h2]

theorem wf_chainFind_sound {t : Hash} (w : WF t) {k : TObject} {i : Nat}
    (h : chainFind t k t.node.length (mainposIdx t.node.length k) = some i) :
    i < t.node.length ∧ (getNode t i).key = k := by
  have hmp : mainposIdx t.node.length k < t.node.length := mainposIdx_lt _ _ w.sizePos
  obtain ⟨l, hl, hnd⟩ := w.chains _ hmp
  have hfind := chainFind_eq (k := k) hl t.node.length (wf_chain_bound w hl hnd hmp)
  rw [hfind] at h
  have hpi := List.find?_some h
  have hmem := List.mem_of_find?_eq_some h
  have hilt := chainTo_elem_lt hl w.nextLt hmp i hmem
  simp only at hpi
  exact ⟨hilt, ((luaO_equalObj_iff _ _).mp hpi).symm⟩

theorem luaH_set_spec {t : Hash} (w : WF t) (k v : TObject) (hk : k ≠ TObject.nil) :
    ∃ t2, luaH_set t k v = .ok t2 ∧ WF t2 ∧
      ∀ k2, k2 ≠ TObject.nil → absGet t2 k2 = if k2 = k then v else absGet t k2 := by
  simp only [luaH_set, luaH_mainposition_eq hk]
  cases hcf : chainFind t k t.node.length (mainposIdx t.node.length k) with
  | some i =>
    obtain ⟨hi, hikey⟩ := wf_chainFind_sound w hcf
    exact ⟨_, rfl, wf_overwrite w i v,
      fun k2 hk2 => absGet_overwrite w hk hi hikey k2 hk2⟩
  | none =>
    have habs : ∀ j, j < t.node.length → (getNode t j).key ≠ k := by
      intro j hj hcon
      have h2 := wf_chainFind_present w hj hcon hk
      rw [hcf] at h2
      cases h2
    have ins := insOK_any (v := v) w hk habs
    cases hfd : findFreeDown (insertNew t (mainposIdx t.node.length k) k v).node
        (insertNew t (mainposIdx t.node.length k) k v).firstfree with
    | some ff =>
      refine ⟨_, rfl, wf_of_insOK_cursor w ins hfd, ?_⟩
      intro k2 hk2
      exact insOK_absGet w hk ins k2 hk2
    | none =>
      have hkeys := insOK_full ins hfd
      have hdist : ∀ i j,
          i < (insertNew t (mainposIdx t.node.length k) k v).node.length →
          j < (insertNew t (mainposIdx t.node.length k) k v).node.length →
          (getNode (insertNew t (mainposIdx t.node.length k) k v) i).key ≠ TObject.nil →
          (getNode (insertNew t (mainposIdx t.node.length k) k v) i).key
            = (getNode (insertNew t (mainposIdx t.node.length k) k v) j).key → i = j := by
        intro i j hi hj hk3 he
        exact ins.hdistinct i j (by rw [← ins.hlen]; exact hi)
          (by rw [← ins.hlen]; exact hj) hk3 he
      obtain ⟨hwf, hlen2, habsG⟩ := rehash_spec hkeys hdist
      refine ⟨_, rfl, hwf, ?_⟩
      intro k2 hk2
      rw [habsG k2]
      exact insOK_absGet w hk ins k2 hk2
theorem luaH_set_nil (t : Hash) (v : TObject) :
    luaH_set t TObject.nil v = .error .invalidKey := rfl

theorem setOr_nil (t : Hash) (v : TObject) : setOr t (TObject.nil, v) = t := rfl

theorem applySets_wf {t : Hash} (w : WF t) (ops : List (TObject × TObject)) :
    WF (applySets t ops) := by
  induction ops generalizing t with
  | nil => exact w
  | cons p ps ih =>
    show WF (ps.foldl setOr (setOr t p))
    by_cases hpk : p.1 = TObject.nil
    · have hset : setOr t p = t := by
        rw [setOr, show luaH_set t p.1 p.2 = .error .invalidKey from by
          rw [hpk]; exact luaH_set_nil t p.2]
      rw [hset]
      exact ih w
    · obtain ⟨t2, hset, hwf2, _⟩ := luaH_set_spec w p.1 p.2 hpk
      have hsetOr : setOr t p = t2 := by rw [setOr, hset]
      rw [hsetOr]
      exact ih hwf2

theorem applySets_absGet {t : Hash} (w : WF t) (ops : List (TObject × TObject))
    (k : TObject) (hk : k ≠ TObject.nil) :
    absGet (applySets t ops) k
      = ops.foldl (fun acc p => if p.1 = k then p.2 else acc) (absGet t k) := by
  induction ops generalizing t with
  | nil => rfl
  | cons p ps ih =>
    show absGet (ps.foldl setOr (setOr t p)) k
      = ps.foldl (fun acc p => if p.1 = k then p.2 else acc)
          (if p.1 = k then p.2 else absGet t k)
    by_cases hpk : p.1 = TObject.nil
    · have hset : setOr t p = t := by
        rw [setOr, show luaH_set t p.1 p.2 = .error .invalidKey from by
          rw [hpk]; exact luaH_set_nil t p.2]
      rw [hset, if_neg (by rw [hpk]; exact fun h => hk h.symm)]
      exact ih w
    · obtain ⟨t2, hset, hwf2, habs⟩ := luaH_set_spec w p.1 p.2 hpk
      have hsetOr : setOr t p = t2 := by rw [setOr, hset]
      rw [hsetOr]
      have h3 : absGet (ps.foldl setOr t2) k
          = ps.foldl (fun acc p => if p.1 = k then p.2 else acc) (absGet t2 k) :=
        ih hwf2
      have hval : absGet t2 k = if p.1 = k then p.2 else absGet t k := by
        rw [habs k hk]
        by_cases hh : k = p.1
        · rw [if_pos hh, if_pos hh.symm]
        · rw [if_neg hh, if_neg (fun h2 => hh h2.symm)]
      rw [h3, hval]

theorem applySets_new_get (n : Nat) (ops : List (TObject × TObject)) (k : TObject)
    (hk : k ≠ TObject.nil) :
    luaH_get (applySets (luaH_new n) ops) k = .ok (histVal ops k) := by
  have w0 := wf_luaH_new n
  have hwf := applySets_wf w0 ops
  rw [wf_luaH_get_eq_absGet hwf hk]
  have h0 : absGet (luaH_new n) k = TObject.nil := by
    refine absGet_absent ?_
    intro i _ hcon
    rw [getNode_luaH_new] at hcon
    exact hk hcon.symm
  have h1 := applySets_absGet w0 ops k hk
  rw [h0] at h1
  rw [h1]
  rfl

theorem wf_invariantA {t : Hash} (w : WF t) : invariantA t := by
  intro i hi hk hne
  obtain ⟨l, hl, hnd⟩ :=
    w.chains (mainposIdx t.node.length (getNode t i).key) (mainposIdx_lt _ _ w.sizePos)
  have hmem : i ∈ l := w.chainAll i hi hk l hl
  cases hl with
  | last _ hn =>
    simp only [List.mem_singleton] at hmem
    exact absurd hmem (fun h2 => hne h2.symm)
  | step _ j l2 hj hc =>
    have hkeym : (getNode t (mainposIdx t.node.length (getNode t i).key)).key
        ≠ TObject.nil := w.nextKeySrc _ j hj
    refine ⟨hkeym, ?_⟩
    have hconst := chainTo_const (fun x => mainposIdx t.node.length (getNode t x).key)
      (.step _ j l2 hj hc) (fun a b hab _ => w.nextMain a b hab) i hmem
    exact hconst.symm
theorem foldl_rehashPlace_length (sz : Nat) :
    ∀ (l : List Node) (st : List Node × List (Node × Nat)),
      ((l.foldl (rehashPlace sz) st).1).length = st.1.length := by
  intro l
  induction l with
  | nil => intro st; rfl
  | cons x xs ih =>
    intro st
    rw [List.foldl_cons, ih]
    simp only [rehashPlace]
    split
    · rfl
    · split
      · simp [updNode]
      · rfl

theorem foldl_rehashChain_length :
    ∀ (l : List (Node × Nat)) (st : List Node × Nat),
      ((l.foldl rehashChain st).1).length = st.1.length := by
  intro l
  induction l with
  | nil => intro st; rfl
  | cons x xs ih =>
    intro st
    rw [List.foldl_cons, ih]
    simp [rehashChain, updNode]

theorem rehash_length (u : Hash) : (rehash u).node.length = newsize u := by
  simp only [rehash]
  rw [foldl_rehashChain_length, foldl_rehashPlace_length]
  simp

/-! The claims. -/

/-- C1: Main-position invariant -- after any finite sequence of `set` calls
on a fresh table, every occupied slot whose key's main position is a
different slot has that main position occupied by a key whose own main
position is that slot. -/
theorem claim_C1 (n : Nat) (ops : List (TObject × TObject)) :
    invariantA (applySets (luaH_new n) ops) :=
  wf_invariantA (applySets_wf (wf_luaH_new n) ops)

/-- C2: Round-trip -- on any well-formed table, for a hashable key and a
non-nil value, `set` succeeds and a following `get` returns that value. -/
theorem claim_C2 {t : Hash} (w : WF t) (k v : TObject) (hk : k ≠ TObject.nil)
    (hv : v ≠ TObject.nil) :
    ∃ t2, luaH_set t k v = .ok t2 ∧ luaH_get t2 k = .ok v := by
  obtain ⟨t2, hset, hwf2, habs⟩ := luaH_set_spec w k v hk
  refine ⟨t2, hset, ?_⟩
  rw [wf_luaH_get_eq_absGet hwf2 hk, habs k hk, if_pos rfl]

theorem claim_C2_witness :
    ∃ t2, luaH_set (luaH_new 0) (.number 1) (.number 2) = .ok t2 ∧
      luaH_get t2 (.number 1) = .ok (.number 2) :=
  claim_C2 (wf_luaH_new 0) (.number 1) (.number 2) (by decide) (by decide)
/-- C3: Saturation triggers a rehash and rehash preserves the live mapping --
in general, after any sequence of `set` calls on a fresh table, `get`
returns the last value written to a key (nil when never written), across
every rehash the sets trigger; concretely, a fresh one-slot table grows to
2 and then to 4 slots under the first two inserts (two consecutive
rehashes) and all three inserted keys remain retrievable with their
values. -/
theorem claim_C3 :
    (∀ (n : Nat) (ops : List (TObject × TObject)) (k : TObject),
      k ≠ TObject.nil →
      luaH_get (applySets (luaH_new n) ops) k = .ok (histVal ops k)) ∧
    (luaH_new 0).node.length = 1 ∧
    (applySets (luaH_new 0) [((.number 0), (.number 10))]).node.length = 2 ∧
    (applySets (luaH_new 0) [((.number 0), (.number 10)),
      ((.number 1), (.number 11))]).node.length = 4 ∧
    luaH_get (applySets (luaH_new 0) [((.number 0), (.number 10)),
      ((.number 1), (.number 11)), ((.number 2), (.number 12))]) (.number 0)
        = .ok (.number 10) ∧
    luaH_get (applySets (luaH_new 0) [((.number 0), (.number 10)),
      ((.number 1), (.number 11)), ((.number 2), (.number 12))]) (.number 1)
        = .ok (.number 11) ∧
    luaH_get (applySets (luaH_new 0) [((.number 0), (.number 10)),
      ((.number 1), (.number 11)), ((.number 2), (.number 12))]) (.number 2)
        = .ok (.number 12) :=
  ⟨applySets_new_get, by decide, by decide, by decide, by decide, by decide, by decide⟩

/-- C4: Brent's-variation insertion, with `mp` the new key's main position
and the free place the `firstfree` cursor's slot: (a) when the colliding
occupant of `mp` is not at its own main position, it moves to the cursor's
slot, its unique chain predecessor `prev` is redirected there, and the new
pair becomes the chain root at `mp`; (b) when the occupant is at its own
main position, the new pair goes to the cursor's slot and is linked right
after the root, inheriting the root's old successor. -/
theorem claim_C4 {t : Hash} (w : WF t) (k v : TObject) (hk : k ≠ TObject.nil)
    (hocc : (getNode t (mainposIdx t.node.length k)).key ≠ TObject.nil) :
    ((mainposIdx t.node.length k > t.firstfree ∧
        mainposIdx t.node.length (getNode t (mainposIdx t.node.length k)).key
          ≠ mainposIdx t.node.length k) →
      ∃ prev, (getNode t prev).next = some (mainposIdx t.node.length k) ∧
        getNode (insertNew t (mainposIdx t.node.length k) k v) t.firstfree
          = getNode t (mainposIdx t.node.length k) ∧
        getNode (insertNew t (mainposIdx t.node.length k) k v)
            (mainposIdx t.node.length k) = ⟨k, v, none⟩ ∧
        getNode (insertNew t (mainposIdx t.node.length k) k v) prev
          = { getNode t prev with next := some t.firstfree } ∧
        ∀ j, j ≠ mainposIdx t.node.length k → j ≠ t.firstfree → j ≠ prev →
          getNode (insertNew t (mainposIdx t.node.length k) k v) j = getNode t j) ∧
    (mainposIdx t.node.length (getNode t (mainposIdx t.node.length k)).key
        = mainposIdx t.node.length k →
      getNode (insertNew t (mainposIdx t.node.length k) k v) t.firstfree
        = ⟨k, v, (getNode t (mainposIdx t.node.length k)).next⟩ ∧
      getNode (insertNew t (mainposIdx t.node.length k) k v)
          (mainposIdx t.node.length k)
        = { getNode t (mainposIdx t.node.length k) with next := some t.firstfree } ∧
      ∀ j, j ≠ mainposIdx t.node.length k → j ≠ t.firstfree →
        getNode (insertNew t (mainposIdx t.node.length k) k v) j = getNode t j) := by
  have hmlt := mainposIdx_lt t.node.length k w.sizePos
  have hffLt := w.ffLt
  constructor
  · intro hcase
    obtain ⟨prev, hfp, hpnext, hplt, hpmp, hpff, hpmain⟩ :=
      wf_findPrev w hmlt hocc hcase.2
    obtain ⟨_, _, h3, h4, h5, h6⟩ :=
      insertNew_caseA_spec (v := v) hocc hcase hfp hmlt hffLt hpmp hpff hplt
    exact ⟨prev, hpnext, h3, h4, h5, h6⟩
  · intro hcase
    have hne : mainposIdx t.node.length k ≠ t.firstfree := by
      intro e
      exact hocc (by rw [e]; exact w.ffNil)
    have hcond : ¬(mainposIdx t.node.length k > t.firstfree ∧
        mainposIdx t.node.length (getNode t (mainposIdx t.node.length k)).key
          ≠ mainposIdx t.node.length k) := fun hcon => hcon.2 hcase
    obtain ⟨_, _, h3, h4, h5⟩ := insertNew_caseB_spec (v := v) hocc hcond hmlt hffLt hne
    exact ⟨h3, h4, h5⟩

theorem claim_C4_witness :
    getNode (insertNew (applySets (luaH_new 2) [((.number 0), (.number 10))])
        (mainposIdx
          (applySets (luaH_new 2) [((.number 0), (.number 10))]).node.length
          (.number 4)) (.number 4) (.number 44))
      (applySets (luaH_new 2) [((.number 0), (.number 10))]).firstfree
      = ⟨.number 4, .number 44,
          (getNode (applySets (luaH_new 2) [((.number 0), (.number 10))])
            (mainposIdx
              (applySets (luaH_new 2) [((.number 0), (.number 10))]).node.length
              (.number 4))).next⟩ :=
  ((claim_C4 (applySets_wf (wf_luaH_new 2) [((.number 0), (.number 10))])
    (.number 4) (.number 44) (by decide) (by decide)).2 (by decide)).1
/-- C5 (amended): `get` never fails *on hashable keys* -- for a well-formed
table and a non-nil key, `get` returns the value the table associates to
the key (the stored value when a slot holds the key, nil when the chain is
exhausted).  The original "never fails for every key" is refuted by the
counterexample: a nil key makes `get` raise `InvalidKeyError`. -/
theorem claim_C5 {t : Hash} (w : WF t) (k : TObject) (hk : k ≠ TObject.nil) :
    luaH_get t k = .ok (absGet t k) :=
  wf_luaH_get_eq_absGet w hk

theorem claim_C5_witness :
    luaH_get (luaH_new 0) (.number 3) = .ok (absGet (luaH_new 0) (.number 3)) :=
  claim_C5 (wf_luaH_new 0) (.number 3) (by decide)

/-- C5 counterexample: `get` does fail on an unhashable key -- looking up
the nil key raises `InvalidKeyError` instead of returning a value. -/
theorem claim_C5_counterexample :
    luaH_get (luaH_new 0) TObject.nil = .error .invalidKey := rfl

/-- C6: `InvalidKeyError` on unhashable keys -- `set` with a key that has
no defined hash raises `InvalidKeyError` synchronously and the table is
left unchanged (the error fires before any mutation) and surfaced to the
caller. -/
theorem claim_C6 (t : Hash) (v k : TObject) (h : hashOf k = none) :
    luaH_set t k v = .error .invalidKey ∧ setOr t (k, v) = t := by
  have hknil : k = TObject.nil := hashOf_eq_none h
  subst hknil
  exact ⟨luaH_set_nil t v, setOr_nil t v⟩

theorem claim_C6_witness :
    luaH_set (luaH_new 0) TObject.nil (.number 5) = .error .invalidKey ∧
      setOr (luaH_new 0) (TObject.nil, .number 5) = luaH_new 0 :=
  claim_C6 (luaH_new 0) (.number 5) TObject.nil (by decide)

set_option maxRecDepth 100000 in
/-- C7: Rehash sizing -- the rebuilt array's size is always the sizing
function applied to twice the number of old slots holding a non-nil value;
concretely, a 4-slot table whose three entries were all deleted (three
tombstones, zero live values) shrinks to 2 slots at the rehash triggered
by the next insert, and the inserted key is retrievable. -/
theorem claim_C7 :
    (∀ u : Hash, (rehash u).node.length
      = luaO_redimension
          (2 * (u.node.filter (fun nd => nd.val ≠ TObject.nil)).length)) ∧
    (applySets (luaH_new 0) [((.number 0), (.number 10)), ((.number 1), (.number 11)),
      ((.number 2), (.number 12)), ((.number 0), TObject.nil),
      ((.number 1), TObject.nil), ((.number 2), TObject.nil)]).node.length = 4 ∧
    keyCount (applySets (luaH_new 0) [((.number 0), (.number 10)),
      ((.number 1), (.number 11)), ((.number 2), (.number 12)),
      ((.number 0), TObject.nil), ((.number 1), TObject.nil),
      ((.number 2), TObject.nil)]) = 3 ∧
    (applySets (luaH_new 0) [((.number 0), (.number 10)), ((.number 1), (.number 11)),
      ((.number 2), (.number 12)), ((.number 0), TObject.nil),
      ((.number 1), TObject.nil), ((.number 2), TObject.nil),
      ((.number 3), (.number 13))]).node.length = 2 ∧
    luaH_get (applySets (luaH_new 0) [((.number 0), (.number 10)),
      ((.number 1), (.number 11)), ((.number 2), (.number 12)),
      ((.number 0), TObject.nil), ((.number 1), TObject.nil),
      ((.number 2), TObject.nil), ((.number 3), (.number 13))]) (.number 3)
        = .ok (.number 13) :=
  ⟨fun u => rehash_length u, by decide, by decide, by decide, by decide⟩
/-- C8 (amended): Idempotent overwrite is in place *when the first value is
non-nil* -- after `set t k v1` the key is present, and the second
`set k v2` rewrites only the value field of the slot holding `k`: the slot
array is the old one with one value replaced, the occupied-slot count and
the free-cursor are unchanged, and `get` returns `v2`.  The original
unrestricted claim is refuted by the counterexample: with `v1 = Nil` on a
full one-slot table the first set triggers a rehash that drops the pair,
so the second set inserts a new slot and the occupied-slot count and array
change. -/
theorem claim_C8 {t : Hash} (w : WF t) (k v1 v2 : TObject) (hk : k ≠ TObject.nil)
    (hv1 : v1 ≠ TObject.nil) :
    ∃ t1 i, luaH_set t k v1 = .ok t1 ∧ i < t1.node.length ∧
      (getNode t1 i).key = k ∧
      luaH_set t1 k v2
        = .ok { t1 with node := updNode t1.node i (fun nd => { nd with val := v2 }) } ∧
      keyCount { t1 with node := updNode t1.node i (fun nd => { nd with val := v2 }) }
        = keyCount t1 ∧
      luaH_get { t1 with node := updNode t1.node i (fun nd => { nd with val := v2 }) } k
        = .ok v2 := by
  obtain ⟨t1, hset1, hwf1, habs1⟩ := luaH_set_spec w k v1 hk
  have habsk : absGet t1 k = v1 := by rw [habs1 k hk, if_pos rfl]
  have hex : ∃ i, i < t1.node.length ∧ (getNode t1 i).key = k := by
    by_contra hcon
    push_neg at hcon
    rw [absGet_absent hcon] at habsk
    exact hv1 habsk.symm
  obtain ⟨i, hi, hikey⟩ := hex
  have hcf := wf_chainFind_present hwf1 hi hikey hk
  have hset2 : luaH_set t1 k v2
      = .ok { t1 with node := updNode t1.node i (fun nd => { nd with val := v2 }) } := by
    simp only [luaH_set, luaH_mainposition_eq hk, hcf]
  refine ⟨t1, i, hset1, hi, hikey, hset2, ?_, ?_⟩
  · have e : ((updNode t1.node i (fun nd => { nd with val := v2 })).filter
        (fun nd => nd.key ≠ TObject.nil)).length
        = (t1.node.filter (fun nd => nd.key ≠ TObject.nil)).length :=
      filter_length_updNode_keep _ _ _ _ (fun nd => rfl)
    exact e
  · have hwf2 := wf_overwrite hwf1 i v2
    rw [wf_luaH_get_eq_absGet hwf2 hk, absGet_overwrite hwf1 hk hi hikey k hk,
      if_pos rfl]

theorem claim_C8_witness :
    ∃ t1 i, luaH_set (luaH_new 0) (.number 0) (.number 1) = .ok t1 ∧
      i < t1.node.length ∧ (getNode t1 i).key = .number 0 ∧
      luaH_set t1 (.number 0) (.number 2)
        = .ok { t1 with
            node := updNode t1.node i (fun nd => { nd with val := .number 2 }) } ∧
      keyCount { t1 with
          node := updNode t1.node i (fun nd => { nd with val := .number 2 }) }
        = keyCount t1 ∧
      luaH_get { t1 with
          node := updNode t1.node i (fun nd => { nd with val := .number 2 }) }
        (.number 0) = .ok (.number 2) :=
  claim_C8 (wf_luaH_new 0) (.number 0) (.number 1) (.number 2) (by decide) (by decide)

set_option maxRecDepth 100000 in
/-- C8 counterexample: with `v1 = Nil` the pair of sets is not an in-place
overwrite -- on a fresh one-slot table, `set k Nil` ends with an empty
table (the insertion triggers a rehash that drops the nil-valued pair), so
the following `set k v2` inserts a slot: the occupied-slot count goes from
0 to 1 and the array is resized from 1 to 2 slots. -/
theorem claim_C8_counterexample :
    keyCount (applySets (luaH_new 0) [((.number 0), TObject.nil)]) = 0 ∧
    keyCount (applySets (luaH_new 0)
      [((.number 0), TObject.nil), ((.number 0), (.number 7))]) = 1 ∧
    (applySets (luaH_new 0) [((.number 0), TObject.nil)]).node.length = 1 ∧
    (applySets (luaH_new 0)
      [((.number 0), TObject.nil), ((.number 0), (.number 7))]).node.length = 2 :=
  by decide

/-- C9 (amended): Delete-then-absent *for a non-nil first value* -- after
`set t k v` and `set t k Nil`, `get` returns Nil while the slot that holds
`k` keeps `k` in its key field with a nil value (tombstone-free deletion).
The original unrestricted claim is refuted by the counterexample: with
`v = Nil` on a fresh one-slot table both sets end in a rehash that drops
the pair, and no slot keeps the key. -/
theorem claim_C9 {t : Hash} (w : WF t) (k v : TObject) (hk : k ≠ TObject.nil)
    (hv : v ≠ TObject.nil) :
    ∃ t1 t2, luaH_set t k v = .ok t1 ∧ luaH_set t1 k TObject.nil = .ok t2 ∧
      luaH_get t2 k = .ok TObject.nil ∧
      ∃ i, i < t2.node.length ∧ (getNode t2 i).key = k ∧
        (getNode t2 i).val = TObject.nil := by
  obtain ⟨t1, hset1, hwf1, habs1⟩ := luaH_set_spec w k v hk
  have habsk : absGet t1 k = v := by rw [habs1 k hk, if_pos rfl]
  have hex : ∃ i, i < t1.node.length ∧ (getNode t1 i).key = k := by
    by_contra hcon
    push_neg at hcon
    rw [absGet_absent hcon] at habsk
    exact hv habsk.symm
  obtain ⟨i, hi, hikey⟩ := hex
  have hcf := wf_chainFind_present hwf1 hi hikey hk
  have hset2 : luaH_set t1 k TObject.nil
      = .ok { t1 with
          node := updNode t1.node i (fun nd => { nd with val := TObject.nil }) } := by
    simp only [luaH_set, luaH_mainposition_eq hk, hcf]
  refine ⟨t1, _, hset1, hset2, ?_, i, ?_, ?_, ?_⟩
  · have hwf2 := wf_overwrite hwf1 i TObject.nil
    rw [wf_luaH_get_eq_absGet hwf2 hk,
      absGet_overwrite hwf1 hk hi hikey k hk, if_pos rfl]
  · show i < (updNode t1.node i (fun nd => { nd with val := TObject.nil })).length
    rw [length_updNode]
    exact hi
  · show ((updNode t1.node i (fun nd => { nd with val := TObject.nil })).getD i
      dummyNode).key = k
    rw [getD_updNode_self _ _ _ hi]
    exact hikey
  · show ((updNode t1.node i (fun nd => { nd with val := TObject.nil })).getD i
      dummyNode).val = TObject.nil
    rw [getD_updNode_self _ _ _ hi]

theorem claim_C9_witness :
    ∃ t1 t2, luaH_set (luaH_new 0) (.number 0) (.number 9) = .ok t1 ∧
      luaH_set t1 (.number 0) TObject.nil = .ok t2 ∧
      luaH_get t2 (.number 0) = .ok TObject.nil ∧
      ∃ i, i < t2.node.length ∧ (getNode t2 i).key = .number 0 ∧
        (getNode t2 i).val = TObject.nil :=
  claim_C9 (wf_luaH_new 0) (.number 0) (.number 9) (by decide) (by decide)

set_option maxRecDepth 100000 in
/-- C9 counterexample: with `v = Nil` the deleted key does not stay in any
slot -- on a fresh one-slot table, `set k Nil; set k Nil` leaves a table
with no occupied slot at all (each insertion rehashes and the rehash drops
the nil-valued pair), even though `get` still returns Nil. -/
theorem claim_C9_counterexample :
    keyCount (applySets (luaH_new 0)
      [((.number 0), TObject.nil), ((.number 0), TObject.nil)]) = 0 ∧
    luaH_get (applySets (luaH_new 0)
      [((.number 0), TObject.nil), ((.number 0), TObject.nil)]) (.number 0)
      = .ok TObject.nil :=
  by decide
set_option maxRecDepth 100000 in
/-- C10 (amended): deleting an absent key is not a no-op on storage -- for
a well-formed table and a hashable key held by no slot, `set t k Nil`
inserts a slot holding `k` with a nil value through the normal insertion
path (the occupied-slot count grows by one), and either keeps the inserted
array with the cursor moved down to the next free slot (not above its old
place) or, when no free slot remains, triggers a rehash; `get` returns Nil
both before and after.  The cursor itself need not decrease (see the
counterexample): it moves only as far as the next free slot, which can be
its current slot.  Concretely, a nil-valued `set` of an absent key on a
full 4-slot table triggers a rehash to 8 slots. -/
theorem claim_C10 :
    (∀ t : Hash, WF t → ∀ k : TObject, k ≠ TObject.nil →
      (∀ i, i < t.node.length → (getNode t i).key ≠ k) →
      luaH_get t k = .ok TObject.nil ∧
      keyCount (insertNew t (mainposIdx t.node.length k) k TObject.nil)
        = keyCount t + 1 ∧
      ∃ t2, luaH_set t k TObject.nil = .ok t2 ∧ luaH_get t2 k = .ok TObject.nil ∧
        ((t2.node = (insertNew t (mainposIdx t.node.length k) k TObject.nil).node ∧
          t2.firstfree ≤ t.firstfree)
         ∨ t2 = rehash (insertNew t (mainposIdx t.node.length k) k TObject.nil))) ∧
    (applySets (luaH_new 0) [((.number 0), (.number 10)), ((.number 1), (.number 11)),
      ((.number 2), (.number 12))]).node.length = 4 ∧
    (applySets (luaH_new 0) [((.number 0), (.number 10)), ((.number 1), (.number 11)),
      ((.number 2), (.number 12)), ((.number 3), TObject.nil)]).node.length = 8 := by
  refine ⟨?_, by decide, by decide⟩
  intro t w k hk habs
  have hget1 : luaH_get t k = .ok TObject.nil := by
    rw [wf_luaH_get_eq_absGet w hk, absGet_absent habs]
  have ins := insOK_any (v := TObject.nil) w hk habs
  refine ⟨hget1, ins.hcount, ?_⟩
  have hcf : chainFind t k t.node.length (mainposIdx t.node.length k) = none :=
    wf_chainFind_absent w habs
  simp only [luaH_set, luaH_mainposition_eq hk, hcf]
  cases hfd : findFreeDown (insertNew t (mainposIdx t.node.length k) k TObject.nil).node
      (insertNew t (mainposIdx t.node.length k) k TObject.nil).firstfree with
  | some ff =>
    refine ⟨_, rfl, ?_, Or.inl ⟨rfl, ?_⟩⟩
    · have hwf2 := wf_of_insOK_cursor w ins hfd
      rw [wf_luaH_get_eq_absGet hwf2 hk]
      have he : absGet { insertNew t (mainposIdx t.node.length k) k TObject.nil with
          firstfree := ff } k
          = absGet (insertNew t (mainposIdx t.node.length k) k TObject.nil) k := rfl
      rw [he, insOK_absGet w hk ins k hk, if_pos rfl]
    · have h1 := (findFreeDown_some hfd).1
      rw [ins.hffEq] at h1
      exact h1
  | none =>
    have hkeys := insOK_full ins hfd
    have hdist : ∀ i j,
        i < (insertNew t (mainposIdx t.node.length k) k TObject.nil).node.length →
        j < (insertNew t (mainposIdx t.node.length k) k TObject.nil).node.length →
        (getNode (insertNew t (mainposIdx t.node.length k) k TObject.nil) i).key
          ≠ TObject.nil →
        (getNode (insertNew t (mainposIdx t.node.length k) k TObject.nil) i).key
          = (getNode (insertNew t (mainposIdx t.node.length k) k TObject.nil) j).key →
        i = j := by
      intro i j hi hj hk3 he
      exact ins.hdistinct i j (by rw [← ins.hlen]; exact hi)
        (by rw [← ins.hlen]; exact hj) hk3 he
    obtain ⟨hwf, hlen2, habsG⟩ := rehash_spec hkeys hdist
    refine ⟨_, rfl, ?_, Or.inr rfl⟩
    rw [wf_luaH_get_eq_absGet hwf hk, habsG k, insOK_absGet w hk ins k hk, if_pos rfl]

/-- C10 counterexample: the cursor is not always decremented -- on a fresh
2-slot table, `set` of the absent key `0` with value Nil consumes slot 0
(the occupied-slot count grows from 0 to 1) while `firstfree` stays at 1,
because the cursor's own slot is still free. -/
theorem claim_C10_counterexample :
    (setOr (luaH_new 1) ((.number 0), TObject.nil)).firstfree
      = (luaH_new 1).firstfree ∧
    keyCount (setOr (luaH_new 1) ((.number 0), TObject.nil))
      = keyCount (luaH_new 1) + 1 :=
  by decide

end Lunatik
